import Mathlib

/-!
A shallow embedding of the JSNetworkX core (graph classes, keyed map,
relabeling subsystem) together with theorems settling the specification
claims.  Sources embedded:

* `src/jsnx/classes/map.js`     — `jsnx.classes.HashMap` (hash-bucketed map)
* `src/jsnx/classes/graph.js`   — `jsnx.classes.Graph` (simple undirected)
* `src/jsnx/classes/digraph.js` — `jsnx.classes.DiGraph`
* `src/jsnx/classes/multigraph.js`, `multidigraph.js` — multi variants
* `src/unnamed/part_000`        — `jsnx.relabel`

JavaScript objects used as attribute records are modelled by an explicit
heap (a list of records, an address being the index), so that reference
identity and aliasing of records is expressible.  Values stored in records
are numbers, strings, or references into the heap.
-/

namespace JSNX

/-- A JavaScript value stored inside an attribute record: a (numeric or
string) primitive, or a reference to another object in the heap. -/
inductive JVal where
  | num : Int → JVal
  | str : String → JVal
  | ref : Nat → JVal
deriving DecidableEq, Repr

/-- A JavaScript object used as an attribute record: an ordered list of
named fields. -/
abbrev Obj : Type := List (String × JVal)

/-- The heap of allocated attribute records; the address of a record is its
index, allocation appends. -/
abbrev Heap : Type := List Obj

/-- Assign a field of a record: overwrite in place if the name is present,
append otherwise (JavaScript property assignment). -/
def objSetField (o : Obj) (k : String) (v : JVal) : Obj :=
  match o with
  | [] => [(k, v)]
  | (k₀, v₀) :: rest =>
      if k₀ = k then (k₀, v) :: rest else (k₀, v₀) :: objSetField rest k v

/-- `goog.object.extend(target, source)`: assign every field of `source`
into `target`, in order. -/
def objExtend (target source : Obj) : Obj :=
  source.foldl (fun acc kv => objSetField acc kv.1 kv.2) target

/-- Read a field of a record. -/
def objGet (o : Obj) (k : String) : Option JVal :=
  match o.find? (fun kv => kv.1 = k) with
  | some kv => some kv.2
  | none => none

/-- Allocate a fresh record on the heap, returning its address. -/
def halloc (h : Heap) (o : Obj) : Heap × Nat :=
  (h ++ [o], h.length)

/-- Read the record at an address (the empty record for a dangling
address, which never occurs in well-formed states). -/
def heapAt (h : Heap) (a : Nat) : Obj :=
  (h.get? a).getD []

/-- Overwrite the record at an address. -/
def heapSet (h : Heap) (a : Nat) (o : Obj) : Heap :=
  h.set a o

/-- `goog.object.extend` performed at a heap address. -/
def heapExtend (h : Heap) (a : Nat) (source : Obj) : Heap :=
  heapSet h a (objExtend (heapAt h a) source)

/-- A JavaScript plain object used as a dictionary: keys are strings (as
JavaScript coerces all property names to strings).  Models the `mapping`
dictionaries of `jsnx.relabel`. -/
abbrev SMap (V : Type) : Type := List (String × V)

/-- Property assignment on a plain-object dictionary. -/
def jsoSet {V} (m : SMap V) (k : String) (v : V) : SMap V :=
  match m with
  | [] => [(k, v)]
  | (k₀, v₀) :: rest =>
      if k₀ = k then (k₀, v) :: rest else (k₀, v₀) :: jsoSet rest k v

/-- `goog.object.containsKey` on a plain-object dictionary. -/
def jsoContains {V} (m : SMap V) (k : String) : Bool :=
  m.any (fun kv => kv.1 = k)

/-- `goog.object.get(obj, key, default)` on a plain-object dictionary. -/
def jsoGetD {V} (m : SMap V) (k : String) (d : V) : V :=
  match m.find? (fun kv => kv.1 = k) with
  | some kv => kv.2
  | none => d

/-- `goog.object.getKeys`. -/
def jsoKeys {V} (m : SMap V) : List String := m.map Prod.fst

/-- `goog.object.getValues`. -/
def jsoValues {V} (m : SMap V) : List V := m.map Prod.snd

/-- `jsnx.helper.items`: the key/value pairs of a plain-object dictionary. -/
def jsoItems {V} (m : SMap V) : List (String × V) := m

end JSNX

namespace JSNX

/-- A node identifier as used by the library: a number, a string, or a
structural record (identified by its `goog.getUid` unique id). -/
inductive NodeId where
  | num : Int → NodeId
  | str : String → NodeId
  | obj : Nat → NodeId
deriving DecidableEq, Repr

/-- JavaScript string coercion of a node identifier (`"" + val`): numbers
print their decimal form, strings are themselves, and plain records print
as `[object Object]`. -/
def jsToString : NodeId → String
  | NodeId.num n => toString n
  | NodeId.str s => s
  | NodeId.obj _ => "[object Object]"

/-- `jsnx.classes.HashMap.prototype.keyHash_` for a map without a custom
hash function: a record uses its `goog.getUid` unique id, every other value
its string coercion.  (Our `NodeId` values carry no `hash` member.) -/
def keyHash : NodeId → String
  | NodeId.num n => toString n
  | NodeId.str s => s
  | NodeId.obj u => toString u

/-- `jsnx.classes.HashMap` (`src/jsnx/classes/map.js`, second half): each
bucket holds a single `[key, value]` entry indexed by the key hash; the
entry list is kept in insertion order (`hashes_`), `version_` detects
mutation during iteration and `count_` equals the number of live buckets.
Stale hashes left by `remove` are cleaned up before iteration, so the entry
list models `map_` plus a cleaned `hashes_` array. -/
structure HashMap (V : Type) where
  entries : List (String × NodeId × V)
  version : Nat
deriving Repr

/-- The empty `HashMap`. -/
def hmEmpty {V} : HashMap V := { entries := [], version := 0 }

/-- Whether a bucket exists for a hash (`hasHash_`). -/
def hmHasHash {V} (m : HashMap V) (h : String) : Bool :=
  m.entries.any (fun e => e.1 = h)

/-- The entry stored in the bucket for a hash, if any. -/
def hmBucket {V} (m : HashMap V) (h : String) : Option (NodeId × V) :=
  match m.entries.find? (fun e => e.1 = h) with
  | some e => some e.2
  | none => none

/-- `HashMap.prototype.set`: if the hash is new, append the entry and bump
the version and count; otherwise overwrite the bucket (key included)
without touching the version. -/
def hmSet {V} (m : HashMap V) (k : NodeId) (v : V) : HashMap V :=
  let h := keyHash k
  if hmHasHash m h then
    { m with entries := m.entries.map (fun e => if e.1 = h then (h, k, v) else e) }
  else
    { entries := m.entries ++ [(h, k, v)], version := m.version + 1 }

/-- `HashMap.prototype.remove`: delete the bucket and bump the version when
the hash is present; otherwise do nothing. -/
def hmRemove {V} (m : HashMap V) (k : NodeId) : HashMap V :=
  let h := keyHash k
  if hmHasHash m h then
    { entries := m.entries.filter (fun e => ¬ e.1 = h), version := m.version + 1 }
  else m

/-- `HashMap.prototype.containsKey`: the bucket for the key hash must exist
and hold a reference-identical (`===`) key. -/
def hmContainsKey {V} (m : HashMap V) (k : NodeId) : Bool :=
  match hmBucket m (keyHash k) with
  | some e => e.1 = k
  | none => false

/-- `HashMap.prototype.get`: when the bucket for the key hash exists but
holds a different key, the code throws
`Error("Provided key not equal to hashed key")` instead of returning the
default value. -/
def hmGet {V} (m : HashMap V) (k : NodeId) (dflt : V) : Except String V :=
  match hmBucket m (keyHash k) with
  | some e =>
      if e.1 = k then Except.ok e.2
      else Except.error "Provided key not equal to hashed key"
  | none => Except.ok dflt

/-- `HashMap.prototype.getCount`. -/
def hmCount {V} (m : HashMap V) : Nat := m.entries.length

/-- An iterator over a `HashMap` (`__iterator__`): it captures the map
version at creation and keeps a cursor into the entry list. -/
structure HMIter where
  ver : Nat
  idx : Nat
deriving Repr, DecidableEq

/-- `HashMap.prototype.__iterator__`: create an iterator, capturing the
current version. -/
def hmIterator {V} (m : HashMap V) : HMIter := { ver := m.version, idx := 0 }

/-- The outcome of advancing a `HashMap` iterator. -/
inductive HMStep (V : Type) where
  | err : String → HMStep V
  | stop : HMStep V
  | item : NodeId × V → HMIter → HMStep V
deriving Repr

/-- One `next()` call on a `HashMap` iterator: a version mismatch throws
`Error("The map has changed since the iterator was created")` before
anything is yielded; past the end it raises `StopIteration`; otherwise it
yields the next entry. -/
def hmNext {V} (m : HashMap V) (it : HMIter) : HMStep V :=
  if it.ver ≠ m.version then
    HMStep.err "The map has changed since the iterator was created"
  else
    match m.entries.get? it.idx with
    | some e => HMStep.item e.2 { it with idx := it.idx + 1 }
    | none => HMStep.stop

/-- The keyed-map view used by the graph classes.  Graph code stores nodes
whose hashes are pairwise distinct (hash collisions between live keys are
the separate pathology settled against the `HashMap` model itself), so a
`jsnx.classes.HashMap` behaves as an insertion-ordered association list
plus the `version_` counter: `set` of a present key overwrites in place
without bumping the version, `set` of a new key appends and bumps it, and
`remove` of a present key deletes and bumps it. -/
structure JMap (K V : Type) where
  entries : List (K × V)
  version : Nat
deriving DecidableEq, Repr

/-- The empty map (`newNodeMap_` / `newEdgeMap_`). -/
def jmEmpty {K V} : JMap K V := { entries := [], version := 0 }

/-- The keys, in insertion order. -/
def jmKeys {K V} (m : JMap K V) : List K := m.entries.map Prod.fst

/-- `containsKey`. -/
def jmContains {K V} [DecidableEq K] (m : JMap K V) (k : K) : Bool :=
  m.entries.any (fun e => e.1 = k)

/-- `get` without a default (`undefined` when absent). -/
def jmGet {K V} [DecidableEq K] (m : JMap K V) (k : K) : Option V :=
  match m.entries.find? (fun e => e.1 = k) with
  | some e => some e.2
  | none => none

/-- `get(key, default)`. -/
def jmGetD {K V} [DecidableEq K] (m : JMap K V) (k : K) (d : V) : V :=
  (jmGet m k).getD d

/-- `set`. -/
def jmSet {K V} [DecidableEq K] (m : JMap K V) (k : K) (v : V) : JMap K V :=
  if jmContains m k then
    { m with entries := m.entries.map (fun e => if e.1 = k then (k, v) else e) }
  else
    { entries := m.entries ++ [(k, v)], version := m.version + 1 }

/-- `remove`. -/
def jmRemove {K V} [DecidableEq K] (m : JMap K V) (k : K) : JMap K V :=
  if jmContains m k then
    { entries := m.entries.filter (fun e => ¬ e.1 = k), version := m.version + 1 }
  else m

/-- `getCount`. -/
def jmCount {K V} (m : JMap K V) : Nat := m.entries.length

/-- The errors the embedded code can raise: `jsnx.exception.JSNetworkXError`
(lookup and structural failures), `jsnx.exception.JSNetworkXUnfeasible`
(infeasibility), plain `Error` (e.g. the concurrent-modification error of
the keyed map), and `TypeError`. -/
inductive JErr where
  | jsnxError : String → JErr
  | unfeasible : String → JErr
  | jsError : String → JErr
  | typeError : String → JErr
deriving DecidableEq, Repr

instance {E A : Type} [DecidableEq E] [DecidableEq A] :
    DecidableEq (Except E A) := fun a b =>
  match a, b with
  | Except.ok x, Except.ok y =>
      if h : x = y then Decidable.isTrue (by rw [h])
      else Decidable.isFalse (by intro hc; cases hc; exact h rfl)
  | Except.error x, Except.error y =>
      if h : x = y then Decidable.isTrue (by rw [h])
      else Decidable.isFalse (by intro hc; cases hc; exact h rfl)
  | Except.ok _, Except.error _ => Decidable.isFalse (by intro hc; cases hc)
  | Except.error _, Except.ok _ => Decidable.isFalse (by intro hc; cases hc)

/-- `jsnx.classes.Graph` (simple undirected): graph attributes, the node
map (node → attribute-record address) and the adjacency map
(node → (neighbor → shared edge-record address)).  Attribute records live
in the explicit heap threaded alongside. -/
structure Graph (N : Type) where
  nodes_ : JMap N Nat
  adj_ : JMap N (JMap N Nat)
  graphAttrs : Obj
deriving DecidableEq, Repr

/-- The empty graph. -/
def Graph.empty {N} : Graph N :=
  { nodes_ := jmEmpty, adj_ := jmEmpty, graphAttrs := [] }

/-- `has_node`. -/
def Graph.has_node {N} [DecidableEq N] (g : Graph N) (n : N) : Bool :=
  jmContains g.nodes_ n

/-- `adj(n)`: the neighbor map of `n` (the empty map when `n` is absent,
standing for the `undefined` of the source). -/
def Graph.adjOf {N} [DecidableEq N] (g : Graph N) (n : N) : JMap N Nat :=
  jmGetD g.adj_ n jmEmpty

/-- Replace the neighbor map of `n` (mutation of the inner map object
through `this.adj(n)`). -/
def Graph.adjUpdate {N} [DecidableEq N] (g : Graph N) (n : N)
    (f : JMap N Nat → JMap N Nat) : Graph N :=
  { g with adj_ := jmSet g.adj_ n (f (Graph.adjOf g n)) }

/-- `add_node_impl(n, attrDict)` where `a` is the address of the attribute
record passed in: a new node stores the record itself; an existing node has
the record's fields merged into its current record. -/
def Graph.add_node_impl {N} [DecidableEq N] (g : Graph N) (h : Heap) (n : N)
    (a : Nat) : Graph N × Heap :=
  if g.has_node n then
    match jmGet g.nodes_ n with
    | some a₀ => (g, heapExtend h a₀ (heapAt h a))
    | none => (g, h)
  else
    ({ g with adj_ := jmSet g.adj_ n jmEmpty, nodes_ := jmSet g.nodes_ n a }, h)

/-- `add_node(n, attrs)`: the caller's attribute dictionary (an allocated
object, `{}` when omitted) handed to `add_node_impl`. -/
def Graph.add_node {N} [DecidableEq N] (g : Graph N) (h : Heap) (n : N)
    (attrs : Obj) : Graph N × Heap :=
  let al := halloc h attrs
  Graph.add_node_impl g al.1 n al.2

/-- `add_edge_impl(u, v, attrDict)`: ensure both endpoints exist; merge
into the existing shared record if the edge is present, else allocate one
record and store its address under both `adj[u][v]` and `adj[v][u]`. -/
def Graph.add_edge_impl {N} [DecidableEq N] (g : Graph N) (h : Heap)
    (u v : N) (dict : Obj) : Graph N × Heap :=
  let s₁ := Graph.add_node g h u []
  let s₂ := Graph.add_node s₁.1 s₁.2 v []
  let g₂ := s₂.1
  let h₂ := s₂.2
  let edges := g₂.adjOf u
  if jmContains edges v then
    (g₂, heapExtend h₂ (jmGetD edges v 0) dict)
  else
    let al := halloc h₂ (objExtend [] dict)
    let g₃ := Graph.adjUpdate g₂ u (fun m => jmSet m v al.2)
    let g₄ := Graph.adjUpdate g₃ v (fun m => jmSet m u al.2)
    (g₄, al.1)

/-- `add_edge(u, v, attrs)` (the attribute argument of our embedding is
always a record, so the structural type check of the source passes). -/
def Graph.add_edge {N} [DecidableEq N] (g : Graph N) (h : Heap) (u v : N)
    (dict : Obj) : Graph N × Heap :=
  Graph.add_edge_impl g h u v dict

/-- `has_edge(u, v)`. -/
def Graph.has_edge {N} [DecidableEq N] (g : Graph N) (u v : N) : Bool :=
  g.has_node u && g.has_node v && jmContains (g.adjOf u) v

/-- `remove_edge_impl(u, v)` wrapped by `remove_edge`: reading `adj(u)` of
an absent node is the `TypeError` which the wrapper converts into
`JSNetworkXError('The edge u-v is not in the graph')`.  The mutation
performed before the failing lookup is kept. -/
def Graph.remove_edge {N} [DecidableEq N] (g : Graph N) (h : Heap)
    (u v : N) : Except JErr Unit × Graph N × Heap :=
  if ¬ jmContains g.adj_ u then
    (Except.error (JErr.jsnxError "The edge is not in the graph"), g, h)
  else
    let g₁ := Graph.adjUpdate g u (fun m => jmRemove m v)
    if u = v then (Except.ok (), g₁, h)
    else if ¬ jmContains g₁.adj_ v then
      (Except.error (JErr.jsnxError "The edge is not in the graph"), g₁, h)
    else
      (Except.ok (), Graph.adjUpdate g₁ v (fun m => jmRemove m u), h)

/-- The iteration loop of `remove_node_impl`: `nbrs` is the *lazy* key
iterator of `adj(n)` created before the loop, so each step first compares
the captured version `ver` against the current version of `adj(n)` and
throws `Error('The map has changed since the iterator was created')` on a
mismatch; otherwise the `i`-th neighbor `u` is read and `adj(u).remove(n)`
executed.  The fuel argument only bounds the recursion; it is chosen large
enough that it never runs out. -/
def Graph.remove_node_loop {N} [DecidableEq N] (g : Graph N) (n : N)
    (ver : Nat) (i : Nat) : Nat → Except JErr (Graph N) × Graph N
  | 0 => (Except.error (JErr.jsError "out of fuel"), g)
  | fuel + 1 =>
    let m := g.adjOf n
    if ver ≠ m.version then
      (Except.error (JErr.jsError "The map has changed since the iterator was created"), g)
    else
      match m.entries.get? i with
      | none => (Except.ok g, g)
      | some e =>
          let g₁ := Graph.adjUpdate g e.1 (fun m₁ => jmRemove m₁ n)
          Graph.remove_node_loop g₁ n ver (i + 1) fuel

/-- `remove_node_impl(n)`: create the neighbor iterator, remove `n` from
the node map, remove `n` from each neighbor's map (the loop above), and
finally remove `n` from the adjacency map.  On the iterator error the
partially mutated graph is kept. -/
def Graph.remove_node_impl {N} [DecidableEq N] (g : Graph N) (h : Heap)
    (n : N) : Except JErr Unit × Graph N × Heap :=
  let ver := (g.adjOf n).version
  let g₁ := { g with nodes_ := jmRemove g.nodes_ n }
  match Graph.remove_node_loop g₁ n ver 0 ((g.adjOf n).entries.length + 2) with
  | (Except.ok g₂, _) =>
      (Except.ok (), { g₂ with adj_ := jmRemove g₂.adj_ n }, h)
  | (Except.error e, g₂) => (Except.error e, g₂, h)

/-- `remove_node(n)`: unknown nodes raise the lookup error. -/
def Graph.remove_node {N} [DecidableEq N] (g : Graph N) (h : Heap)
    (n : N) : Except JErr Unit × Graph N × Heap :=
  if g.has_node n then Graph.remove_node_impl g h n
  else (Except.error (JErr.jsnxError "The node is not in the graph to remove"), g, h)

/-- The body of `generate_edges_iter` (graph.js) with no node bunch, as a
list: walk the adjacency entries in order; for each node `n`, yield
`(n, w, d)` for every neighbor entry `(w, d)` whose node `w` is not in the
`seen` map, and mark `n` seen after its neighbor entries are exhausted.
`jsnx.helper.nested_chain` is not part of the sources; modelled from the
spec, it chains the produced iterators and silently skips elements on which
the last function returns `undefined` — which is exactly the skipping of
seen neighbors the spec describes. -/
def Graph.generate_edges_list {N : Type} [DecidableEq N] :
    List (N × JMap N Nat) → List N → List (N × N × Nat)
  | [], _ => []
  | (n, nbrs) :: rest, seen =>
      nbrs.entries.filterMap
        (fun e => if e.1 ∈ seen then none else some (n, e.1, e.2))
      ++ Graph.generate_edges_list rest (n :: seen)

/-- `edges_iter()` without a node bunch, with `data = true`, as the list of
yielded `(u, v, record address)` triples. -/
def Graph.edges_with_data {N} [DecidableEq N] (g : Graph N) :
    List (N × N × Nat) :=
  Graph.generate_edges_list g.adj_.entries []

/-- `edges_iter()` without data: only the `(u, v)` pairs. -/
def Graph.edges_list {N} [DecidableEq N] (g : Graph N) : List (N × N) :=
  (Graph.edges_with_data g).map (fun t => (t.1, t.2.1))

/-- `edges_iter(n, true)` for the single-node bunch `[n]` (as used by the
in-place relabel): the generated iterator starts with a fresh `seen` map,
so every neighbor entry of `n` is yielded. -/
def Graph.edges_of_node {N} [DecidableEq N] (g : Graph N) (n : N) :
    List (N × N × Nat) :=
  Graph.generate_edges_list [(n, g.adjOf n)] []

/-- `jsnx.classes.Graph.count_edges`: the unweighted degree accumulator —
the neighbor count plus one more when a self loop is present. -/
def Graph.count_edges {N} [DecidableEq N] (n : N) (nbrs : JMap N Nat) : Nat :=
  jmCount nbrs + (if jmContains nbrs n then 1 else 0)

/-- `degree_iter()` (unweighted, no bunch): `(node, degree)` pairs in
adjacency order. -/
def Graph.degree_list {N} [DecidableEq N] (g : Graph N) : List (N × Nat) :=
  g.adj_.entries.map (fun e => (e.1, Graph.count_edges e.1 e.2))

/-- `nodes()`: the node keys in insertion order. -/
def Graph.nodes {N} (g : Graph N) : List N := jmKeys g.nodes_

/-- `order()` / `number_of_nodes()`. -/
def Graph.order {N} (g : Graph N) : Nat := jmCount g.nodes_

/-- `add_edges_from(ebunch, attrs)` over 3-tuples `(u, v, d)`: each edge is
added with `clone(attrs)` extended by `d`. -/
def Graph.add_edges_from {N} [DecidableEq N] (g : Graph N) (h : Heap)
    (ebunch : List (N × N × Obj)) (base : Obj) : Graph N × Heap :=
  ebunch.foldl
    (fun s e => Graph.add_edge s.1 s.2 e.1 e.2.1 (objExtend base e.2.2))
    (g, h)

/-- `add_nodes_from(nodes)` over plain node labels (no attribute
argument): new nodes are added with a fresh empty record, existing nodes
are extended with the empty record, a no-op. -/
def Graph.add_nodes_from_plain {N} [DecidableEq N] (g : Graph N) (h : Heap)
    (ns : List N) : Graph N × Heap :=
  ns.foldl
    (fun s n => if s.1.has_node n then s else Graph.add_node s.1 s.2 n [])
    (g, h)

/-- `add_nodes_from(pairs)` over `(node, attrDict)` tuples, the dictionary
given by its record address: the source clones the base `{}`, extends the
clone with the tuple's dictionary (copying its current fields into a fresh
object) and passes that fresh object to `add_node_impl`. -/
def Graph.add_nodes_from_pairs {N} [DecidableEq N] (g : Graph N) (h : Heap)
    (ps : List (N × Nat)) : Graph N × Heap :=
  ps.foldl
    (fun s p =>
      let al := halloc s.2 (objExtend [] (heapAt s.2 p.2))
      Graph.add_node_impl s.1 al.1 p.1 al.2)
    (g, h)

/-- `name()`: the `name` field of the graph attributes, or `''`. -/
def Graph.gname {N} (g : Graph N) : String :=
  match objGet g.graphAttrs "name" with
  | some (JVal.str s) => s
  | _ => ""

/-- `name(s)`: set the name. -/
def Graph.setName {N} (g : Graph N) (s : String) : Graph N :=
  { g with graphAttrs := objSetField g.graphAttrs "name" (JVal.str s) }

mutual

/-- `jsnx.helper.deepcopy` on a stored value (the helper module is not in
the sources; modelled from the spec: a deep copy clones every reachable
record).  Fuel bounds the recursion; it is always called with fuel larger
than the size of the copied structure. -/
def deepcopyVal : Nat → Heap → JVal → Heap × JVal
  | 0, h, v => (h, v)
  | fuel + 1, h, JVal.ref a =>
      let r := deepcopyObj fuel h (heapAt h a)
      let al := halloc r.1 r.2
      (al.1, JVal.ref al.2)
  | _ + 1, h, v => (h, v)

/-- `jsnx.helper.deepcopy` on a record: copy each field, cloning referenced
records into fresh heap cells. -/
def deepcopyObj : Nat → Heap → Obj → Heap × Obj
  | 0, h, o => (h, o)
  | fuel + 1, h, o =>
      o.foldl
        (fun acc kv =>
          let r := deepcopyVal fuel acc.1 kv.2
          (r.1, acc.2 ++ [(kv.1, r.2)]))
        (h, [])

end

/-- `jsnx.classes.DiGraph`: the node map plus the two mirrored adjacency
maps `succ_` (= `adj_`) and `pred_`. -/
structure DiGraph (N : Type) where
  nodes_ : JMap N Nat
  succ_ : JMap N (JMap N Nat)
  pred_ : JMap N (JMap N Nat)
  graphAttrs : Obj
deriving DecidableEq

/-- The empty digraph. -/
def DiGraph.empty {N} : DiGraph N :=
  { nodes_ := jmEmpty, succ_ := jmEmpty, pred_ := jmEmpty, graphAttrs := [] }

/-- `has_node`. -/
def DiGraph.has_node {N} [DecidableEq N] (g : DiGraph N) (n : N) : Bool :=
  jmContains g.nodes_ n

/-- `succ(n)`. -/
def DiGraph.succOf {N} [DecidableEq N] (g : DiGraph N) (n : N) : JMap N Nat :=
  jmGetD g.succ_ n jmEmpty

/-- `pred(n)`. -/
def DiGraph.predOf {N} [DecidableEq N] (g : DiGraph N) (n : N) : JMap N Nat :=
  jmGetD g.pred_ n jmEmpty

/-- `DiGraph.add_node_impl(n, attrs)` with the record address `a` of the
caller's dictionary.  The `goog.isDefAndNotNull` check at digraph.js line
122 is inverted: a provided dictionary is immediately replaced by a fresh
`{}`, so the record at `a` is dropped — a new node stores a freshly
allocated empty record, and an existing node is extended with `{}`, a
no-op. -/
def DiGraph.add_node_impl {N} [DecidableEq N] (g : DiGraph N) (h : Heap)
    (n : N) (a : Nat) : DiGraph N × Heap :=
  if jmContains g.nodes_ n then
    (g, h)
  else
    let al := halloc h []
    ({ g with succ_ := jmSet g.succ_ n jmEmpty,
              pred_ := jmSet g.pred_ n jmEmpty,
              nodes_ := jmSet g.nodes_ n al.2 }, al.1)

/-- `DiGraph.add_node` (allocating the `{}` default dictionary). -/
def DiGraph.add_node {N} [DecidableEq N] (g : DiGraph N) (h : Heap) (n : N)
    (attrs : Obj) : DiGraph N × Heap :=
  let al := halloc h attrs
  DiGraph.add_node_impl g al.1 n al.2

/-- `DiGraph.add_edge_impl(u, v, attrs)`: one shared record stored under
`succ[u][v]` and `pred[v][u]`. -/
def DiGraph.add_edge_impl {N} [DecidableEq N] (g : DiGraph N) (h : Heap)
    (u v : N) (dict : Obj) : DiGraph N × Heap :=
  let s₁ := DiGraph.add_node g h u []
  let s₂ := DiGraph.add_node s₁.1 s₁.2 v []
  let g₂ := s₂.1
  let h₂ := s₂.2
  let edges := g₂.succOf u
  if jmContains edges v then
    (g₂, heapExtend h₂ (jmGetD edges v 0) dict)
  else
    let al := halloc h₂ (objExtend [] dict)
    let g₃ := { g₂ with succ_ := jmSet g₂.succ_ u (jmSet (g₂.succOf u) v al.2) }
    let g₄ := { g₃ with pred_ := jmSet g₃.pred_ v (jmSet (g₃.predOf v) u al.2) }
    (g₄, al.1)

/-- `has_edge(u, v)` (via `adj` = `succ`). -/
def DiGraph.has_edge {N} [DecidableEq N] (g : DiGraph N) (u v : N) : Bool :=
  g.has_node u && g.has_node v && jmContains (g.succOf u) v

/-- `DiGraph.remove_edge_impl(u, v)` (digraph.js lines 217-222): the guard
calls `this.has_node_(u)`, but no method named `has_node_` exists anywhere
in the sources (only `has_node` does), so evaluating the guard raises
`TypeError` before anything is removed — every call to this method
throws. -/
def DiGraph.remove_edge_impl {N} [DecidableEq N] (g : DiGraph N)
    (u v : N) : Except JErr (DiGraph N) :=
  Except.error (JErr.typeError "this.has_node_ is not a function")

/-- Constructing a digraph from an edge list of 2-tuples: the constructor
hands the data to the external `jsnx.convert` collaborator, which is not in
the sources; modelled from the spec, this equals empty construction
followed by `add_edges_from`, each edge added with an empty attribute
dictionary. -/
def DiGraph.from_edge_pairs {N} [DecidableEq N] (h : Heap)
    (es : List (N × N)) : DiGraph N × Heap :=
  es.foldl (fun s e => DiGraph.add_edge_impl s.1 s.2 e.1 e.2 [])
    (DiGraph.empty, h)

/-- `selfloop_edges()` (graph.js, inherited): the `(n, n)` pairs for every
adjacency entry containing its own node. -/
def DiGraph.selfloop_edges {N} [DecidableEq N] (g : DiGraph N) :
    List (N × N) :=
  (g.succ_.entries.filter (fun e => jmContains e.2 e.1)).map
    (fun e => (e.1, e.1))

/-- `remove_edges_from(ebunch)` (graph.js lines 686-694, inherited by the
digraph): each listed edge present in the graph is handed to
`remove_edge_impl`, missing ones are skipped.  For a digraph that call
raises the `TypeError` of the undefined `has_node_`, which propagates out
of the loop. -/
def DiGraph.remove_edges_from {N} [DecidableEq N] :
    DiGraph N → List (N × N) → Except JErr (DiGraph N)
  | g, [] => Except.ok g
  | g, e :: rest =>
      if DiGraph.has_edge g e.1 e.2 then
        match DiGraph.remove_edge_impl g e.1 e.2 with
        | Except.ok g₁ => DiGraph.remove_edges_from g₁ rest
        | Except.error err => Except.error err
      else DiGraph.remove_edges_from g rest

/-- `DiGraph.generate_edges_iter` for `edges_iter()` / `out_edges_iter()`
(no bunch, `include_pred = true`, `include_succ = false`): the outer
iteration runs over the predecessor adjacency entries and the inner one
over each entry list, but the final `nested_chain` callback reads
`function(nbrd) { visit(n, nbrd); }` — it computes `visit` and returns
`undefined`, and `nested_chain` (modelled from the spec) skips every
element on which the callback returns `undefined`. -/
def DiGraph.generate_edges_list {N} [DecidableEq N] (g : DiGraph N) :
    List (N × N) :=
  g.pred_.entries.flatMap
    (fun nd => nd.2.entries.filterMap (fun _ => (none : Option (N × N))))

/-- `DiGraph.edges_iter()` without a node bunch, as a list. -/
def DiGraph.edges_list {N} [DecidableEq N] (g : DiGraph N) : List (N × N) :=
  DiGraph.generate_edges_list g

/-- The unique-integer-key search shared by the multigraph and
multidigraph `add_edge_impl`: start at `keydict.getCount()` and increment
while the candidate is present.  Edge keys are modelled as the numeric keys
the auto-assignment uses.  Fuel bounds the loop; `getCount() + 1` steps
always suffice because the map holds `getCount()` keys. -/
def autoKeyGo {V} (kd : JMap Nat V) : Nat → Nat → Nat
  | 0, k => k
  | fuel + 1, k => if jmContains kd k then autoKeyGo kd fuel (k + 1) else k

/-- The key chosen by `add_edge` when the caller supplies none and the
`(u,v)` entry exists. -/
def autoKey {V} (kd : JMap Nat V) : Nat :=
  autoKeyGo kd (jmCount kd + 1) (jmCount kd)

/-- `jsnx.classes.MultiGraph`: the per-neighbor attribute record is
replaced by a key-map from edge key to record address. -/
structure MultiGraph (N : Type) where
  nodes_ : JMap N Nat
  adj_ : JMap N (JMap N (JMap Nat Nat))
deriving DecidableEq

/-- The empty multigraph. -/
def MultiGraph.empty {N} : MultiGraph N :=
  { nodes_ := jmEmpty, adj_ := jmEmpty }

/-- `adj(n)` of a multigraph. -/
def MultiGraph.adjOf {N} [DecidableEq N] (g : MultiGraph N) (n : N) :
    JMap N (JMap Nat Nat) :=
  jmGetD g.adj_ n jmEmpty

/-- The key-map stored for the pair `(u,v)`, if any. -/
def MultiGraph.keydict {N} [DecidableEq N] (g : MultiGraph N) (u v : N) :
    Option (JMap Nat Nat) :=
  jmGet (g.adjOf u) v

/-- `Graph.add_node(n)` as inherited by `MultiGraph` (fresh empty record). -/
def MultiGraph.add_node {N} [DecidableEq N] (g : MultiGraph N) (h : Heap)
    (n : N) : MultiGraph N × Heap :=
  if jmContains g.nodes_ n then (g, (halloc h []).1)
  else
    let al := halloc h []
    ({ g with adj_ := jmSet g.adj_ n jmEmpty, nodes_ := jmSet g.nodes_ n al.2 },
     al.1)

/-- Store the (shared) key-map under both `adj[u][v]` and `adj[v][u]`; in
the source a single object is referenced from both sides, so an in-place
mutation of the key-map is modelled by writing the new value to both
mirror entries. -/
def MultiGraph.setKeydict {N} [DecidableEq N] (g : MultiGraph N) (u v : N)
    (kd : JMap Nat Nat) : MultiGraph N :=
  let g₁ := { g with adj_ := jmSet g.adj_ u (jmSet (g.adjOf u) v kd) }
  { g₁ with adj_ := jmSet g₁.adj_ v (jmSet (g₁.adjOf v) u kd) }

/-- `MultiGraph.add_edge_impl(u, v, key?, attrs)`
(`src/jsnx/classes/multigraph.js`, lines 110-143): with no caller key and
an existing `(u,v)` key-map, the chosen key starts at the key-map's count
and climbs past present keys; a fresh `(u,v)` entry uses key `0`. -/
def MultiGraph.add_edge_impl {N} [DecidableEq N] (g : MultiGraph N)
    (h : Heap) (u v : N) (key? : Option Nat) (attrs : Obj) :
    MultiGraph N × Heap :=
  let s₁ := MultiGraph.add_node g h u
  let s₂ := MultiGraph.add_node s₁.1 s₁.2 v
  let g₂ := s₂.1
  let h₂ := s₂.2
  match MultiGraph.keydict g₂ u v with
  | some kd =>
      let key := key?.getD (autoKey kd)
      match jmGet kd key with
      | some a =>
          (MultiGraph.setKeydict g₂ u v kd, heapExtend h₂ a attrs)
      | none =>
          let al := halloc h₂ (objExtend [] attrs)
          (MultiGraph.setKeydict g₂ u v (jmSet kd key al.2), al.1)
  | none =>
      let key := key?.getD 0
      let al := halloc h₂ (objExtend [] attrs)
      (MultiGraph.setKeydict g₂ u v (jmSet jmEmpty key al.2), al.1)

/-- `jsnx.classes.MultiDiGraph`: twin adjacency with key-maps. -/
structure MultiDiGraph (N : Type) where
  nodes_ : JMap N Nat
  succ_ : JMap N (JMap N (JMap Nat Nat))
  pred_ : JMap N (JMap N (JMap Nat Nat))
deriving DecidableEq

/-- The empty multidigraph. -/
def MultiDiGraph.empty {N} : MultiDiGraph N :=
  { nodes_ := jmEmpty, succ_ := jmEmpty, pred_ := jmEmpty }

/-- `succ(n)`. -/
def MultiDiGraph.succOf {N} [DecidableEq N] (g : MultiDiGraph N) (n : N) :
    JMap N (JMap Nat Nat) :=
  jmGetD g.succ_ n jmEmpty

/-- `pred(n)`. -/
def MultiDiGraph.predOf {N} [DecidableEq N] (g : MultiDiGraph N) (n : N) :
    JMap N (JMap Nat Nat) :=
  jmGetD g.pred_ n jmEmpty

/-- `MultiDiGraph.add_node_impl` (multidigraph.js). -/
def MultiDiGraph.add_node {N} [DecidableEq N] (g : MultiDiGraph N)
    (h : Heap) (n : N) : MultiDiGraph N × Heap :=
  if jmContains g.nodes_ n then (g, (halloc h []).1)
  else
    let al := halloc h []
    ({ g with succ_ := jmSet g.succ_ n jmEmpty,
              pred_ := jmSet g.pred_ n jmEmpty,
              nodes_ := jmSet g.nodes_ n al.2 }, al.1)

/-- Store the shared key-map under `succ[u][v]` and `pred[v][u]`. -/
def MultiDiGraph.setKeydict {N} [DecidableEq N] (g : MultiDiGraph N)
    (u v : N) (kd : JMap Nat Nat) : MultiDiGraph N :=
  let g₁ := { g with succ_ := jmSet g.succ_ u (jmSet (g.succOf u) v kd) }
  { g₁ with pred_ := jmSet g₁.pred_ v (jmSet (g₁.predOf v) u kd) }

/-- `MultiDiGraph.add_edge_impl(u, v, key?, attrs)`
(`src/jsnx/classes/multidigraph.js`, lines 121-151): the same key
selection as the undirected multigraph. -/
def MultiDiGraph.add_edge_impl {N} [DecidableEq N] (g : MultiDiGraph N)
    (h : Heap) (u v : N) (key? : Option Nat) (attrs : Obj) :
    MultiDiGraph N × Heap :=
  let s₁ := MultiDiGraph.add_node g h u
  let s₂ := MultiDiGraph.add_node s₁.1 s₁.2 v
  let g₂ := s₂.1
  let h₂ := s₂.2
  if jmContains g₂.nodes_ u && jmContains g₂.nodes_ v
      && jmContains (g₂.succOf u) v then
    match jmGet (g₂.succOf u) v with
    | some kd =>
        let key := key?.getD (autoKey kd)
        match jmGet kd key with
        | some a =>
            (MultiDiGraph.setKeydict g₂ u v kd, heapExtend h₂ a attrs)
        | none =>
            let al := halloc h₂ (objExtend [] attrs)
            (MultiDiGraph.setKeydict g₂ u v (jmSet kd key al.2), al.1)
    | none => (g₂, h₂)
  else
    let key := key?.getD 0
    let al := halloc h₂ (objExtend [] attrs)
    (MultiDiGraph.setKeydict g₂ u v (jmSet jmEmpty key al.2), al.1)

/-- A graph object as seen by the constructor-aliasing claim: the graph
holds *references* to its node map and adjacency map, stored in an
explicit map store, because `new Graph(otherGraph)` assigns
`this.nodes_ = opt_data.nodes_; this.adj_ = opt_data.adj_;`
(graph.js, lines 82-83) — reference assignments, not copies. -/
structure GraphRef where
  nref : Nat
  aref : Nat
deriving DecidableEq, Repr

/-- The store of allocated node maps and adjacency maps. -/
structure GStore (N : Type) where
  nstore : List (JMap N Nat)
  astore : List (JMap N (JMap N Nat))
deriving DecidableEq

/-- The node map a graph object references. -/
def GStore.nodesOf {N} (st : GStore N) (g : GraphRef) : JMap N Nat :=
  (st.nstore.get? g.nref).getD jmEmpty

/-- The adjacency map a graph object references. -/
def GStore.adjOf {N} (st : GStore N) (g : GraphRef) : JMap N (JMap N Nat) :=
  (st.astore.get? g.aref).getD jmEmpty

/-- `new jsnx.Graph()` without an initializer: allocate fresh empty maps. -/
def GStore.newGraph {N} (st : GStore N) : GraphRef × GStore N :=
  ({ nref := st.nstore.length, aref := st.astore.length },
   { nstore := st.nstore ++ [jmEmpty], astore := st.astore ++ [jmEmpty] })

/-- `new jsnx.Graph(G)` with a graph initializer (graph.js, lines 77-84):
the graph attributes are merged from a deep copy, but the node map and the
adjacency map of the new object are the *same* map objects as `G`'s.
(Graph attributes are omitted here; the claim concerns structure.) -/
def GStore.fromGraph (g : GraphRef) : GraphRef :=
  { nref := g.nref, aref := g.aref }

/-- `has_node` through the store. -/
def GStore.has_node {N} [DecidableEq N] (st : GStore N) (g : GraphRef)
    (n : N) : Bool :=
  jmContains (st.nodesOf g) n

/-- `has_edge` through the store. -/
def GStore.has_edge {N} [DecidableEq N] (st : GStore N) (g : GraphRef)
    (u v : N) : Bool :=
  st.has_node g u && st.has_node g v &&
    jmContains (jmGetD (st.adjOf g) u jmEmpty) v

/-- `add_node(n)` through the store (attribute records omitted, their
address stored as `0`). -/
def GStore.add_node {N} [DecidableEq N] (st : GStore N) (g : GraphRef)
    (n : N) : GStore N :=
  if st.has_node g n then st
  else
    { nstore := st.nstore.set g.nref (jmSet (st.nodesOf g) n 0),
      astore := st.astore.set g.aref (jmSet (st.adjOf g) n jmEmpty) }

/-- `add_edge(u, v)` through the store (edge records shared, address `0`). -/
def GStore.add_edge {N} [DecidableEq N] (st : GStore N) (g : GraphRef)
    (u v : N) : GStore N :=
  let st₁ := st.add_node g u
  let st₂ := st₁.add_node g v
  if jmContains (jmGetD (st₂.adjOf g) u jmEmpty) v then st₂
  else
    let a₁ := (st₂.adjOf g).entries.map
      (fun e => if e.1 = u then (e.1, jmSet e.2 v 0) else e)
    let a₂ := a₁.map (fun e => if e.1 = v then (e.1, jmSet e.2 u 0) else e)
    { st₂ with astore := st₂.astore.set g.aref { st₂.adjOf g with entries := a₂ } }

/-- The rewrite of a node label by the relabel dictionary:
`goog.object.get(mapping, n, n)` — the label is coerced to a string to
index the plain-object dictionary, absent keys pass through unchanged. -/
def rwNode (mapping : SMap NodeId) (n : NodeId) : NodeId :=
  jsoGetD mapping (jsToString n) n

/-- `jsnx.relabel.relabel_copy_(G, mapping)` (`src/unnamed/part_000`,
lines 130-158) for a simple undirected graph: construct a graph of the
same variant with deep-copied graph attributes, name `'(' + name + ')'`;
add every edge of `G` with endpoints rewritten and the record *shallowly*
cloned (`goog.object.clone(d[2])` copies the top-level fields, nested
references included); then add every node label rewritten, and every
`(rewritten label, node record)` pair. -/
def relabel_copy (G : Graph NodeId) (h : Heap) (mapping : SMap NodeId) :
    Graph NodeId × Heap :=
  let dc := deepcopyObj (h.length + 1) h G.graphAttrs
  let H₀ : Graph NodeId :=
    { Graph.empty with graphAttrs := objExtend [] dc.2 }
  let H₁ := H₀.setName ("(" ++ G.gname ++ ")")
  let triples := (Graph.edges_with_data G).map
    (fun t => (rwNode mapping t.1, rwNode mapping t.2.1, heapAt h t.2.2))
  let s₂ := Graph.add_edges_from H₁ dc.1 triples []
  let s₃ := Graph.add_nodes_from_plain s₂.1 s₂.2
    (G.nodes.map (rwNode mapping))
  Graph.add_nodes_from_pairs s₃.1 s₃.2
    (G.nodes_.entries.map (fun e => (rwNode mapping e.1, e.2)))

/-- One round of the `jsnx.algorithms.dag.topological_sort` worklist.
Modelled from the spec: that module is not part of the sources; the spec
prescribes "attempt a topological sort" failing exactly when the digraph
has a cycle.  Pick the first remaining node with no incoming edge from a
remaining node; none exists iff all remaining nodes lie on a cycle. -/
def kahnStep (remaining : List String) (edges : List (String × String)) :
    Option String :=
  remaining.find? (fun n => ¬ edges.any (fun e => e.2 = n ∧ e.1 ∈ remaining))

/-- The topological-sort worklist loop (fuel = number of nodes). -/
def kahnGo (edges : List (String × String)) :
    Nat → List String → Option (List String)
  | 0, remaining => if remaining.isEmpty then some [] else none
  | fuel + 1, remaining =>
      if remaining.isEmpty then some [] else
      match kahnStep remaining edges with
      | none => none
      | some n => (kahnGo edges fuel (remaining.erase n)).map (fun L => n :: L)

/-- The directed edges of a digraph as a list. -/
def DiGraph.edge_pairs {N} (g : DiGraph N) : List (N × N) :=
  g.succ_.entries.flatMap (fun nd => (jmKeys nd.2).map (fun v => (nd.1, v)))

/-- `jsnx.algorithms.dag.topological_sort(D)`.  Modelled from the spec
(the module is not in the sources): return a topological ordering of the
digraph's nodes, or raise `JSNetworkXUnfeasible` when the digraph contains
a directed cycle. -/
def topological_sort (D : DiGraph String) : Except JErr (List String) :=
  let ns := jmKeys D.nodes_
  match kahnGo (DiGraph.edge_pairs D) ns.length ns with
  | some L => Except.ok L
  | none => Except.error (JErr.unfeasible "Graph contains a cycle.")

/-- The per-node rewrite step of `relabel_inplace_` for a simple
undirected, string-labeled graph: skip labels outside the mapping; fail
with the lookup error when the old label is not a node; otherwise add the
new node with the old node's record, snapshot the incident edges with the
source endpoint replaced, remove the old node, and re-add the snapshot. -/
def relabel_inplace_step (mapping : SMap String)
    (s : Graph String × Heap) (old : String) :
    Except JErr (Graph String × Heap) :=
  if ¬ jsoContains mapping old then Except.ok s
  else
    let new_ := jsoGetD mapping old old
    if ¬ s.1.has_node old then
      Except.error (JErr.jsnxError ("Node " ++ old ++ " is not in the graph to relabel."))
    else
      let s₁ := Graph.add_node_impl s.1 s.2 new_ (jmGetD s.1.nodes_ old 0)
      let new_edges := (Graph.edges_of_node s₁.1 old).map
        (fun t => (new_, t.2.1, heapAt s₁.2 t.2.2))
      match Graph.remove_node s₁.1 s₁.2 old with
      | (Except.error e, _, _) => Except.error e
      | (Except.ok _, g₂, h₂) =>
          Except.ok (Graph.add_edges_from g₂ h₂ new_edges [])

/-- Fold the rewrite step over the processing order. -/
def relabel_inplace_go (mapping : SMap String) :
    List String → Graph String × Heap → Except JErr (Graph String × Heap)
  | [], s => Except.ok s
  | old :: rest, s =>
      match relabel_inplace_step mapping s old with
      | Except.ok s₁ => relabel_inplace_go mapping rest s₁
      | Except.error e => Except.error e

/-- `jsnx.relabel.relabel_inplace_(G, mapping)` (`src/unnamed/part_000`,
lines 55-127) for a simple undirected, string-labeled graph (so that the
plain-object keys of `mapping` coincide with the node labels).  When the
old- and new-label sets overlap, the mapping's pairs form a digraph `D`
and `D.remove_edges_from(D.selfloop_edges())` is called outside the
`try` block — when `D` has a self loop this raises the `TypeError` of the
undefined `has_node_` and the relabel crashes; with no self loop the
removal is a no-op.  A topological-sort failure is rethrown as the
`JSNetworkXUnfeasible` error instructing the caller to use copy mode; on
success the nodes are processed in reverse topological order.  With
disjoint label sets the keys are processed in insertion order. -/
def relabel_inplace (G : Graph String) (h : Heap) (mapping : SMap String) :
    Except JErr (Graph String × Heap) :=
  let old_labels := jsoKeys mapping
  if (old_labels.filter (fun k => k ∈ jsoValues mapping)) ≠ [] then
    let ds := DiGraph.from_edge_pairs h (jsoItems mapping)
    match DiGraph.remove_edges_from ds.1 (DiGraph.selfloop_edges ds.1) with
    | Except.error err => Except.error err
    | Except.ok D =>
        match topological_sort D with
        | Except.error _ =>
            Except.error (JErr.unfeasible
              "The node label sets are overlapping and no ordering can resolve the mapping. Use copy=True.")
        | Except.ok L => relabel_inplace_go mapping L.reverse (G, ds.2)
  else
    relabel_inplace_go mapping old_labels (G, h)

/-- The integer mapping built by `convert_node_labels_to_integers`: assign
`first, first+1, …` to the given node enumeration through a plain-object
dictionary (so labels are coerced to strings as property names). -/
def intMapping (order : List NodeId) (first : Int) : SMap NodeId :=
  (order.foldl
    (fun acc n => (jsoSet acc.1 (jsToString n) (NodeId.num acc.2), acc.2 + 1))
    (([] : SMap NodeId), first)).1

/-- The comparator of `Array.prototype.sort()` without arguments: lexical
comparison of the string coercions. -/
def nodeStrLe (a b : NodeId) : Bool := jsToString a ≤ jsToString b

/-- Comparison of `(node, degree)` pairs by degree (the `a[1] - b[1]`
comparator). -/
def degLe (a b : NodeId × Nat) : Bool := a.2 ≤ b.2

/-- Comparison of `(node, degree)` pairs by descending degree. -/
def degGe (a b : NodeId × Nat) : Bool := b.2 ≤ a.2

/-- The node enumeration chosen by
`jsnx.relabel.convert_node_labels_to_integers` for each ordering name:
`default` uses `G.nodes()`, `sorted` sorts the labels (JavaScript default
sort compares string forms), the degree orderings stably sort the
`(node, degree)` pairs of `degree_iter()` by degree. -/
def orderingNodes (G : Graph NodeId) (ordering : String) :
    Option (List NodeId) :=
  if ordering = "default" then some G.nodes
  else if ordering = "sorted" then some (G.nodes.mergeSort nodeStrLe)
  else if ordering = "increasing degree" then
    some (((Graph.degree_list G).mergeSort degLe).map Prod.fst)
  else if ordering = "decreasing degree" then
    some (((Graph.degree_list G).mergeSort degGe).map Prod.fst)
  else none

/-- `jsnx.relabel.convert_node_labels_to_integers(G, first_label,
ordering, discard_old_labels)` (`src/unnamed/part_000`, lines 179-272) for
a simple undirected graph: build the integer mapping over the chosen node
enumeration (an unknown ordering name raises the structural error), invoke
copy-mode relabel, and rename the result. -/
def convert_node_labels_to_integers (G : Graph NodeId) (h : Heap)
    (first : Int) (ordering : String) :
    Except JErr (Graph NodeId × Heap) :=
  match orderingNodes G ordering with
  | none =>
      Except.error (JErr.jsnxError ("Unkown node ordering: " ++ ordering))
  | some order =>
      let mapping := intMapping order first
      let s := relabel_copy G h mapping
      Except.ok (Graph.setName s.1 ("(" ++ G.gname ++ ")_with_int_labels"), s.2)

/-- The number of times the undirected edge between `a` and `b` occurs in
a list of yielded pairs: occurrences of `(a, b)` plus, for distinct
endpoints, occurrences of `(b, a)`. -/
def countPair {N : Type} [DecidableEq N] (l : List (N × N)) (a b : N) : Nat :=
  l.count (a, b) + (if a = b then 0 else l.count (b, a))

/-- The edge `(a, b)` is stored in the given adjacency entry list. -/
def edgeIn {N : Type} [DecidableEq N] (L : List (N × JMap N Nat))
    (a b : N) : Prop :=
  ∃ e ∈ L, e.1 = a ∧ b ∈ jmKeys e.2

instance {N : Type} [DecidableEq N] (L : List (N × JMap N Nat)) (a b : N) :
    Decidable (edgeIn L a b) :=
  inferInstanceAs (Decidable (∃ e ∈ L, e.1 = a ∧ b ∈ jmKeys e.2))

/-- Well-formedness of a simple undirected graph state: the node and
adjacency maps list the same keys without duplicates, neighbor maps are
duplicate-free, mirrored entries exist and share one record address,
stored addresses are allocated, and records have duplicate-free field
names. -/
def Graph.wf {N : Type} [DecidableEq N] (g : Graph N) (h : Heap) : Prop :=
  jmKeys g.nodes_ = jmKeys g.adj_ ∧
  (jmKeys g.adj_).Nodup ∧
  (∀ e ∈ g.adj_.entries, (jmKeys e.2).Nodup) ∧
  (∀ e ∈ g.adj_.entries, ∀ p ∈ e.2.entries,
    jmGet (g.adjOf p.1) e.1 = some p.2) ∧
  (∀ e ∈ g.adj_.entries, ∀ p ∈ e.2.entries, p.2 < h.length) ∧
  (∀ e ∈ g.nodes_.entries, e.2 < h.length) ∧
  (∀ o ∈ h, (o.map Prod.fst).Nodup)

instance {N : Type} [DecidableEq N] (g : Graph N) (h : Heap) :
    Decidable (Graph.wf g h) := by
  unfold Graph.wf
  infer_instance

/-- The run deciding the adjacency-symmetry claim: an empty graph, then
`add_edge(0, 1)`, `add_edge(1, 1)` (a self loop), then `remove_node(1)`. -/
def c1State₀ : Graph Nat × Heap := (Graph.empty, [])

/-- After `add_edge(0, 1)`. -/
def c1State₁ : Graph Nat × Heap := Graph.add_edge c1State₀.1 c1State₀.2 0 1 []

/-- After `add_edge(1, 1)`. -/
def c1State₂ : Graph Nat × Heap := Graph.add_edge c1State₁.1 c1State₁.2 1 1 []

/-- The result of `remove_node(1)`: the raised error together with the
graph state left behind. -/
def c1Result : Except JErr Unit × Graph Nat × Heap :=
  Graph.remove_node c1State₂.1 c1State₂.2 1

/-- The constructor-aliasing run: `G = new Graph()`, one edge `a-b`. -/
def c2Store₀ : GraphRef × GStore String := GStore.newGraph ⟨[], []⟩

/-- The graph `G`. -/
def c2G : GraphRef := c2Store₀.1

/-- The store after `G.add_edge('a', 'b')`. -/
def c2Store₁ : GStore String := GStore.add_edge c2Store₀.2 c2G "a" "b"

/-- `H = new Graph(G)`. -/
def c2H : GraphRef := GStore.fromGraph c2G

/-- The store after `H.add_node('c')` — a structural mutation of `H`. -/
def c2Store₂ : GStore String := GStore.add_node c2Store₁ c2H "c"

/-- A digraph with the single edge `(0, 1)`. -/
def c3Digraph : DiGraph Nat × Heap := DiGraph.from_edge_pairs [] [(0, 1)]

/-- A multigraph after `add_edge(0, 1, key=1)`. -/
def c4State₁ : MultiGraph Nat × Heap :=
  MultiGraph.add_edge_impl MultiGraph.empty [] 0 1 (some 1) []

/-- … then `add_edge(0, 1)` with no key. -/
def c4State₂ : MultiGraph Nat × Heap :=
  MultiGraph.add_edge_impl c4State₁.1 c4State₁.2 0 1 none []

/-- A multidigraph after `add_edge(0, 1, key=1)`. -/
def c4dState₁ : MultiDiGraph Nat × Heap :=
  MultiDiGraph.add_edge_impl MultiDiGraph.empty [] 0 1 (some 1) []

/-- The `(0,1)` key-map before the keyless insertion. -/
def c4Keydict₁ : JMap Nat Nat :=
  (MultiGraph.keydict c4State₁.1 0 1).getD jmEmpty

/-- The `(0,1)` key-map after the keyless insertion. -/
def c4Keydict₂ : JMap Nat Nat :=
  (MultiGraph.keydict c4State₂.1 0 1).getD jmEmpty

/-- A heap holding a nested record: address 0 is a record, address 1 is a
record whose field `a` references it. -/
def c5Heap : Heap := [[], [("a", JVal.ref 0)]]

/-- A graph with the single edge `(0, 1)` whose attribute record holds the
nested reference (the caller passed the record at address 1). -/
def c5G : Graph NodeId × Heap :=
  Graph.add_edge Graph.empty c5Heap (NodeId.num 0) (NodeId.num 1)
    (heapAt c5Heap 1)

/-- Copy-mode relabel of that graph under the empty mapping. -/
def c5H : Graph NodeId × Heap := relabel_copy c5G.1 c5G.2 []

/-- `DiGraph.edges_iter(true)` (with data) as a list: the same defective
`generate_edges_iter` — the final callback never returns the `visit`
result, so no `(u, v, data)` triple is ever yielded. -/
def DiGraph.edges_with_data {N} [DecidableEq N] (g : DiGraph N) :
    List (N × N × Nat) :=
  g.pred_.entries.flatMap
    (fun nd => nd.2.entries.filterMap (fun _ => (none : Option (N × N × Nat))))

/-- `add_nodes_from` over plain labels for a digraph (graph.js code
dispatching to the digraph `add_node_impl`). -/
def DiGraph.add_nodes_from_plain {N} [DecidableEq N] (g : DiGraph N)
    (h : Heap) (ns : List N) : DiGraph N × Heap :=
  ns.foldl
    (fun s n =>
      if jmContains s.1.nodes_ n then s else DiGraph.add_node s.1 s.2 n [])
    (g, h)

/-- `add_nodes_from` over `(node, record address)` pairs for a digraph. -/
def DiGraph.add_nodes_from_pairs {N} [DecidableEq N] (g : DiGraph N)
    (h : Heap) (ps : List (N × Nat)) : DiGraph N × Heap :=
  ps.foldl
    (fun s p =>
      let al := halloc s.2 (objExtend [] (heapAt s.2 p.2))
      DiGraph.add_node_impl s.1 al.1 p.1 al.2)
    (g, h)

/-- `jsnx.relabel.relabel_copy_(G, mapping)` for a directed graph: the
same source function, whose edge pass maps over the directed
`G.edges_iter(true)`. -/
def relabel_copy_digraph (G : DiGraph NodeId) (h : Heap)
    (mapping : SMap NodeId) : DiGraph NodeId × Heap :=
  let dc := deepcopyObj (h.length + 1) h G.graphAttrs
  let H₀ : DiGraph NodeId := { DiGraph.empty with graphAttrs := objExtend [] dc.2 }
  let gn := match objGet G.graphAttrs "name" with
    | some (JVal.str s) => s
    | _ => ""
  let H₁ := { H₀ with
    graphAttrs := objSetField H₀.graphAttrs "name" (JVal.str ("(" ++ gn ++ ")")) }
  let triples := (DiGraph.edges_with_data G).map
    (fun t => (rwNode mapping t.1, rwNode mapping t.2.1, heapAt h t.2.2))
  let s₂ := triples.foldl
    (fun s e => DiGraph.add_edge_impl s.1 s.2 e.1 e.2.1 (objExtend [] e.2.2))
    (H₁, dc.1)
  let s₃ := DiGraph.add_nodes_from_plain s₂.1 s₂.2
    ((jmKeys G.nodes_).map (rwNode mapping))
  DiGraph.add_nodes_from_pairs s₃.1 s₃.2
    (G.nodes_.entries.map (fun e => (rwNode mapping e.1, e.2)))

/-- A digraph with one edge `(0, 1)`, relabel-copied under the empty
mapping. -/
def c5DigraphCopy : DiGraph NodeId × Heap :=
  let d := DiGraph.from_edge_pairs ([] : Heap) [(NodeId.num 0, NodeId.num 1)]
  relabel_copy_digraph d.1 d.2 []

/-- A graph with a self loop at `a` and an isolated node `b`. -/
def c6G : Graph String × Heap :=
  let s := Graph.add_edge (Graph.empty : Graph String) [] "a" "a" []
  Graph.add_node s.1 s.2 "b" []

/-- The overlapping, acyclic mapping `{a: b, b: c}`. -/
def c6Mapping : SMap String := [("a", "b"), ("b", "c")]

/-- The overlapping, cyclic mapping `{a: b, b: a}`. -/
def c6MappingCyc : SMap String := [("a", "b"), ("b", "a")]

/-- A graph with the single edge `a - b` (no self loops), on which the
overlapping acyclic relabel completes. -/
def c6OkG : Graph String × Heap :=
  Graph.add_edge (Graph.empty : Graph String) [] "a" "b" []

/-- The overlapping identity mapping `{a: a}`: its digraph has a self
loop, so the self-loop-removal step itself crashes. -/
def c6MappingId : SMap String := [("a", "a")]

/-- A graph with two record-labeled nodes (both print as
`[object Object]`). -/
def c9G : Graph NodeId × Heap :=
  let s := Graph.add_node (Graph.empty : Graph NodeId) [] (NodeId.obj 1) []
  Graph.add_node s.1 s.2 (NodeId.obj 2) []

/-- A small well-formed graph (one edge between numeric nodes) used to
instantiate the universally quantified theorems. -/
def exG : Graph NodeId × Heap :=
  Graph.add_edge (Graph.empty : Graph NodeId) [] (NodeId.num 0)
    (NodeId.num 1) []

/-- A concrete path graph `0 - 1 - 2` used to evaluate the edge-iteration
claim: after `add_edge(0, 1)`. -/
def c7State₁ : Graph Nat × Heap :=
  Graph.add_edge (Graph.empty : Graph Nat) [] 0 1 []

/-- ... and after `add_edge(1, 2)`. -/
def c7State₂ : Graph Nat × Heap :=
  Graph.add_edge c7State₁.1 c7State₁.2 1 2 []

theorem find?_map_replace {V : Type} (l : List (String × NodeId × V))
    (hsh : String) (k : NodeId) (v : V) (hmem : ∃ e ∈ l, e.1 = hsh) :
    (l.map (fun e => if e.1 = hsh then (hsh, k, v) else e)).find?
      (fun e => e.1 = hsh) = some (hsh, k, v) := by
  induction l with
  | nil => simp at hmem
  | cons e rest ih =>
      by_cases he : e.1 = hsh
      · simp [List.find?_cons, he]
      · rcases hmem with ⟨a, ha, hah⟩
        rw [List.mem_cons] at ha
        rcases ha with ha | ha
        · exact absurd (ha ▸ hah) he
        · simp only [List.map_cons, if_neg he, List.find?_cons,
            decide_eq_false he]
          exact ih ⟨a, ha, hah⟩

theorem find?_append_last {V : Type} (l : List (String × NodeId × V))
    (hsh : String) (k : NodeId) (v : V) (hnone : ∀ e ∈ l, ¬ e.1 = hsh) :
    (l ++ [(hsh, k, v)]).find? (fun e => e.1 = hsh) = some (hsh, k, v) := by
  induction l with
  | nil => simp [List.find?_cons]
  | cons e rest ih =>
      have he : ¬ e.1 = hsh := hnone e (by simp)
      simp only [List.cons_append, List.find?_cons, decide_eq_false he]
      exact ih (fun a ha => hnone a (by simp [ha]))

theorem hmBucket_set_self {V : Type} (m : HashMap V) (k : NodeId) (v : V) :
    hmBucket (hmSet m k v) (keyHash k) = some (k, v) := by
  by_cases hh : hmHasHash m (keyHash k)
  · have hmem : ∃ e ∈ m.entries, e.1 = keyHash k := by
      simpa [hmHasHash, List.any_eq_true] using hh
    simp only [hmSet, hh, if_true, hmBucket]
    rw [find?_map_replace m.entries (keyHash k) k v hmem]
  · have hnone : ∀ e ∈ m.entries, ¬ e.1 = keyHash k := by
      intro e he hek
      have hx : hmHasHash m (keyHash k) = true := by
        simp only [hmHasHash, List.any_eq_true]
        exact ⟨e, he, by simpa using hek⟩
      exact hh hx
    have hh' : hmHasHash m (keyHash k) = false := by simpa using hh
    simp only [hmSet, hh', Bool.false_eq_true, if_false, hmBucket]
    rw [find?_append_last m.entries (keyHash k) k v hnone]

/-- C10: key equality in the `HashMap` is reference identity restricted
within string-hash buckets: for any two distinct keys with equal computed
hashes (such as the number `1` and the string `'1'`), after `set(k1, v)`
the call `containsKey(k2)` returns `false`, yet `get(k2, default)` throws
`Error('Provided key not equal to hashed key')` instead of returning the
default — `get` has no total lookup contract for hash-colliding keys. -/
theorem claim_C10_hashmap_collision {V : Type} (m : HashMap V)
    (k₁ k₂ : NodeId) (v d : V) (hne : k₁ ≠ k₂)
    (hhash : keyHash k₁ = keyHash k₂) :
    hmContainsKey (hmSet m k₁ v) k₂ = false ∧
    hmGet (hmSet m k₁ v) k₂ d =
      Except.error "Provided key not equal to hashed key" := by
  have hb : hmBucket (hmSet m k₁ v) (keyHash k₂) = some (k₁, v) := by
    rw [← hhash]; exact hmBucket_set_self m k₁ v
  have hne' : ¬ k₁ = k₂ := hne
  constructor
  · simp [hmContainsKey, hb, hne']
  · simp [hmGet, hb, hne']

/-- C10 witness: the number `1` and the string `'1'` hash to the same
bucket; after `set(1, 42)` on the empty map, `containsKey('1')` is false
while `get('1', 7)` throws. -/
theorem claim_C10_witness :
    (NodeId.num 1 ≠ NodeId.str "1") ∧
    keyHash (NodeId.num 1) = keyHash (NodeId.str "1") ∧
    hmContainsKey (hmSet (hmEmpty : HashMap Nat) (NodeId.num 1) 42)
      (NodeId.str "1") = false ∧
    hmGet (hmSet (hmEmpty : HashMap Nat) (NodeId.num 1) 42)
      (NodeId.str "1") 7 =
      Except.error "Provided key not equal to hashed key" := by
  refine ⟨by decide, by decide, ?_⟩
  have h := claim_C10_hashmap_collision (hmEmpty : HashMap Nat)
    (NodeId.num 1) (NodeId.str "1") 42 7 (by decide) (by decide)
  exact h

/-- C8: a `HashMap` iterator captures the map version at creation; a
structural mutation after creation — `set` of a key whose hash is new, or
`remove` of a present key — increments the version, and the next
advancement of the stale iterator raises the definite
`'The map has changed since the iterator was created'` error instead of
yielding an element. -/
theorem claim_C8_iterator_invalidation {V : Type} (m : HashMap V)
    (k : NodeId) (v : V) :
    (hmIterator m).ver = m.version ∧
    (hmHasHash m (keyHash k) = false →
      (hmSet m k v).version = m.version + 1 ∧
      ∀ it : HMIter, it.ver = m.version →
        hmNext (hmSet m k v) it =
          HMStep.err "The map has changed since the iterator was created") ∧
    (hmHasHash m (keyHash k) = true →
      (hmRemove m k).version = m.version + 1 ∧
      ∀ it : HMIter, it.ver = m.version →
        hmNext (hmRemove m k) it =
          HMStep.err "The map has changed since the iterator was created") := by
  refine ⟨rfl, ?_, ?_⟩
  · intro hnew
    have hv : (hmSet m k v).version = m.version + 1 := by
      simp [hmSet, hnew]
    refine ⟨hv, ?_⟩
    intro it hit
    have : it.ver ≠ (hmSet m k v).version := by
      rw [hit, hv]; exact Nat.ne_of_lt (Nat.lt_succ_self _)
    simp [hmNext, this]
  · intro hold
    have hv : (hmRemove m k).version = m.version + 1 := by
      simp [hmRemove, hold]
    refine ⟨hv, ?_⟩
    intro it hit
    have : it.ver ≠ (hmRemove m k).version := by
      rw [hit, hv]; exact Nat.ne_of_lt (Nat.lt_succ_self _)
    simp [hmNext, this]

/-- C8 witness: on a concrete one-entry map, a fresh iterator is
invalidated by a new-key `set` and by a `remove` of the present key. -/
theorem claim_C8_witness :
    (hmIterator (hmSet (hmEmpty : HashMap Nat) (NodeId.num 0) 5)).ver =
      (hmSet (hmEmpty : HashMap Nat) (NodeId.num 0) 5).version ∧
    hmHasHash (hmSet (hmEmpty : HashMap Nat) (NodeId.num 0) 5)
      (keyHash (NodeId.num 1)) = false ∧
    hmNext (hmSet (hmSet (hmEmpty : HashMap Nat) (NodeId.num 0) 5)
        (NodeId.num 1) 6)
      (hmIterator (hmSet (hmEmpty : HashMap Nat) (NodeId.num 0) 5)) =
      HMStep.err "The map has changed since the iterator was created" := by
  refine ⟨(claim_C8_iterator_invalidation
      (hmSet (hmEmpty : HashMap Nat) (NodeId.num 0) 5) (NodeId.num 1) 6).1,
    by decide, ?_⟩
  exact ((claim_C8_iterator_invalidation
      (hmSet (hmEmpty : HashMap Nat) (NodeId.num 0) 5) (NodeId.num 1) 6).2.1
    (by decide)).2 _ rfl

theorem flatMap_filterMap_none {α β γ : Type} (l : List α)
    (f : α → List β) :
    (l.flatMap (fun a => (f a).filterMap (fun _ => (none : Option γ)))) = [] := by
  induction l with
  | nil => rfl
  | cons a rest ih => simp [List.flatMap_cons, ih]

/-- C3: directed edge iteration yields nothing at all.  The final
`nested_chain` callback of `DiGraph.generate_edges_iter` reads
`function(nbrd) { visit(n, nbrd); }` — the `visit` result is computed and
discarded, the callback returns `undefined`, and every element is skipped;
so `edges_iter` / `out_edges_iter` of a directed graph omits every edge,
exhibited on a digraph holding the edge `(0, 1)`. -/
theorem claim_C3_digraph_edges_iter_empty :
    (∀ (g : DiGraph Nat), DiGraph.edges_list g = []) ∧
    DiGraph.has_edge c3Digraph.1 0 1 = true ∧
    DiGraph.edges_list c3Digraph.1 = [] := by
  refine ⟨?_, by decide, ?_⟩
  · intro g
    unfold DiGraph.edges_list DiGraph.generate_edges_list
    exact flatMap_filterMap_none _ _
  · unfold DiGraph.edges_list DiGraph.generate_edges_list
    exact flatMap_filterMap_none _ _

/-- C1: evaluation of the code at the failing input.  After
`add_edge(0, 1)` and `add_edge(1, 1)`, the call `remove_node(1)` iterates
the *lazy* neighbor iterator of `adj(1)`; removing the self loop bumps the
version of `adj(1)` mid-iteration, so the next step throws the
`'The map has changed since the iterator was created'` error and leaves an
asymmetric adjacency behind: `0 ∈ adj[1]` but `1 ∉ adj[0]`, and node `1`
is still a key of the adjacency map while gone from the node map. -/
theorem claim_C1_remove_node_selfloop_breaks_symmetry :
    c1Result.1 =
      Except.error
        (JErr.jsError "The map has changed since the iterator was created") ∧
    jmContains ((c1Result.2.1).adjOf 1) 0 = true ∧
    jmContains ((c1Result.2.1).adjOf 0) 1 = false ∧
    jmContains (c1Result.2.1).adj_ 1 = true ∧
    jmContains (c1Result.2.1).nodes_ 1 = false := by
  decide

/-- C2 counterexample: constructing `H = new Graph(G)` aliases `G`'s maps,
so the structural mutation `H.add_node('c')` alters `G`: before the
mutation `G` has no node `'c'`, afterwards it does — the claim's
"subsequent structural mutation of the new graph does not alter G" is
false at this input. -/
theorem claim_C2_counterexample :
    GStore.has_node c2Store₁ c2G "c" = false ∧
    GStore.has_node c2Store₂ c2H "c" = true ∧
    GStore.has_node c2Store₂ c2G "c" = true := by
  decide

/-- C2 amended: constructing with a graph initializer does not copy — the
new object holds the very same node-map and adjacency-map references
(graph.js lines 82-83), so the node and edge observations of the two
objects coincide in every subsequent store state, and structural mutation
through either object is visible through the other. -/
theorem claim_C2_constructor_aliases (g : GraphRef) :
    GStore.fromGraph g = g ∧
    (∀ (st : GStore String) (n : String),
      GStore.has_node st (GStore.fromGraph g) n = GStore.has_node st g n) ∧
    (∀ (st : GStore String) (u v : String),
      GStore.has_edge st (GStore.fromGraph g) u v =
        GStore.has_edge st g u v) := by
  refine ⟨rfl, fun st n => rfl, fun st u v => rfl⟩

theorem jmContains_iff {K V : Type} [DecidableEq K] (m : JMap K V) (k : K) :
    jmContains m k = true ↔ k ∈ jmKeys m := by
  simp [jmContains, jmKeys, List.any_eq_true, List.mem_map]

theorem find?_set_list {K V : Type} [DecidableEq K] (l : List (K × V))
    (k : K) (v : V) :
    (l.map (fun e => if e.1 = k then (k, v) else e)).find?
        (fun e => e.1 = k) =
      if l.any (fun e => e.1 = k) then some (k, v) else none := by
  induction l with
  | nil => simp
  | cons e rest ih =>
      by_cases he : e.1 = k
      · simp [List.find?_cons, he]
      · simp only [List.map_cons, if_neg he, List.any_cons, List.find?_cons,
          decide_eq_false he, Bool.false_or]
        exact ih

theorem find?_set_ne_list {K V : Type} [DecidableEq K] (l : List (K × V))
    (k : K) (v : V) (k' : K) (hne : k' ≠ k) :
    (l.map (fun e => if e.1 = k then (k, v) else e)).find?
        (fun e => e.1 = k') =
      l.find? (fun e => e.1 = k') := by
  induction l with
  | nil => simp
  | cons e rest ih =>
      by_cases he : e.1 = k
      · have h1 : ¬ (k : K) = k' := fun h => hne h.symm
        have h2 : ¬ e.1 = k' := by rw [he]; exact h1
        simp only [List.map_cons, if_pos he, List.find?_cons,
          decide_eq_false h1, decide_eq_false h2]
        exact ih
      · simp only [List.map_cons, if_neg he, List.find?_cons]
        cases hd : (decide (e.1 = k') : Bool) with
        | true => rfl
        | false => exact ih

theorem jmGet_set_self {K V : Type} [DecidableEq K] (m : JMap K V)
    (k : K) (v : V) : jmGet (jmSet m k v) k = some v := by
  unfold jmSet jmGet
  by_cases hc : jmContains m k
  · simp only [hc, if_true]
    rw [show (fun (e : K × V) => decide (e.1 = k)) =
        (fun (e : K × V) => e.1 = k) from rfl, find?_set_list]
    have : m.entries.any (fun e => e.1 = k) = true := hc
    simp [this]
  · have hc' : jmContains m k = false := by simpa using hc
    simp only [hc', Bool.false_eq_true, if_false]
    have hnone : m.entries.find? (fun e => decide (e.1 = k)) = none := by
      rw [List.find?_eq_none]
      intro e he
      simp only [decide_eq_true_eq]
      intro hek
      have hck : jmContains m k = true := by
        unfold jmContains
        rw [List.any_eq_true]
        exact ⟨e, he, by simpa using hek⟩
      rw [hck] at hc'
      cases hc'
    simp [List.find?_append, hnone]

theorem jmGet_set_ne {K V : Type} [DecidableEq K] (m : JMap K V)
    (k : K) (v : V) (k' : K) (hne : k' ≠ k) :
    jmGet (jmSet m k v) k' = jmGet m k' := by
  unfold jmSet jmGet
  by_cases hc : jmContains m k
  · simp only [hc, if_true]
    rw [show (fun (e : K × V) => decide (e.1 = k')) =
        (fun (e : K × V) => e.1 = k') from rfl, find?_set_ne_list _ _ _ _ hne]
  · have hc' : jmContains m k = false := by simpa using hc
    simp only [hc', Bool.false_eq_true, if_false]
    rw [List.find?_append]
    cases hfind : m.entries.find? (fun e => decide (e.1 = k')) with
    | some e => simp
    | none =>
        have hkk : ¬ (k = k') := fun h => hne h.symm
        simp [List.find?_cons, decide_eq_false hkk]

theorem jmContains_eq_isSome_get {K V : Type} [DecidableEq K]
    (m : JMap K V) (k : K) : jmContains m k = (jmGet m k).isSome := by
  unfold jmContains jmGet
  cases hfind : m.entries.find? (fun e => decide (e.1 = k)) with
  | some e =>
      have := List.find?_some hfind
      have hmem := List.mem_of_find?_eq_some hfind
      simp only [Option.isSome_some]
      simp only [decide_eq_true_eq] at this
      rw [List.any_eq_true]
      exact ⟨e, hmem, by simpa using this⟩
  | none =>
      simp only [Option.isSome_none]
      rw [List.find?_eq_none] at hfind
      simp only [List.any_eq_false]
      intro e he
      simpa using hfind e he

theorem jmGet_eq_none_of_not_contains {K V : Type} [DecidableEq K]
    (m : JMap K V) (k : K) (h : jmContains m k = false) :
    jmGet m k = none := by
  have := jmContains_eq_isSome_get m k
  rw [h] at this
  cases hg : jmGet m k with
  | none => rfl
  | some v => rw [hg] at this; simp at this

theorem jmContains_set_self {K V : Type} [DecidableEq K] (m : JMap K V)
    (k : K) (v : V) : jmContains (jmSet m k v) k = true := by
  rw [jmContains_eq_isSome_get, jmGet_set_self]
  rfl

theorem jmContains_set_ne {K V : Type} [DecidableEq K] (m : JMap K V)
    (k : K) (v : V) (k' : K) (hne : k' ≠ k) :
    jmContains (jmSet m k v) k' = jmContains m k' := by
  rw [jmContains_eq_isSome_get, jmGet_set_ne _ _ _ _ hne,
    jmContains_eq_isSome_get]

theorem find?_filter_ne {K V : Type} [DecidableEq K] (l : List (K × V))
    (k k' : K) (hne : k' ≠ k) :
    (l.filter (fun e => ¬ e.1 = k)).find? (fun e => e.1 = k') =
      l.find? (fun e => e.1 = k') := by
  induction l with
  | nil => rfl
  | cons e rest ih =>
      by_cases hek : e.1 = k
      · have hek' : ¬ e.1 = k' := by rw [hek]; exact fun h => hne h.symm
        rw [List.filter_cons_of_neg (by simp [hek]),
          List.find?_cons_of_neg _ (by simp [hek'])]
        exact ih
      · rw [List.filter_cons_of_pos (by simp [hek])]
        by_cases he' : e.1 = k'
        · rw [List.find?_cons_of_pos _ (by simp [he']),
            List.find?_cons_of_pos _ (by simp [he'])]
        · rw [List.find?_cons_of_neg _ (by simp [he']),
            List.find?_cons_of_neg _ (by simp [he'])]
          exact ih

theorem jmGet_remove_ne {K V : Type} [DecidableEq K] (m : JMap K V)
    (k k' : K) (hne : k' ≠ k) :
    jmGet (jmRemove m k) k' = jmGet m k' := by
  unfold jmRemove jmGet
  by_cases hc : jmContains m k
  · simp only [hc, if_true]
    rw [find?_filter_ne _ _ _ hne]
  · simp [hc]

theorem jmContains_remove_ne {K V : Type} [DecidableEq K] (m : JMap K V)
    (k k' : K) (hne : k' ≠ k) :
    jmContains (jmRemove m k) k' = jmContains m k' := by
  rw [jmContains_eq_isSome_get, jmGet_remove_ne _ _ _ hne,
    jmContains_eq_isSome_get]

theorem jmContains_remove_self {K V : Type} [DecidableEq K] (m : JMap K V)
    (k : K) : jmContains (jmRemove m k) k = false := by
  unfold jmRemove
  by_cases hc : jmContains m k
  · simp only [hc, if_true]
    unfold jmContains
    rw [List.any_eq_false]
    intro e he
    have := List.of_mem_filter he
    simpa using this
  · rw [if_neg hc]
    simpa using hc

theorem jmKeys_set_of_contains {K V : Type} [DecidableEq K] (m : JMap K V)
    (k : K) (v : V) (h : jmContains m k = true) :
    jmKeys (jmSet m k v) = jmKeys m := by
  unfold jmSet jmKeys
  simp only [h, if_true]
  induction m.entries with
  | nil => rfl
  | cons e rest ih =>
      by_cases he : e.1 = k
      · simp [he, ih]
      · simp [he, ih]

theorem jmKeys_set_of_not_contains {K V : Type} [DecidableEq K]
    (m : JMap K V) (k : K) (v : V) (h : jmContains m k = false) :
    jmKeys (jmSet m k v) = jmKeys m ++ [k] := by
  unfold jmSet jmKeys
  simp [h]

theorem jmKeys_nodup_set {K V : Type} [DecidableEq K] (m : JMap K V)
    (k : K) (v : V) (h : (jmKeys m).Nodup) :
    (jmKeys (jmSet m k v)).Nodup := by
  by_cases hc : jmContains m k
  · rw [jmKeys_set_of_contains _ _ _ hc]; exact h
  · have hc' : jmContains m k = false := by simpa using hc
    rw [jmKeys_set_of_not_contains _ _ _ hc']
    rw [List.nodup_append]
    refine ⟨h, List.nodup_singleton k, ?_⟩
    intro a ha hb
    simp only [List.mem_singleton] at hb
    subst hb
    have : jmContains m a = true := (jmContains_iff m a).mpr ha
    rw [this] at hc'
    cases hc'

theorem jmKeys_nodup_remove {K V : Type} [DecidableEq K] (m : JMap K V)
    (k : K) (h : (jmKeys m).Nodup) : (jmKeys (jmRemove m k)).Nodup := by
  unfold jmRemove
  by_cases hc : jmContains m k
  · simp only [hc, if_true]
    unfold jmKeys at h ⊢
    exact List.Nodup.sublist ((List.filter_sublist m.entries).map Prod.fst) h
  · rw [if_neg hc]
    exact h

theorem autoKeyGo_ge {V : Type} (kd : JMap Nat V) :
    ∀ fuel start, start ≤ autoKeyGo kd fuel start := by
  intro fuel
  induction fuel with
  | zero => intro start; exact Nat.le_refl _
  | succ f ih =>
      intro start
      unfold autoKeyGo
      by_cases hc : jmContains kd start
      · simp only [hc, if_true]
        exact Nat.le_trans (Nat.le_succ start) (ih (start + 1))
      · simp [hc]

theorem autoKeyGo_covered {V : Type} (kd : JMap Nat V) :
    ∀ fuel start j, start ≤ j → j < autoKeyGo kd fuel start →
      jmContains kd j = true := by
  intro fuel
  induction fuel with
  | zero =>
      intro start j hsj hlt
      unfold autoKeyGo at hlt
      omega
  | succ f ih =>
      intro start j hsj hlt
      unfold autoKeyGo at hlt
      by_cases hc : jmContains kd start
      · simp only [hc, if_true] at hlt
        rcases Nat.eq_or_lt_of_le hsj with heq | hgt
        · rw [← heq]; exact hc
        · exact ih (start + 1) j hgt hlt
      · simp [hc] at hlt
        omega

theorem autoKeyGo_mem_imp {V : Type} (kd : JMap Nat V) :
    ∀ fuel start,
      jmContains kd (autoKeyGo kd fuel start) = true →
      autoKeyGo kd fuel start = start + fuel := by
  intro fuel
  induction fuel with
  | zero => intro start _; rfl
  | succ f ih =>
      intro start hmem
      unfold autoKeyGo at hmem ⊢
      by_cases hc : jmContains kd start
      · simp only [hc, if_true] at hmem ⊢
        rw [ih (start + 1) hmem]
        omega
      · rw [if_neg hc] at hmem
        exact absurd hmem hc

theorem autoKey_not_mem {V : Type} (kd : JMap Nat V) :
    jmContains kd (autoKey kd) = false := by
  by_cases hmem : jmContains kd (autoKey kd) = true
  · exfalso
    unfold autoKey at hmem
    have heq := autoKeyGo_mem_imp kd (jmCount kd + 1) (jmCount kd) hmem
    have hcov : ∀ j ∈ List.range' (jmCount kd) (jmCount kd + 2),
        j ∈ jmKeys kd := by
      intro j hj
      rw [List.mem_range'] at hj
      rcases hj with ⟨i, hi, hji⟩
      subst hji
      rcases Nat.lt_or_ge i (jmCount kd + 1) with hlt | hge
      · refine (jmContains_iff kd _).mp ?_
        refine autoKeyGo_covered kd (jmCount kd + 1) (jmCount kd) _
          (by omega) ?_
        rw [heq]
        omega
      · have hieq : i = jmCount kd + 1 := by omega
        subst hieq
        refine (jmContains_iff kd _).mp ?_
        have h5 : jmCount kd + 1 * (jmCount kd + 1) =
            jmCount kd + (jmCount kd + 1) := by omega
        rw [h5, ← heq]
        exact hmem
    have hnd : (List.range' (jmCount kd) (jmCount kd + 2)).Nodup :=
      List.nodup_range' _ _
    have hsub : (List.range' (jmCount kd) (jmCount kd + 2)) ⊆ jmKeys kd :=
      fun j hj => hcov j hj
    have hcard : (List.range' (jmCount kd) (jmCount kd + 2)).toFinset.card =
        (List.range' (jmCount kd) (jmCount kd + 2)).length :=
      List.toFinset_card_of_nodup hnd
    have hsubf : (List.range' (jmCount kd) (jmCount kd + 2)).toFinset ⊆
        (jmKeys kd).toFinset := by
      intro x hx
      simp only [List.mem_toFinset] at hx ⊢
      exact hsub hx
    have h3 : (jmKeys kd).toFinset.card ≤ (jmKeys kd).length :=
      (jmKeys kd).toFinset_card_le
    have h4 := Finset.card_le_card hsubf
    have hlen : (List.range' (jmCount kd) (jmCount kd + 2)).length =
        jmCount kd + 2 := List.length_range' _ _ _
    have hkeys : (jmKeys kd).length = jmCount kd := by
      unfold jmKeys jmCount
      exact List.length_map _ _
    omega
  · simpa using hmem

theorem autoKey_ge_count {V : Type} (kd : JMap Nat V) :
    jmCount kd ≤ autoKey kd :=
  autoKeyGo_ge kd _ _

theorem autoKey_least {V : Type} (kd : JMap Nat V) :
    ∀ j, jmCount kd ≤ j → j < autoKey kd → j ∈ jmKeys kd := by
  intro j hj hlt
  exact (jmContains_iff kd j).mp (autoKeyGo_covered kd _ _ j hj hlt)

theorem jmGetD_set_self {K V : Type} [DecidableEq K] (m : JMap K V)
    (k : K) (v d : V) : jmGetD (jmSet m k v) k d = v := by
  unfold jmGetD
  rw [jmGet_set_self]
  rfl

theorem jmGetD_set_ne {K V : Type} [DecidableEq K] (m : JMap K V)
    (k : K) (v : V) (k' : K) (d : V) (hne : k' ≠ k) :
    jmGetD (jmSet m k v) k' d = jmGetD m k' d := by
  unfold jmGetD
  rw [jmGet_set_ne _ _ _ _ hne]

theorem keydict_setKeydict_self {N : Type} [DecidableEq N]
    (g : MultiGraph N) (u v : N) (kd : JMap Nat Nat) :
    MultiGraph.keydict (MultiGraph.setKeydict g u v kd) u v = some kd := by
  unfold MultiGraph.setKeydict MultiGraph.keydict MultiGraph.adjOf
  by_cases huv : u = v
  · subst huv
    rw [jmGetD_set_self, jmGet_set_self]
  · rw [jmGetD_set_ne _ _ _ _ _ huv, jmGetD_set_self, jmGet_set_self]

theorem keydict_setKeydict_succ {N : Type} [DecidableEq N]
    (g : MultiDiGraph N) (u v : N) (kd : JMap Nat Nat) :
    jmGet (MultiDiGraph.succOf (MultiDiGraph.setKeydict g u v kd) u) v =
      some kd := by
  unfold MultiDiGraph.setKeydict MultiDiGraph.succOf
  simp only
  rw [jmGetD_set_self, jmGet_set_self]

/-- C4 counterexample: on a multigraph whose `(0,1)` key-map is `{1}` (a
single caller-supplied key `1`), the smallest non-negative integer not
present is `0`; yet the keyless `add_edge(0, 1)` inserts key `2`
(`getCount() = 1` is taken, so the scan stops at `2`), so the claim as
stated is false at this input. -/
theorem claim_C4_counterexample :
    jmKeys c4Keydict₁ = [1] ∧
    jmContains c4Keydict₁ 0 = false ∧
    jmKeys c4Keydict₂ = [1, 2] := by
  decide

/-- C4 amended: in both multi variants, `add_edge(u, v)` without a caller
key inserts a new entry whose key is the smallest integer that is at least
the key-map's current count and not present in the key-map (`0` for a
fresh `(u,v)` pair) — not the smallest non-negative integer overall. -/
theorem claim_C4_multigraph_auto_key {N : Type} [DecidableEq N]
    (g : MultiGraph N) (gd : MultiDiGraph N) (h hd : Heap) (u v : N)
    (attrs : Obj) (kd kdd : JMap Nat Nat)
    (hu : jmContains g.nodes_ u = true) (hv : jmContains g.nodes_ v = true)
    (hkd : MultiGraph.keydict g u v = some kd)
    (hud : jmContains gd.nodes_ u = true)
    (hvd : jmContains gd.nodes_ v = true)
    (hkdd : jmGet (MultiDiGraph.succOf gd u) v = some kdd) :
    (∃ a, MultiGraph.keydict
        ((MultiGraph.add_edge_impl g h u v none attrs).1) u v =
          some (jmSet kd (autoKey kd) a)) ∧
    (∃ a, jmGet (MultiDiGraph.succOf
        ((MultiDiGraph.add_edge_impl gd hd u v none attrs).1) u) v =
          some (jmSet kdd (autoKey kdd) a)) ∧
    jmContains kd (autoKey kd) = false ∧
    jmCount kd ≤ autoKey kd ∧
    (∀ j, jmCount kd ≤ j → j < autoKey kd → j ∈ jmKeys kd) ∧
    jmContains kdd (autoKey kdd) = false ∧
    jmCount kdd ≤ autoKey kdd ∧
    (∀ j, jmCount kdd ≤ j → j < autoKey kdd → j ∈ jmKeys kdd) := by
  have hnone : jmGet kd (autoKey kd) = none :=
    jmGet_eq_none_of_not_contains _ _ (autoKey_not_mem kd)
  have hnoned : jmGet kdd (autoKey kdd) = none :=
    jmGet_eq_none_of_not_contains _ _ (autoKey_not_mem kdd)
  refine ⟨?_, ?_, autoKey_not_mem kd, autoKey_ge_count kd, autoKey_least kd,
    autoKey_not_mem kdd, autoKey_ge_count kdd, autoKey_least kdd⟩
  · unfold MultiGraph.add_edge_impl MultiGraph.add_node
    simp only [hu, hv, if_true, hkd, hnone, Option.getD_none]
    exact ⟨_, keydict_setKeydict_self _ _ _ _⟩
  · unfold MultiDiGraph.add_edge_impl MultiDiGraph.add_node
    have hcd : jmContains (MultiDiGraph.succOf gd u) v = true := by
      rw [jmContains_eq_isSome_get, hkdd]
      rfl
    simp only [hud, hvd, if_true, hcd, Bool.and_self, hkdd, hnoned,
      Option.getD_none]
    exact ⟨_, keydict_setKeydict_succ _ _ _ _⟩

/-- C4 witness: the amended statement applied to the concrete multigraph
and multidigraph whose `(0,1)` key-map is `{1}`: the inserted key is the
least integer at or above the count `1` outside the key-map, namely `2`. -/
theorem claim_C4_witness :
    ((∃ a, MultiGraph.keydict
        ((MultiGraph.add_edge_impl c4State₁.1 c4State₁.2 0 1 none []).1) 0 1 =
          some (jmSet c4Keydict₁ (autoKey c4Keydict₁) a)) ∧
    (∃ a, jmGet (MultiDiGraph.succOf
        ((MultiDiGraph.add_edge_impl c4dState₁.1 c4dState₁.2 0 1 none []).1)
          0) 1 =
          some (jmSet c4Keydict₁ (autoKey c4Keydict₁) a)) ∧
    jmContains c4Keydict₁ (autoKey c4Keydict₁) = false ∧
    jmCount c4Keydict₁ ≤ autoKey c4Keydict₁ ∧
    (∀ j, jmCount c4Keydict₁ ≤ j → j < autoKey c4Keydict₁ →
      j ∈ jmKeys c4Keydict₁) ∧
    jmContains c4Keydict₁ (autoKey c4Keydict₁) = false ∧
    jmCount c4Keydict₁ ≤ autoKey c4Keydict₁ ∧
    (∀ j, jmCount c4Keydict₁ ≤ j → j < autoKey c4Keydict₁ →
      j ∈ jmKeys c4Keydict₁)) ∧
    autoKey c4Keydict₁ = 2 := by
  constructor
  · refine claim_C4_multigraph_auto_key c4State₁.1 c4dState₁.1 c4State₁.2
      c4dState₁.2 0 1 [] c4Keydict₁ c4Keydict₁ (by decide) (by decide)
      (by decide) (by decide) (by decide) (by decide)
  · decide

theorem jmGet_some_mem {K V : Type} [DecidableEq K] (m : JMap K V)
    (k : K) (v : V) (h : jmGet m k = some v) :
    ∃ e ∈ m.entries, e.1 = k ∧ e.2 = v := by
  unfold jmGet at h
  cases hfind : m.entries.find? (fun e => decide (e.1 = k)) with
  | none => rw [hfind] at h; cases h
  | some e =>
      rw [hfind] at h
      have hmem := List.mem_of_find?_eq_some hfind
      have hkey := List.find?_some hfind
      simp only [decide_eq_true_eq] at hkey
      cases h
      exact ⟨e, hmem, hkey, rfl⟩

theorem jmGet_some_key_mem {K V : Type} [DecidableEq K] (m : JMap K V)
    (k : K) (v : V) (h : jmGet m k = some v) : k ∈ jmKeys m := by
  rcases jmGet_some_mem m k v h with ⟨e, he, hk, _⟩
  unfold jmKeys
  exact hk ▸ List.mem_map_of_mem Prod.fst he

theorem find?_of_mem_nodup {K V : Type} [DecidableEq K] :
    ∀ (l : List (K × V)), (l.map Prod.fst).Nodup → ∀ e ∈ l,
      l.find? (fun x => x.1 = e.1) = some e := by
  intro l
  induction l with
  | nil => intro _ e he; cases he
  | cons e₀ rest ih =>
      intro hnd e he
      simp only [List.map_cons, List.nodup_cons] at hnd
      rw [List.mem_cons] at he
      rcases he with he | he
      · subst he
        simp [List.find?_cons]
      · have hne : ¬ e₀.1 = e.1 := by
          intro heq
          exact hnd.1 (heq ▸ List.mem_map_of_mem Prod.fst he)
        rw [List.find?_cons_of_neg _ (by simpa using hne)]
        exact ih hnd.2 e he

theorem jmGet_of_mem_nodup {K V : Type} [DecidableEq K] (m : JMap K V)
    (hnd : (jmKeys m).Nodup) (e : K × V) (he : e ∈ m.entries) :
    jmGet m e.1 = some e.2 := by
  unfold jmGet
  rw [show (fun (x : K × V) => decide (x.1 = e.1)) =
      (fun (x : K × V) => x.1 = e.1) from rfl]
  rw [find?_of_mem_nodup m.entries hnd e he]

theorem count_step_list {N : Type} [DecidableEq N] (n : N) (seen : List N)
    (a b : N) :
    ∀ (l : List (N × Nat)), (l.map Prod.fst).Nodup →
      ((l.filterMap
          (fun e => if e.1 ∈ seen then none else some (n, e.1, e.2))).map
        (fun t => (t.1, t.2.1))).count (a, b) =
        if a = n ∧ b ∈ l.map Prod.fst ∧ b ∉ seen then 1 else 0 := by
  intro l
  induction l with
  | nil => simp
  | cons e rest ih =>
      intro hnd
      simp only [List.map_cons, List.nodup_cons] at hnd
      by_cases hseen : e.1 ∈ seen
      · rw [List.filterMap_cons_none (by simp [hseen])]
        rw [ih hnd.2]
        by_cases hbe : b = e.1
        · subst hbe
          simp [hnd.1, hseen]
        · by_cases hb : b ∈ rest.map Prod.fst <;>
            by_cases ha : a = n <;> by_cases hs : b ∈ seen <;>
            simp [hb, ha, hs, hbe]
      · have heq : (e :: rest).filterMap
            (fun e => if e.1 ∈ seen then none else some (n, e.1, e.2)) =
            (n, e.1, e.2) :: rest.filterMap
              (fun e => if e.1 ∈ seen then none else some (n, e.1, e.2)) :=
          List.filterMap_cons_some (by simp [hseen])
        rw [heq]
        simp only [List.map_cons, List.count_cons]
        rw [ih hnd.2]
        by_cases hbe : b = e.1
        · subst hbe
          by_cases han : a = n
          · subst han
            simp [hnd.1, hseen, Prod.ext_iff]
          · have hx : ¬ ((n, e.1) == (a, e.1)) = true := by
              simp [Prod.ext_iff]
              intro h
              exact absurd h.symm han
            simp only [hx, if_false]
            simp [hnd.1, han]
        · have hx : ¬ ((n, e.1) == (a, b)) = true := by
            simp [Prod.ext_iff]
            intro _ h
            exact absurd h.symm hbe
          simp only [hx, if_false]
          by_cases hb : b ∈ rest.map Prod.fst <;>
            by_cases ha : a = n <;> by_cases hs : b ∈ seen <;>
            simp [hb, ha, hs, hbe]

theorem countPair_append {N : Type} [DecidableEq N] (l₁ l₂ : List (N × N))
    (a b : N) :
    countPair (l₁ ++ l₂) a b = countPair l₁ a b + countPair l₂ a b := by
  unfold countPair
  rw [List.count_append, List.count_append]
  by_cases hab : a = b
  · simp [hab]
  · simp only [if_neg hab]
    omega

theorem edgeIn_cons {N : Type} [DecidableEq N] (p : N × JMap N Nat)
    (L : List (N × JMap N Nat)) (a b : N) :
    edgeIn (p :: L) a b ↔ (p.1 = a ∧ b ∈ jmKeys p.2) ∨ edgeIn L a b := by
  unfold edgeIn
  constructor
  · rintro ⟨e, he, h1, h2⟩
    rw [List.mem_cons] at he
    rcases he with he | he
    · subst he; exact Or.inl ⟨h1, h2⟩
    · exact Or.inr ⟨e, he, h1, h2⟩
  · rintro (⟨h1, h2⟩ | ⟨e, he, h1, h2⟩)
    · exact ⟨p, by simp, h1, h2⟩
    · exact ⟨e, by simp [he], h1, h2⟩

theorem edgeIn_key_mem {N : Type} [DecidableEq N]
    (L : List (N × JMap N Nat)) (a b : N) (h : edgeIn L a b) :
    a ∈ L.map Prod.fst := by
  rcases h with ⟨e, he, h1, _⟩
  exact h1 ▸ List.mem_map_of_mem Prod.fst he

theorem genEdges_countPair {N : Type} [DecidableEq N] :
    ∀ (L : List (N × JMap N Nat)) (seen : List N),
      (L.map Prod.fst).Nodup →
      (∀ e ∈ L, (jmKeys e.2).Nodup) →
      (∀ x ∈ L.map Prod.fst, x ∉ seen) →
      (∀ e ∈ L, ∀ w ∈ jmKeys e.2, w ∈ seen ∨ edgeIn L w e.1) →
      ∀ a b,
        countPair ((Graph.generate_edges_list L seen).map
          (fun t => (t.1, t.2.1))) a b =
          if a ∉ seen ∧ b ∉ seen ∧ edgeIn L a b then 1 else 0 := by
  intro L
  induction L with
  | nil =>
      intro seen _ _ _ _ a b
      simp [Graph.generate_edges_list, countPair, edgeIn]
  | cons e₀ L' ih =>
      intro seen h1 h2 h3 h4 a b
      obtain ⟨n, nbrs⟩ := e₀
      simp only [List.map_cons, List.nodup_cons] at h1
      have hnseen : n ∉ seen := h3 n (by simp)
      have hnd_nbrs : (jmKeys nbrs).Nodup := h2 (n, nbrs) (by simp)
      have hstep : Graph.generate_edges_list ((n, nbrs) :: L') seen =
          nbrs.entries.filterMap
            (fun e => if e.1 ∈ seen then none else some (n, e.1, e.2)) ++
          Graph.generate_edges_list L' (n :: seen) := rfl
      rw [hstep, List.map_append, countPair_append]
      have hSC : ∀ x y,
          ((nbrs.entries.filterMap
              (fun e => if e.1 ∈ seen then none else some (n, e.1, e.2))).map
            (fun t => (t.1, t.2.1))).count (x, y) =
            if x = n ∧ y ∈ jmKeys nbrs ∧ y ∉ seen then 1 else 0 :=
        fun x y => count_step_list n seen x y nbrs.entries hnd_nbrs
      have ih' := ih (n :: seen) h1.2
        (fun e he => h2 e (by simp [he]))
        (fun x hx => by
          rw [List.mem_cons]
          push_neg
          refine ⟨?_, h3 x (by simp [hx])⟩
          intro hxn
          exact h1.1 (hxn ▸ hx))
        (fun e he w hw => by
          rcases h4 e (by simp [he]) w hw with hws | hedge
          · exact Or.inl (by simp [hws])
          · rw [edgeIn_cons] at hedge
            rcases hedge with ⟨hwn, _⟩ | hedge
            · refine Or.inl ?_
              rw [List.mem_cons]
              exact Or.inl hwn.symm
            · exact Or.inr hedge)
        a b
      rw [ih']
      have hEcons := edgeIn_cons (n, nbrs) L' a b
      by_cases han : a = n
      · subst han
        by_cases hab : b = a
        · subst hab
          have hE : edgeIn ((b, nbrs) :: L') b b ↔ b ∈ jmKeys nbrs := by
            rw [hEcons]
            constructor
            · rintro (⟨_, h⟩ | hedge)
              · exact h
              · exact absurd (edgeIn_key_mem L' b b hedge) h1.1
            · exact fun h => Or.inl ⟨rfl, h⟩
          unfold countPair
          rw [hSC b b]
          by_cases hr : b ∈ jmKeys nbrs <;> simp [hr, hE, hnseen]
        · have hE : edgeIn ((a, nbrs) :: L') a b ↔ b ∈ jmKeys nbrs := by
            rw [hEcons]
            constructor
            · rintro (⟨_, h⟩ | hedge)
              · exact h
              · exact absurd (edgeIn_key_mem L' a b hedge) h1.1
            · exact fun h => Or.inl ⟨rfl, h⟩
          have hih0 : (if a ∉ a :: seen ∧ b ∉ a :: seen ∧ edgeIn L' a b
              then 1 else 0) = 0 := by
            rw [if_neg]
            rintro ⟨ha, _, _⟩
            exact ha (List.mem_cons_self a seen)
          rw [hih0]
          unfold countPair
          rw [hSC a b, hSC b a]
          have hba0 : (if b = a ∧ a ∈ jmKeys nbrs ∧ a ∉ seen
              then 1 else 0) = 0 := by
            rw [if_neg]
            rintro ⟨hba, _⟩
            exact hab hba
          rw [hba0, ite_self]
          by_cases hr : b ∈ jmKeys nbrs <;> by_cases hbs : b ∈ seen <;>
            simp [hr, hbs, hE, hnseen]
      · unfold countPair
        rw [hSC a b, hSC b a]
        have hfst0 : (if a = n ∧ b ∈ jmKeys nbrs ∧ b ∉ seen
            then 1 else 0) = 0 := by
          rw [if_neg]
          rintro ⟨h, _⟩
          exact han h
        rw [hfst0]
        by_cases hbn : b = n
        · have hab : ¬ a = b := fun h => han (h.trans hbn)
          have hih0 : (if a ∉ n :: seen ∧ b ∉ n :: seen ∧ edgeIn L' a b
              then 1 else 0) = 0 := by
            rw [if_neg]
            rintro ⟨_, hbns, _⟩
            exact hbns (by simp [hbn])
          rw [hih0, if_neg hab]
          have hiff : (b = n ∧ a ∈ jmKeys nbrs ∧ a ∉ seen) ↔
              (a ∉ seen ∧ b ∉ seen ∧ edgeIn ((n, nbrs) :: L') a b) := by
            constructor
            · rintro ⟨_, hak, has⟩
              refine ⟨has, by rw [hbn]; exact hnseen, ?_⟩
              rcases h4 (n, nbrs) (by simp) a hak with hs | hedge
              · exact absurd hs has
              · rw [hbn]
                exact hedge
            · rintro ⟨has, _, hedge⟩
              rw [hEcons] at hedge
              rcases hedge with ⟨hna, _⟩ | hedge
              · exact absurd hna.symm han
              · obtain ⟨e, he, h1e, h2e⟩ := hedge
                rcases h4 e (by simp [he]) b h2e with hs | hedge2
                · exact absurd hs (by rw [hbn]; exact hnseen)
                · rw [edgeIn_cons] at hedge2
                  rcases hedge2 with ⟨_, hk⟩ | hedge2
                  · exact ⟨hbn, h1e ▸ hk, has⟩
                  · exact absurd (edgeIn_key_mem L' b e.1 hedge2)
                      (by rw [hbn]; exact h1.1)
          by_cases hL : b = n ∧ a ∈ jmKeys nbrs ∧ a ∉ seen
          · rw [if_pos hL, if_pos (hiff.mp hL)]
          · rw [if_neg hL, if_neg (fun h => hL (hiff.mpr h))]
        · have h2nd : (if b = n ∧ a ∈ jmKeys nbrs ∧ a ∉ seen
              then 1 else 0) = 0 := by
            rw [if_neg]
            rintro ⟨h, _⟩
            exact hbn h
          rw [h2nd, ite_self]
          have hiff : (a ∉ n :: seen ∧ b ∉ n :: seen ∧ edgeIn L' a b) ↔
              (a ∉ seen ∧ b ∉ seen ∧ edgeIn ((n, nbrs) :: L') a b) := by
            rw [hEcons]
            simp only [List.mem_cons]
            constructor
            · rintro ⟨ha, hb, he⟩
              exact ⟨fun h => ha (Or.inr h), fun h => hb (Or.inr h),
                Or.inr he⟩
            · rintro ⟨ha, hb, he⟩
              refine ⟨?_, ?_, ?_⟩
              · rintro (h | h)
                · exact han h
                · exact ha h
              · rintro (h | h)
                · exact hbn h
                · exact hb h
              · rcases he with ⟨hna, _⟩ | he
                · exact absurd hna.symm han
                · exact he
          by_cases hL : a ∉ n :: seen ∧ b ∉ n :: seen ∧ edgeIn L' a b
          · rw [if_pos hL, if_pos (hiff.mp hL)]
          · rw [if_neg hL, if_neg (fun h => hL (hiff.mpr h))]

theorem adjOf_eq_of_mem {N : Type} [DecidableEq N] (g : Graph N)
    (hnd : (jmKeys g.adj_).Nodup) (e : N × JMap N Nat)
    (he : e ∈ g.adj_.entries) : Graph.adjOf g e.1 = e.2 := by
  unfold Graph.adjOf jmGetD
  rw [jmGet_of_mem_nodup g.adj_ hnd e he]
  rfl

theorem edgeIn_iff_contains {N : Type} [DecidableEq N] (g : Graph N)
    (hnd : (jmKeys g.adj_).Nodup) (a b : N) :
    edgeIn g.adj_.entries a b ↔ jmContains (Graph.adjOf g a) b = true := by
  constructor
  · rintro ⟨e, he, h1e, h2e⟩
    rw [← h1e, adjOf_eq_of_mem g hnd e he]
    exact (jmContains_iff e.2 b).mpr h2e
  · intro hc
    have hb := (jmContains_iff _ b).mp hc
    by_cases hca : jmContains g.adj_ a = true
    · have hs : (jmGet g.adj_ a).isSome := by
        rw [← jmContains_eq_isSome_get]
        exact hca
      obtain ⟨m, hm⟩ := Option.isSome_iff_exists.mp hs
      obtain ⟨e, he, h1e, h2e⟩ := jmGet_some_mem g.adj_ a m hm
      have hadj : Graph.adjOf g a = m := by
        unfold Graph.adjOf jmGetD
        rw [hm]
        rfl
      refine ⟨e, he, h1e, ?_⟩
      rw [h2e, ← hadj]
      exact hb
    · have hfalse : jmContains g.adj_ a = false := by
        revert hca
        cases jmContains g.adj_ a <;> simp
      have hnone := jmGet_eq_none_of_not_contains g.adj_ a hfalse
      have hadj : Graph.adjOf g a = jmEmpty := by
        unfold Graph.adjOf jmGetD
        rw [hnone]
        rfl
      rw [hadj] at hb
      simp [jmKeys, jmEmpty] at hb

/-- C7: for every well-formed simple undirected graph, `edges_iter()`
without a node bunch yields each undirected edge `{a, b}` exactly once
(in one orientation or the other) and yields nothing for a non-edge:
the seen-set mechanism skips neighbors already marked seen and marks `n`
seen after its neighbor iteration. -/
theorem claim_C7_edges_iter_once {N : Type} [DecidableEq N]
    (g : Graph N) (h : Heap) (hwf : Graph.wf g h) (a b : N) :
    countPair (Graph.edges_list g) a b =
      if jmContains (Graph.adjOf g a) b = true then 1 else 0 := by
  have h4 : ∀ e ∈ g.adj_.entries, ∀ w ∈ jmKeys e.2,
      w ∈ ([] : List N) ∨ edgeIn g.adj_.entries w e.1 := by
    intro e he w hw
    refine Or.inr ?_
    simp only [jmKeys] at hw
    obtain ⟨p, hp, hp1⟩ := List.mem_map.mp hw
    have hmirror := hwf.2.2.2.1 e he p hp
    rw [hp1] at hmirror
    have hcont : jmContains (Graph.adjOf g w) e.1 = true := by
      rw [jmContains_eq_isSome_get, hmirror]
      rfl
    exact (edgeIn_iff_contains g hwf.2.1 w e.1).mpr hcont
  have hmain := genEdges_countPair g.adj_.entries [] hwf.2.1 hwf.2.2.1
    (fun x _ => List.not_mem_nil x) h4 a b
  show countPair ((Graph.generate_edges_list g.adj_.entries []).map
      (fun t => (t.1, t.2.1))) a b = _
  rw [hmain]
  by_cases hE : edgeIn g.adj_.entries a b
  · rw [if_pos ⟨List.not_mem_nil a, List.not_mem_nil b, hE⟩,
      if_pos ((edgeIn_iff_contains g hwf.2.1 a b).mp hE)]
  · rw [if_neg (fun hh => hE hh.2.2),
      if_neg (fun hh => hE ((edgeIn_iff_contains g hwf.2.1 a b).mpr hh))]

theorem claim_C7_witness :
    Graph.wf c7State₂.1 c7State₂.2 ∧
      countPair (Graph.edges_list c7State₂.1) 0 1 =
        (if jmContains (Graph.adjOf c7State₂.1 0) 1 = true then 1 else 0) ∧
      countPair (Graph.edges_list c7State₂.1) 0 2 =
        (if jmContains (Graph.adjOf c7State₂.1 0) 2 = true then 1 else 0) :=
  ⟨by decide,
    claim_C7_edges_iter_once c7State₂.1 c7State₂.2 (by decide) 0 1,
    claim_C7_edges_iter_once c7State₂.1 c7State₂.2 (by decide) 0 2⟩

theorem jsoGetD_set_self {V : Type} (m : SMap V) (k : String) (v d : V) :
    jsoGetD (jsoSet m k v) k d = v := by
  induction m with
  | nil => simp [jsoSet, jsoGetD]
  | cons kv rest ih =>
      by_cases hk : kv.1 = k
      · simp [jsoSet, hk, jsoGetD]
      · simp only [jsoSet]
        rw [if_neg hk]
        simp only [jsoGetD] at ih ⊢
        rw [List.find?_cons_of_neg _ (by simpa using hk)]
        exact ih

theorem jsoGetD_set_ne {V : Type} (m : SMap V) (k s : String) (v : V)
    (d : V) (hne : ¬ s = k) :
    jsoGetD (jsoSet m k v) s d = jsoGetD m s d := by
  induction m with
  | nil =>
      simp only [jsoSet, jsoGetD]
      rw [List.find?_cons_of_neg _ (by simpa using fun h => hne h.symm)]
  | cons kv rest ih =>
      by_cases hk : kv.1 = k
      · by_cases hs : kv.1 = s
        · exact absurd (hs.symm.trans hk) hne
        · simp only [jsoSet]
          rw [if_pos hk]
          simp only [jsoGetD]
          rw [List.find?_cons_of_neg _ (by simpa using hs),
            List.find?_cons_of_neg _ (by simpa using hs)]
      · simp only [jsoSet]
        rw [if_neg hk]
        by_cases hs : kv.1 = s
        · simp only [jsoGetD]
          rw [List.find?_cons_of_pos _ (by simpa using hs),
            List.find?_cons_of_pos _ (by simpa using hs)]
        · simp only [jsoGetD] at ih ⊢
          rw [List.find?_cons_of_neg _ (by simpa using hs),
            List.find?_cons_of_neg _ (by simpa using hs)]
          exact ih

theorem intMapping_fold_untouched :
    ∀ (order : List NodeId) (p : SMap NodeId × Int) (s : String)
      (d : NodeId), s ∉ order.map jsToString →
      jsoGetD (order.foldl
          (fun acc n =>
            (jsoSet acc.1 (jsToString n) (NodeId.num acc.2), acc.2 + 1))
          p).1 s d = jsoGetD p.1 s d := by
  intro order
  induction order with
  | nil => intro p s d _; rfl
  | cons n₀ rest ih =>
      intro p s d hs
      simp only [List.map_cons, List.mem_cons] at hs
      push_neg at hs
      rw [List.foldl_cons, ih _ s d hs.2]
      exact jsoGetD_set_ne p.1 (jsToString n₀) s (NodeId.num p.2) d hs.1

theorem intMapping_fold_image :
    ∀ (order : List NodeId) (acc : SMap NodeId) (k : Int),
      (order.map jsToString).Nodup →
      order.map (fun n =>
          jsoGetD (order.foldl
            (fun acc n =>
              (jsoSet acc.1 (jsToString n) (NodeId.num acc.2), acc.2 + 1))
            (acc, k)).1 (jsToString n) n) =
        (List.range order.length).map
          (fun i : Nat => NodeId.num (k + (i : Int))) := by
  intro order
  induction order with
  | nil => intro acc k _; rfl
  | cons n₀ rest ih =>
      intro acc k hnd
      simp only [List.map_cons, List.nodup_cons] at hnd
      rw [List.map_cons, List.foldl_cons]
      have hhead :
          jsoGetD (rest.foldl
              (fun acc n =>
                (jsoSet acc.1 (jsToString n) (NodeId.num acc.2), acc.2 + 1))
              (jsoSet acc (jsToString n₀) (NodeId.num k), k + 1)).1
            (jsToString n₀) n₀ = NodeId.num k := by
        rw [intMapping_fold_untouched rest _ _ _ hnd.1]
        exact jsoGetD_set_self acc (jsToString n₀) (NodeId.num k) n₀
      rw [hhead]
      have htail := ih (jsoSet acc (jsToString n₀) (NodeId.num k)) (k + 1)
        hnd.2
      rw [htail, List.length_cons, List.range_succ_eq_map, List.map_cons,
        List.map_map]
      congr 1
      · congr 1
        omega
      · refine List.map_congr_left ?_
        intro i _
        show NodeId.num (k + 1 + i) = NodeId.num (k + (i + 1))
        congr 1
        ring

theorem nodes_add_node_impl_mem {N : Type} [DecidableEq N] (g : Graph N)
    (h : Heap) (n : N) (a : Nat) (m : N) :
    m ∈ Graph.nodes (Graph.add_node_impl g h n a).1 ↔
      m ∈ Graph.nodes g ∨ m = n := by
  unfold Graph.add_node_impl
  by_cases hc : g.has_node n
  · have hn : n ∈ Graph.nodes g := by
      unfold Graph.has_node at hc
      exact (jmContains_iff g.nodes_ n).mp hc
    rw [if_pos hc]
    cases hg : jmGet g.nodes_ n with
    | some a₀ =>
        constructor
        · exact Or.inl
        · rintro (hm | hm)
          · exact hm
          · exact hm ▸ hn
    | none =>
        constructor
        · exact Or.inl
        · rintro (hm | hm)
          · exact hm
          · exact hm ▸ hn
  · have hcf : jmContains g.nodes_ n = false := by
      unfold Graph.has_node at hc
      revert hc
      cases jmContains g.nodes_ n <;> simp
    rw [if_neg hc]
    show m ∈ jmKeys (jmSet g.nodes_ n a) ↔ _
    rw [jmKeys_set_of_not_contains g.nodes_ n a hcf, List.mem_append]
    simp [Graph.nodes]

theorem nodes_add_node_mem {N : Type} [DecidableEq N] (g : Graph N)
    (h : Heap) (n : N) (attrs : Obj) (m : N) :
    m ∈ Graph.nodes (Graph.add_node g h n attrs).1 ↔
      m ∈ Graph.nodes g ∨ m = n :=
  nodes_add_node_impl_mem g (halloc h attrs).1 n (halloc h attrs).2 m

theorem nodes_add_edge_eq {N : Type} [DecidableEq N] (g : Graph N)
    (h : Heap) (u v : N) (d : Obj) :
    (Graph.add_edge g h u v d).1.nodes_ =
      (Graph.add_node (Graph.add_node g h u []).1
        (Graph.add_node g h u []).2 v []).1.nodes_ := by
  unfold Graph.add_edge Graph.add_edge_impl
  dsimp only
  split
  · rfl
  · rfl

theorem nodes_add_edge_mem {N : Type} [DecidableEq N] (g : Graph N)
    (h : Heap) (u v : N) (d : Obj) (m : N) :
    m ∈ Graph.nodes (Graph.add_edge g h u v d).1 ↔
      m ∈ Graph.nodes g ∨ m = u ∨ m = v := by
  show m ∈ jmKeys (Graph.add_edge g h u v d).1.nodes_ ↔ _
  rw [nodes_add_edge_eq g h u v d]
  show m ∈ Graph.nodes (Graph.add_node (Graph.add_node g h u []).1
    (Graph.add_node g h u []).2 v []).1 ↔ _
  rw [nodes_add_node_mem, nodes_add_node_mem]
  tauto

theorem nodes_add_edges_from_mem {N : Type} [DecidableEq N]
    (base : Obj) (m : N) :
    ∀ (eb : List (N × N × Obj)) (g : Graph N) (h : Heap),
      m ∈ Graph.nodes (Graph.add_edges_from g h eb base).1 ↔
        m ∈ Graph.nodes g ∨ ∃ t ∈ eb, m = t.1 ∨ m = t.2.1 := by
  intro eb
  induction eb with
  | nil =>
      intro g h
      simp [Graph.add_edges_from]
  | cons t rest ih =>
      intro g h
      show m ∈ Graph.nodes (Graph.add_edges_from
          (Graph.add_edge g h t.1 t.2.1 (objExtend base t.2.2)).1
          (Graph.add_edge g h t.1 t.2.1 (objExtend base t.2.2)).2
          rest base).1 ↔ _
      rw [ih, nodes_add_edge_mem]
      simp only [List.mem_cons]
      constructor
      · rintro ((hm | hm | hm) | ⟨t', ht', hm⟩)
        · exact Or.inl hm
        · exact Or.inr ⟨t, Or.inl rfl, Or.inl hm⟩
        · exact Or.inr ⟨t, Or.inl rfl, Or.inr hm⟩
        · exact Or.inr ⟨t', Or.inr ht', hm⟩
      · rintro (hm | ⟨t', ht' | ht', hm⟩)
        · exact Or.inl (Or.inl hm)
        · subst ht'
          rcases hm with hm | hm
          · exact Or.inl (Or.inr (Or.inl hm))
          · exact Or.inl (Or.inr (Or.inr hm))
        · exact Or.inr ⟨t', ht', hm⟩

theorem nodes_add_nodes_from_plain_mem {N : Type} [DecidableEq N] (m : N) :
    ∀ (ns : List N) (g : Graph N) (h : Heap),
      m ∈ Graph.nodes (Graph.add_nodes_from_plain g h ns).1 ↔
        m ∈ Graph.nodes g ∨ m ∈ ns := by
  intro ns
  induction ns with
  | nil =>
      intro g h
      simp [Graph.add_nodes_from_plain]
  | cons n rest ih =>
      intro g h
      by_cases hc : g.has_node n
      · have hstep : Graph.add_nodes_from_plain g h (n :: rest) =
            Graph.add_nodes_from_plain g h rest := by
          unfold Graph.add_nodes_from_plain
          rw [List.foldl_cons]
          simp [hc]
        rw [hstep, ih]
        have hn : n ∈ Graph.nodes g :=
          (jmContains_iff g.nodes_ n).mp hc
        simp only [List.mem_cons]
        constructor
        · rintro (hm | hm)
          · exact Or.inl hm
          · exact Or.inr (Or.inr hm)
        · rintro (hm | hm | hm)
          · exact Or.inl hm
          · exact Or.inl (hm ▸ hn)
          · exact Or.inr hm
      · have hstep : Graph.add_nodes_from_plain g h (n :: rest) =
            Graph.add_nodes_from_plain (Graph.add_node g h n []).1
              (Graph.add_node g h n []).2 rest := by
          unfold Graph.add_nodes_from_plain
          rw [List.foldl_cons]
          simp [hc]
        rw [hstep, ih, nodes_add_node_mem]
        simp only [List.mem_cons]
        tauto

theorem nodes_add_nodes_from_pairs_mem {N : Type} [DecidableEq N] (m : N) :
    ∀ (ps : List (N × Nat)) (g : Graph N) (h : Heap),
      m ∈ Graph.nodes (Graph.add_nodes_from_pairs g h ps).1 ↔
        m ∈ Graph.nodes g ∨ m ∈ ps.map Prod.fst := by
  intro ps
  induction ps with
  | nil =>
      intro g h
      simp [Graph.add_nodes_from_pairs]
  | cons p rest ih =>
      intro g h
      show m ∈ Graph.nodes (Graph.add_nodes_from_pairs
          (Graph.add_node_impl g (halloc h (objExtend [] (heapAt h p.2))).1
            p.1 (halloc h (objExtend [] (heapAt h p.2))).2).1
          (Graph.add_node_impl g (halloc h (objExtend [] (heapAt h p.2))).1
            p.1 (halloc h (objExtend [] (heapAt h p.2))).2).2
          rest).1 ↔ _
      rw [ih, nodes_add_node_impl_mem]
      simp only [List.map_cons, List.mem_cons]
      tauto

theorem generate_edges_ends {N : Type} [DecidableEq N] :
    ∀ (L : List (N × JMap N Nat)) (seen : List N) (t : N × N × Nat),
      t ∈ Graph.generate_edges_list L seen →
      ∃ e ∈ L, t.1 = e.1 ∧ t.2.1 ∈ jmKeys e.2 := by
  intro L
  induction L with
  | nil =>
      intro seen t ht
      simp [Graph.generate_edges_list] at ht
  | cons e₀ rest ih =>
      intro seen t ht
      obtain ⟨n, nbrs⟩ := e₀
      have hstep : Graph.generate_edges_list ((n, nbrs) :: rest) seen =
          nbrs.entries.filterMap
            (fun e => if e.1 ∈ seen then none else some (n, e.1, e.2)) ++
          Graph.generate_edges_list rest (n :: seen) := rfl
      rw [hstep, List.mem_append] at ht
      rcases ht with ht | ht
      · obtain ⟨p, hp, hpe⟩ := List.mem_filterMap.mp ht
        by_cases hs : p.1 ∈ seen
        · rw [if_pos hs] at hpe
          cases hpe
        · rw [if_neg hs] at hpe
          cases hpe
          refine ⟨(n, nbrs), by simp, rfl, ?_⟩
          show p.1 ∈ jmKeys nbrs
          exact List.mem_map_of_mem Prod.fst hp
      · obtain ⟨e, he, h1, h2⟩ := ih (n :: seen) t ht
        exact ⟨e, by simp [he], h1, h2⟩

theorem neighbor_mem_keys {N : Type} [DecidableEq N] (g : Graph N)
    (h : Heap) (hwf : Graph.wf g h) (e : N × JMap N Nat)
    (he : e ∈ g.adj_.entries) (w : N) (hw : w ∈ jmKeys e.2) :
    w ∈ jmKeys g.adj_ := by
  simp only [jmKeys] at hw
  obtain ⟨p, hp, hp1⟩ := List.mem_map.mp hw
  have hmirror := hwf.2.2.2.1 e he p hp
  rw [hp1] at hmirror
  by_cases hc : jmContains g.adj_ w = true
  · exact (jmContains_iff g.adj_ w).mp hc
  · exfalso
    have hfalse : jmContains g.adj_ w = false := by
      revert hc
      cases jmContains g.adj_ w <;> simp
    have hnone := jmGet_eq_none_of_not_contains g.adj_ w hfalse
    have hadj : Graph.adjOf g w = jmEmpty := by
      unfold Graph.adjOf jmGetD
      rw [hnone]
      rfl
    rw [hadj] at hmirror
    cases hmirror

theorem nodes_relabel_copy_mem (G : Graph NodeId) (h : Heap)
    (mapping : SMap NodeId) (hwf : Graph.wf G h) (m : NodeId) :
    m ∈ Graph.nodes (relabel_copy G h mapping).1 ↔
      m ∈ G.nodes.map (rwNode mapping) := by
  unfold relabel_copy
  rw [nodes_add_nodes_from_pairs_mem, nodes_add_nodes_from_plain_mem,
    nodes_add_edges_from_mem]
  have hempty : ∀ x : NodeId, x ∈ Graph.nodes
      (Graph.setName
        { Graph.empty with
            graphAttrs :=
              objExtend [] (deepcopyObj (h.length + 1) h G.graphAttrs).2 }
        ("(" ++ G.gname ++ ")")) ↔ False := by
    intro x
    simp [Graph.nodes, Graph.setName, Graph.empty, jmKeys, jmEmpty]
  have hends : ∀ t ∈ (Graph.edges_with_data G).map
      (fun t => (rwNode mapping t.1, rwNode mapping t.2.1, heapAt h t.2.2)),
      t.1 ∈ G.nodes.map (rwNode mapping) ∧
        t.2.1 ∈ G.nodes.map (rwNode mapping) := by
    intro t ht
    obtain ⟨t₀, ht₀, hteq⟩ := List.mem_map.mp ht
    obtain ⟨e, he, h1, h2⟩ := generate_edges_ends G.adj_.entries [] t₀ ht₀
    have hu : t₀.1 ∈ Graph.nodes G := by
      show t₀.1 ∈ jmKeys G.nodes_
      rw [hwf.1, h1]
      exact List.mem_map_of_mem Prod.fst he
    have hv : t₀.2.1 ∈ Graph.nodes G := by
      show t₀.2.1 ∈ jmKeys G.nodes_
      rw [hwf.1]
      exact neighbor_mem_keys G h hwf e he t₀.2.1 h2
    subst hteq
    exact ⟨List.mem_map_of_mem (rwNode mapping) hu,
      List.mem_map_of_mem (rwNode mapping) hv⟩
  constructor
  · rintro (((hm | hm) | hm) | hm)
    · exact absurd hm ((hempty m).mp ∘ id)
    · obtain ⟨t, ht, hor⟩ := hm
      rcases hor with hor | hor
      · exact hor ▸ (hends t ht).1
      · exact hor ▸ (hends t ht).2
    · exact hm
    · rw [List.map_map] at hm
      have hfeq : (Prod.fst ∘ fun e : NodeId × Nat =>
          (rwNode mapping e.1, e.2)) = (rwNode mapping ∘ Prod.fst) := rfl
      rw [hfeq] at hm
      show m ∈ List.map (rwNode mapping) (List.map Prod.fst G.nodes_.entries)
      rw [List.map_map]
      exact hm
  · intro hm
    exact Or.inl (Or.inr hm)

theorem degree_list_fsts (G : Graph NodeId) (h : Heap)
    (hwf : Graph.wf G h) :
    (Graph.degree_list G).map Prod.fst = Graph.nodes G := by
  unfold Graph.degree_list
  rw [List.map_map]
  show List.map Prod.fst G.adj_.entries = Graph.nodes G
  show jmKeys G.adj_ = jmKeys G.nodes_
  exact hwf.1.symm

theorem orderingNodes_perm (G : Graph NodeId) (h : Heap)
    (hwf : Graph.wf G h) (ordering : String) (order : List NodeId)
    (hord : orderingNodes G ordering = some order) :
    order.Perm (Graph.nodes G) := by
  unfold orderingNodes at hord
  by_cases h1 : ordering = "default"
  · rw [if_pos h1] at hord
    cases hord
    exact List.Perm.refl _
  · rw [if_neg h1] at hord
    by_cases h2 : ordering = "sorted"
    · rw [if_pos h2] at hord
      cases hord
      exact List.mergeSort_perm G.nodes nodeStrLe
    · rw [if_neg h2] at hord
      by_cases h3 : ordering = "increasing degree"
      · rw [if_pos h3] at hord
        cases hord
        have hp := (List.mergeSort_perm (Graph.degree_list G) degLe).map
          Prod.fst
        rw [degree_list_fsts G h hwf] at hp
        exact hp
      · rw [if_neg h3] at hord
        by_cases h4 : ordering = "decreasing degree"
        · rw [if_pos h4] at hord
          cases hord
          have hp := (List.mergeSort_perm (Graph.degree_list G) degGe).map
            Prod.fst
          rw [degree_list_fsts G h hwf] at hp
          exact hp
        · rw [if_neg h4] at hord
          cases hord

/-- C9 (amended): for a well-formed simple undirected graph whose node
labels have pairwise distinct string forms, and any of the four ordering
names, `convert_node_labels_to_integers(G, first, ordering)` succeeds and
returns a graph whose node set is exactly the integers
`first, …, first + order(G) - 1`.  Without the distinctness condition the
plain-object relabel dictionary collapses labels with equal string forms
(see the counterexample). -/
theorem claim_C9_convert_node_labels (G : Graph NodeId) (h : Heap)
    (first : Int) (ordering : String) (order : List NodeId)
    (hwf : Graph.wf G h)
    (hstr : (G.nodes.map jsToString).Nodup)
    (hord : orderingNodes G ordering = some order) :
    ∃ s, convert_node_labels_to_integers G h first ordering =
        Except.ok s ∧
      ∀ m, m ∈ Graph.nodes s.1 ↔
        ∃ i : Nat, i < Graph.order G ∧ m = NodeId.num (first + i) := by
  unfold convert_node_labels_to_integers
  rw [hord]
  refine ⟨_, rfl, ?_⟩
  intro m
  have hperm := orderingNodes_perm G h hwf ordering order hord
  have hmem := nodes_relabel_copy_mem G h (intMapping order first) hwf m
  show m ∈ Graph.nodes (relabel_copy G h (intMapping order first)).1 ↔ _
  rw [hmem, ← (hperm.map (rwNode (intMapping order first))).mem_iff]
  have hndord : (order.map jsToString).Nodup :=
    (hperm.map jsToString).symm.nodup hstr
  have hrw : order.map (rwNode (intMapping order first)) =
      (List.range order.length).map
        (fun i : Nat => NodeId.num (first + (i : Int))) :=
    intMapping_fold_image order [] first hndord
  rw [hrw, List.mem_map]
  have hlen : order.length = Graph.order G := by
    rw [hperm.length_eq]
    show (jmKeys G.nodes_).length = jmCount G.nodes_
    rw [jmKeys, List.length_map]
    rfl
  constructor
  · rintro ⟨i, hi, hieq⟩
    rw [List.mem_range, hlen] at hi
    exact ⟨i, hi, hieq.symm⟩
  · rintro ⟨i, hi, hieq⟩
    refine ⟨i, ?_, hieq.symm⟩
    rw [List.mem_range, hlen]
    exact hi

theorem claim_C9_witness :
    Graph.wf exG.1 exG.2 ∧
      ((Graph.nodes exG.1).map jsToString).Nodup ∧
      orderingNodes exG.1 "default" = some (Graph.nodes exG.1) ∧
      ∃ s, convert_node_labels_to_integers exG.1 exG.2 5 "default" =
          Except.ok s ∧
        ∀ m, m ∈ Graph.nodes s.1 ↔
          ∃ i : Nat, i < Graph.order exG.1 ∧ m = NodeId.num (5 + i) :=
  ⟨by decide, by decide, by decide,
    claim_C9_convert_node_labels exG.1 exG.2 5 "default"
      (Graph.nodes exG.1) (by decide) (by decide) (by decide)⟩

/-- The original C9 is false: the relabel dictionary is a plain object, so
node labels are coerced to property-name strings.  `c9G` has two
record-labeled nodes, both printing as `[object Object]`; converting with
`first = 0` yields a single node `1` instead of the set `{0, 1}`. -/
theorem claim_C9_counterexample :
    Graph.order c9G.1 = 2 ∧
      (convert_node_labels_to_integers c9G.1 c9G.2 0 "default").map
          (fun s => (Graph.nodes s.1, Graph.order s.1)) =
        Except.ok ([NodeId.num 1], 1) := by
  decide

theorem adjOf_adjUpdate_self {N : Type} [DecidableEq N] (g : Graph N)
    (n : N) (f : JMap N Nat → JMap N Nat) :
    Graph.adjOf (Graph.adjUpdate g n f) n = f (Graph.adjOf g n) := by
  show jmGetD (jmSet g.adj_ n (f (Graph.adjOf g n))) n jmEmpty = _
  unfold jmGetD
  rw [jmGet_set_self]
  rfl

theorem adjOf_adjUpdate_ne {N : Type} [DecidableEq N] (g : Graph N)
    (n x : N) (f : JMap N Nat → JMap N Nat) (hx : x ≠ n) :
    Graph.adjOf (Graph.adjUpdate g n f) x = Graph.adjOf g x := by
  show jmGetD (jmSet g.adj_ n (f (Graph.adjOf g n))) x jmEmpty = _
  unfold jmGetD
  rw [jmGet_set_ne _ _ _ _ hx]
  rfl

theorem adjOf_add_node {N : Type} [DecidableEq N] (g : Graph N) (h : Heap)
    (n : N) (attrs : Obj) (x : N)
    (hka : jmKeys g.nodes_ = jmKeys g.adj_) :
    Graph.adjOf (Graph.add_node g h n attrs).1 x = Graph.adjOf g x := by
  show Graph.adjOf (Graph.add_node_impl g (halloc h attrs).1 n
    (halloc h attrs).2).1 x = _
  unfold Graph.add_node_impl
  by_cases hc : g.has_node n
  · rw [if_pos hc]
    cases hg : jmGet g.nodes_ n <;> rfl
  · rw [if_neg hc]
    by_cases hx : x = n
    · subst hx
      have hcf : jmContains g.adj_ x = false := by
        unfold Graph.has_node at hc
        rcases hb : jmContains g.adj_ x with _ | _
        · rfl
        · exfalso
          have hx : x ∈ jmKeys g.adj_ := (jmContains_iff g.adj_ x).mp hb
          rw [← hka] at hx
          exact hc ((jmContains_iff g.nodes_ x).mpr hx)
      show jmGetD (jmSet g.adj_ x jmEmpty) x jmEmpty = _
      unfold jmGetD
      rw [jmGet_set_self]
      show jmEmpty = (jmGet g.adj_ x).getD jmEmpty
      rw [jmGet_eq_none_of_not_contains g.adj_ x hcf]
      rfl
    · show jmGetD (jmSet g.adj_ n jmEmpty) x jmEmpty = _
      unfold jmGetD
      rw [jmGet_set_ne _ _ _ _ hx]
      rfl

theorem jmContains_set_iff {K V : Type} [DecidableEq K] (m : JMap K V)
    (k : K) (v : V) (x : K) :
    jmContains (jmSet m k v) x = true ↔ x = k ∨ jmContains m x = true := by
  by_cases hx : x = k
  · subst hx
    simp [jmContains_set_self]
  · rw [jmContains_set_ne _ _ _ _ hx]
    simp [hx]

theorem contains_adjOf_two_updates {N : Type} [DecidableEq N] (g : Graph N)
    (u v : N) (addr : Nat) (a b : N) :
    jmContains (Graph.adjOf
      (Graph.adjUpdate (Graph.adjUpdate g u (fun m => jmSet m v addr)) v
        (fun m => jmSet m u addr)) a) b = true ↔
      jmContains (Graph.adjOf g a) b = true ∨
        (a = u ∧ b = v) ∨ (a = v ∧ b = u) := by
  by_cases hav : a = v
  · subst hav
    rw [adjOf_adjUpdate_self, jmContains_set_iff]
    by_cases hau : a = u
    · subst hau
      rw [adjOf_adjUpdate_self, jmContains_set_iff]
      tauto
    · rw [adjOf_adjUpdate_ne _ _ _ _ (fun h => hau h)]
      constructor
      · rintro (hb | hb)
        · exact Or.inr (Or.inr ⟨rfl, hb⟩)
        · exact Or.inl hb
      · rintro (hb | ⟨h1, h2⟩ | ⟨h1, h2⟩)
        · exact Or.inr hb
        · exact absurd h1 hau
        · exact Or.inl h2
  · rw [adjOf_adjUpdate_ne _ _ _ _ (fun h => hav h)]
    by_cases hau : a = u
    · subst hau
      rw [adjOf_adjUpdate_self, jmContains_set_iff]
      constructor
      · rintro (hb | hb)
        · exact Or.inr (Or.inl ⟨rfl, hb⟩)
        · exact Or.inl hb
      · rintro (hb | ⟨h1, h2⟩ | ⟨h1, h2⟩)
        · exact Or.inr hb
        · exact Or.inl h2
        · exact absurd h1 hav
    · rw [adjOf_adjUpdate_ne _ _ _ _ (fun h => hau h)]
      constructor
      · exact Or.inl
      · rintro (hb | ⟨h1, _⟩ | ⟨h1, _⟩)
        · exact hb
        · exact absurd h1 hau
        · exact absurd h1 hav

theorem ka_add_node_impl {N : Type} [DecidableEq N] (g : Graph N) (h : Heap)
    (n : N) (a : Nat) (hka : jmKeys g.nodes_ = jmKeys g.adj_) :
    jmKeys (Graph.add_node_impl g h n a).1.nodes_ =
      jmKeys (Graph.add_node_impl g h n a).1.adj_ := by
  unfold Graph.add_node_impl
  by_cases hc : g.has_node n
  · rw [if_pos hc]
    cases hg : jmGet g.nodes_ n <;> exact hka
  · rw [if_neg hc]
    have hnf : jmContains g.nodes_ n = false := by
      unfold Graph.has_node at hc
      rcases hb : jmContains g.nodes_ n with _ | _
      · rfl
      · exact absurd hb hc
    have haf : jmContains g.adj_ n = false := by
      rcases hb : jmContains g.adj_ n with _ | _
      · rfl
      · exfalso
        have hx : n ∈ jmKeys g.adj_ := (jmContains_iff g.adj_ n).mp hb
        rw [← hka] at hx
        have := (jmContains_iff g.nodes_ n).mpr hx
        rw [this] at hnf
        cases hnf
    show jmKeys (jmSet g.nodes_ n a) = jmKeys (jmSet g.adj_ n jmEmpty)
    rw [jmKeys_set_of_not_contains _ _ _ hnf,
      jmKeys_set_of_not_contains _ _ _ haf, hka]

theorem ka_add_node {N : Type} [DecidableEq N] (g : Graph N) (h : Heap)
    (n : N) (attrs : Obj) (hka : jmKeys g.nodes_ = jmKeys g.adj_) :
    jmKeys (Graph.add_node g h n attrs).1.nodes_ =
      jmKeys (Graph.add_node g h n attrs).1.adj_ :=
  ka_add_node_impl g (halloc h attrs).1 n (halloc h attrs).2 hka

theorem adjOf_add_node_impl {N : Type} [DecidableEq N] (g : Graph N)
    (h : Heap) (n : N) (a : Nat) (x : N)
    (hka : jmKeys g.nodes_ = jmKeys g.adj_) :
    Graph.adjOf (Graph.add_node_impl g h n a).1 x = Graph.adjOf g x := by
  unfold Graph.add_node_impl
  by_cases hc : g.has_node n
  · rw [if_pos hc]
    cases hg : jmGet g.nodes_ n <;> rfl
  · rw [if_neg hc]
    by_cases hx : x = n
    · subst hx
      have hcf : jmContains g.adj_ x = false := by
        unfold Graph.has_node at hc
        rcases hb : jmContains g.adj_ x with _ | _
        · rfl
        · exfalso
          have hmem : x ∈ jmKeys g.adj_ := (jmContains_iff g.adj_ x).mp hb
          rw [← hka] at hmem
          exact hc ((jmContains_iff g.nodes_ x).mpr hmem)
      show jmGetD (jmSet g.adj_ x jmEmpty) x jmEmpty = _
      unfold jmGetD
      rw [jmGet_set_self]
      show jmEmpty = (jmGet g.adj_ x).getD jmEmpty
      rw [jmGet_eq_none_of_not_contains g.adj_ x hcf]
      rfl
    · show jmGetD (jmSet g.adj_ n jmEmpty) x jmEmpty = _
      unfold jmGetD
      rw [jmGet_set_ne _ _ _ _ hx]
      rfl

theorem ka_two_updates {N : Type} [DecidableEq N] (g : Graph N) (u v : N)
    (addr : Nat) (hka : jmKeys g.nodes_ = jmKeys g.adj_)
    (hu : u ∈ jmKeys g.adj_) (hv : v ∈ jmKeys g.adj_) :
    jmKeys (Graph.adjUpdate (Graph.adjUpdate g u (fun m => jmSet m v addr))
        v (fun m => jmSet m u addr)).nodes_ =
      jmKeys (Graph.adjUpdate (Graph.adjUpdate g u (fun m => jmSet m v addr))
        v (fun m => jmSet m u addr)).adj_ := by
  show jmKeys g.nodes_ = jmKeys (jmSet (jmSet g.adj_ u _) v _)
  have hcu : jmContains g.adj_ u = true := (jmContains_iff g.adj_ u).mpr hu
  have hcv : jmContains (jmSet g.adj_ u
      (jmSet (Graph.adjOf g u) v addr)) v = true :=
    (jmContains_set_iff _ _ _ v).mpr (Or.inr ((jmContains_iff g.adj_ v).mpr hv))
  rw [jmKeys_set_of_contains _ _ _ hcv, jmKeys_set_of_contains _ _ _ hcu]
  exact hka

theorem ka_add_edge {N : Type} [DecidableEq N] (g : Graph N) (h : Heap)
    (u v : N) (d : Obj) (hka : jmKeys g.nodes_ = jmKeys g.adj_) :
    jmKeys (Graph.add_edge g h u v d).1.nodes_ =
      jmKeys (Graph.add_edge g h u v d).1.adj_ := by
  have hka1 := ka_add_node g h u [] hka
  have hka2 := ka_add_node (Graph.add_node g h u []).1
    (Graph.add_node g h u []).2 v [] hka1
  have humem : u ∈ jmKeys (Graph.add_node (Graph.add_node g h u []).1
      (Graph.add_node g h u []).2 v []).1.adj_ := by
    rw [← hka2]
    exact (nodes_add_node_mem _ _ _ _ u).mpr
      (Or.inl ((nodes_add_node_mem _ _ _ _ u).mpr (Or.inr rfl)))
  have hvmem : v ∈ jmKeys (Graph.add_node (Graph.add_node g h u []).1
      (Graph.add_node g h u []).2 v []).1.adj_ := by
    rw [← hka2]
    exact (nodes_add_node_mem _ _ _ _ v).mpr (Or.inr rfl)
  unfold Graph.add_edge Graph.add_edge_impl
  dsimp only
  rw [apply_ite Prod.fst]
  split
  · exact hka2
  · exact ka_two_updates _ u v _ hka2 humem hvmem

theorem contains_adjOf_add_edge {N : Type} [DecidableEq N] (g : Graph N)
    (h : Heap) (u v : N) (d : Obj)
    (hka : jmKeys g.nodes_ = jmKeys g.adj_)
    (hsym : ∀ x y, jmContains (Graph.adjOf g x) y =
      jmContains (Graph.adjOf g y) x) (a b : N) :
    jmContains (Graph.adjOf (Graph.add_edge g h u v d).1 a) b = true ↔
      jmContains (Graph.adjOf g a) b = true ∨
        (a = u ∧ b = v) ∨ (a = v ∧ b = u) := by
  have hka1 := ka_add_node g h u [] hka
  have hadj2 : ∀ x, Graph.adjOf (Graph.add_node (Graph.add_node g h u []).1
      (Graph.add_node g h u []).2 v []).1 x = Graph.adjOf g x := fun x =>
    (adjOf_add_node _ _ v [] x hka1).trans (adjOf_add_node g h u [] x hka)
  unfold Graph.add_edge Graph.add_edge_impl
  dsimp only
  rw [apply_ite Prod.fst]
  split
  · next hc =>
    rw [hadj2 a, hadj2 u] at *
    constructor
    · exact Or.inl
    · rintro (hb | ⟨h1, h2⟩ | ⟨h1, h2⟩)
      · exact hb
      · rw [h1, h2]
        exact hc
      · rw [h1, h2, hsym v u]
        exact hc
  · rw [contains_adjOf_two_updates, hadj2 a]

theorem sym_add_edge {N : Type} [DecidableEq N] (g : Graph N) (h : Heap)
    (u v : N) (d : Obj) (hka : jmKeys g.nodes_ = jmKeys g.adj_)
    (hsym : ∀ x y, jmContains (Graph.adjOf g x) y =
      jmContains (Graph.adjOf g y) x) :
    ∀ x y, jmContains (Graph.adjOf (Graph.add_edge g h u v d).1 x) y =
      jmContains (Graph.adjOf (Graph.add_edge g h u v d).1 y) x := by
  intro x y
  rw [Bool.eq_iff_iff, contains_adjOf_add_edge g h u v d hka hsym x y,
    contains_adjOf_add_edge g h u v d hka hsym y x, hsym x y]
  tauto

theorem contains_adjOf_add_edges_from {N : Type} [DecidableEq N]
    (base : Obj) :
    ∀ (eb : List (N × N × Obj)) (g : Graph N) (h : Heap),
      jmKeys g.nodes_ = jmKeys g.adj_ →
      (∀ x y, jmContains (Graph.adjOf g x) y =
        jmContains (Graph.adjOf g y) x) →
      ∀ a b,
        jmContains (Graph.adjOf (Graph.add_edges_from g h eb base).1 a) b
            = true ↔
          jmContains (Graph.adjOf g a) b = true ∨
            ∃ t ∈ eb, (a = t.1 ∧ b = t.2.1) ∨ (a = t.2.1 ∧ b = t.1) := by
  intro eb
  induction eb with
  | nil =>
      intro g h _ _ a b
      simp [Graph.add_edges_from]
  | cons t rest ih =>
      intro g h hka hsym a b
      have hka' := ka_add_edge g h t.1 t.2.1 (objExtend base t.2.2) hka
      have hsym' := sym_add_edge g h t.1 t.2.1 (objExtend base t.2.2)
        hka hsym
      have hstep : Graph.add_edges_from g h (t :: rest) base =
          Graph.add_edges_from
            (Graph.add_edge g h t.1 t.2.1 (objExtend base t.2.2)).1
            (Graph.add_edge g h t.1 t.2.1 (objExtend base t.2.2)).2
            rest base := by
        unfold Graph.add_edges_from
        rw [List.foldl_cons]
      rw [hstep, ih _ _ hka' hsym' a b,
        contains_adjOf_add_edge g h t.1 t.2.1 (objExtend base t.2.2)
          hka hsym a b]
      simp only [List.mem_cons]
      constructor
      · rintro ((hb | hor) | ⟨t', ht', hor⟩)
        · exact Or.inl hb
        · exact Or.inr ⟨t, Or.inl rfl, hor⟩
        · exact Or.inr ⟨t', Or.inr ht', hor⟩
      · rintro (hb | ⟨t', ht' | ht', hor⟩)
        · exact Or.inl (Or.inl hb)
        · subst ht'
          exact Or.inl (Or.inr hor)
        · exact Or.inr ⟨t', ht', hor⟩

theorem ka_adjOf_add_nodes_from_plain {N : Type} [DecidableEq N] :
    ∀ (ns : List N) (g : Graph N) (h : Heap),
      jmKeys g.nodes_ = jmKeys g.adj_ →
      (jmKeys (Graph.add_nodes_from_plain g h ns).1.nodes_ =
        jmKeys (Graph.add_nodes_from_plain g h ns).1.adj_) ∧
      ∀ x, Graph.adjOf (Graph.add_nodes_from_plain g h ns).1 x =
        Graph.adjOf g x := by
  intro ns
  induction ns with
  | nil =>
      intro g h hka
      exact ⟨hka, fun x => rfl⟩
  | cons n rest ih =>
      intro g h hka
      by_cases hc : g.has_node n
      · have hstep : Graph.add_nodes_from_plain g h (n :: rest) =
            Graph.add_nodes_from_plain g h rest := by
          unfold Graph.add_nodes_from_plain
          rw [List.foldl_cons]
          simp [hc]
        rw [hstep]
        exact ih g h hka
      · have hstep : Graph.add_nodes_from_plain g h (n :: rest) =
            Graph.add_nodes_from_plain (Graph.add_node g h n []).1
              (Graph.add_node g h n []).2 rest := by
          unfold Graph.add_nodes_from_plain
          rw [List.foldl_cons]
          simp [hc]
        rw [hstep]
        have hka' := ka_add_node g h n [] hka
        refine ⟨(ih _ _ hka').1, fun x => ?_⟩
        rw [(ih _ _ hka').2 x, adjOf_add_node g h n [] x hka]

theorem ka_adjOf_add_nodes_from_pairs {N : Type} [DecidableEq N] :
    ∀ (ps : List (N × Nat)) (g : Graph N) (h : Heap),
      jmKeys g.nodes_ = jmKeys g.adj_ →
      (jmKeys (Graph.add_nodes_from_pairs g h ps).1.nodes_ =
        jmKeys (Graph.add_nodes_from_pairs g h ps).1.adj_) ∧
      ∀ x, Graph.adjOf (Graph.add_nodes_from_pairs g h ps).1 x =
        Graph.adjOf g x := by
  intro ps
  induction ps with
  | nil =>
      intro g h hka
      exact ⟨hka, fun x => rfl⟩
  | cons p rest ih =>
      intro g h hka
      have hstep : Graph.add_nodes_from_pairs g h (p :: rest) =
          Graph.add_nodes_from_pairs
            (Graph.add_node_impl g (halloc h (objExtend [] (heapAt h p.2))).1
              p.1 (halloc h (objExtend [] (heapAt h p.2))).2).1
            (Graph.add_node_impl g (halloc h (objExtend [] (heapAt h p.2))).1
              p.1 (halloc h (objExtend [] (heapAt h p.2))).2).2
            rest := by
        unfold Graph.add_nodes_from_pairs
        rw [List.foldl_cons]
      rw [hstep]
      have hka' := ka_add_node_impl g
        (halloc h (objExtend [] (heapAt h p.2))).1 p.1
        (halloc h (objExtend [] (heapAt h p.2))).2 hka
      refine ⟨(ih _ _ hka').1, fun x => ?_⟩
      rw [(ih _ _ hka').2 x, adjOf_add_node_impl _ _ _ _ x hka]

theorem ka_add_edges_from {N : Type} [DecidableEq N] (base : Obj) :
    ∀ (eb : List (N × N × Obj)) (g : Graph N) (h : Heap),
      jmKeys g.nodes_ = jmKeys g.adj_ →
      jmKeys (Graph.add_edges_from g h eb base).1.nodes_ =
        jmKeys (Graph.add_edges_from g h eb base).1.adj_ := by
  intro eb
  induction eb with
  | nil =>
      intro g h hka
      exact hka
  | cons t rest ih =>
      intro g h hka
      have hstep : Graph.add_edges_from g h (t :: rest) base =
          Graph.add_edges_from
            (Graph.add_edge g h t.1 t.2.1 (objExtend base t.2.2)).1
            (Graph.add_edge g h t.1 t.2.1 (objExtend base t.2.2)).2
            rest base := by
        unfold Graph.add_edges_from
        rw [List.foldl_cons]
      rw [hstep]
      exact ih _ _ (ka_add_edge g h t.1 t.2.1 (objExtend base t.2.2) hka)

theorem contains_pipeline {N : Type} [DecidableEq N] (g₀ : Graph N)
    (h₀ : Heap) (eb : List (N × N × Obj)) (base : Obj) (ns : List N)
    (ps : List (N × Nat)) (hka : jmKeys g₀.nodes_ = jmKeys g₀.adj_)
    (hsym : ∀ x y, jmContains (Graph.adjOf g₀ x) y =
      jmContains (Graph.adjOf g₀ y) x) (a b : N) :
    jmContains (Graph.adjOf
      (Graph.add_nodes_from_pairs
        (Graph.add_nodes_from_plain
          (Graph.add_edges_from g₀ h₀ eb base).1
          (Graph.add_edges_from g₀ h₀ eb base).2 ns).1
        (Graph.add_nodes_from_plain
          (Graph.add_edges_from g₀ h₀ eb base).1
          (Graph.add_edges_from g₀ h₀ eb base).2 ns).2 ps).1 a) b = true ↔
      jmContains (Graph.adjOf g₀ a) b = true ∨
        ∃ t ∈ eb, (a = t.1 ∧ b = t.2.1) ∨ (a = t.2.1 ∧ b = t.1) := by
  have hka2 := ka_add_edges_from base eb g₀ h₀ hka
  have hplain := ka_adjOf_add_nodes_from_plain ns
    (Graph.add_edges_from g₀ h₀ eb base).1
    (Graph.add_edges_from g₀ h₀ eb base).2 hka2
  have hpairs := ka_adjOf_add_nodes_from_pairs ps
    (Graph.add_nodes_from_plain
      (Graph.add_edges_from g₀ h₀ eb base).1
      (Graph.add_edges_from g₀ h₀ eb base).2 ns).1
    (Graph.add_nodes_from_plain
      (Graph.add_edges_from g₀ h₀ eb base).1
      (Graph.add_edges_from g₀ h₀ eb base).2 ns).2 hplain.1
  rw [show jmContains (Graph.adjOf
      (Graph.add_nodes_from_pairs
        (Graph.add_nodes_from_plain
          (Graph.add_edges_from g₀ h₀ eb base).1
          (Graph.add_edges_from g₀ h₀ eb base).2 ns).1
        (Graph.add_nodes_from_plain
          (Graph.add_edges_from g₀ h₀ eb base).1
          (Graph.add_edges_from g₀ h₀ eb base).2 ns).2 ps).1 a) b =
      jmContains (Graph.adjOf
        (Graph.add_edges_from g₀ h₀ eb base).1 a) b by
    rw [hpairs.2 a, hplain.2 a]]
  exact contains_adjOf_add_edges_from base eb g₀ h₀ hka hsym a b

theorem wf_contains_symm {N : Type} [DecidableEq N] (g : Graph N)
    (h : Heap) (hwf : Graph.wf g h) (u v : N)
    (hc : jmContains (Graph.adjOf g u) v = true) :
    jmContains (Graph.adjOf g v) u = true := by
  have hE := (edgeIn_iff_contains g hwf.2.1 u v).mpr hc
  obtain ⟨e, he, h1, h2⟩ := hE
  simp only [jmKeys] at h2
  obtain ⟨p, hp, hp1⟩ := List.mem_map.mp h2
  have hm := hwf.2.2.2.1 e he p hp
  rw [hp1, h1] at hm
  rw [jmContains_eq_isSome_get, hm]
  rfl

theorem countPair_eq_one_mem {N : Type} [DecidableEq N]
    (l : List (N × N)) (a b : N) (hc : countPair l a b = 1) :
    (a, b) ∈ l ∨ (b, a) ∈ l := by
  unfold countPair at hc
  by_cases hab : a = b
  · rw [if_pos hab] at hc
    left
    have hpos : 0 < l.count (a, b) := by omega
    exact List.count_pos_iff.mp hpos
  · rw [if_neg hab] at hc
    rcases Nat.lt_or_ge 0 (l.count (a, b)) with hpos | hz
    · exact Or.inl (List.count_pos_iff.mp hpos)
    · have hpos : 0 < l.count (b, a) := by omega
      exact Or.inr (List.count_pos_iff.mp hpos)

theorem wf_seen_invariant {N : Type} [DecidableEq N] (g : Graph N)
    (h : Heap) (hwf : Graph.wf g h) :
    ∀ e ∈ g.adj_.entries, ∀ w ∈ jmKeys e.2,
      w ∈ ([] : List N) ∨ edgeIn g.adj_.entries w e.1 := by
  intro e he w hw
  refine Or.inr ?_
  simp only [jmKeys] at hw
  obtain ⟨p, hp, hp1⟩ := List.mem_map.mp hw
  have hmirror := hwf.2.2.2.1 e he p hp
  rw [hp1] at hmirror
  have hcont : jmContains (Graph.adjOf g w) e.1 = true := by
    rw [jmContains_eq_isSome_get, hmirror]
    rfl
  exact (edgeIn_iff_contains g hwf.2.1 w e.1).mpr hcont

theorem edges_with_data_mem_iff {N : Type} [DecidableEq N] (g : Graph N)
    (h : Heap) (hwf : Graph.wf g h) (u v : N) :
    (∃ t ∈ Graph.edges_with_data g,
        (u = t.1 ∧ v = t.2.1) ∨ (u = t.2.1 ∧ v = t.1)) ↔
      jmContains (Graph.adjOf g u) v = true := by
  constructor
  · rintro ⟨t, ht, ⟨h1, h2⟩ | ⟨h1, h2⟩⟩
    · obtain ⟨e, he, he1, he2⟩ := generate_edges_ends g.adj_.entries [] t ht
      have hcont := (edgeIn_iff_contains g hwf.2.1 t.1 t.2.1).mp
        ⟨e, he, he1.symm, he2⟩
      rw [h1, h2]
      exact hcont
    · obtain ⟨e, he, he1, he2⟩ := generate_edges_ends g.adj_.entries [] t ht
      have hcont := (edgeIn_iff_contains g hwf.2.1 t.1 t.2.1).mp
        ⟨e, he, he1.symm, he2⟩
      rw [h1, h2]
      exact wf_contains_symm g h hwf t.1 t.2.1 hcont
  · intro hc
    have hcp := genEdges_countPair g.adj_.entries [] hwf.2.1 hwf.2.2.1
      (fun x _ => List.not_mem_nil x) (wf_seen_invariant g h hwf) u v
    rw [if_pos ⟨List.not_mem_nil u, List.not_mem_nil v,
      (edgeIn_iff_contains g hwf.2.1 u v).mpr hc⟩] at hcp
    rcases countPair_eq_one_mem _ u v hcp with hm | hm
    · obtain ⟨t, ht, hteq⟩ := List.mem_map.mp hm
      refine ⟨t, ht, Or.inl ?_⟩
      have h1 : u = t.1 := congrArg Prod.fst hteq.symm
      have h2 : v = t.2.1 := congrArg Prod.snd hteq.symm
      exact ⟨h1, h2⟩
    · obtain ⟨t, ht, hteq⟩ := List.mem_map.mp hm
      refine ⟨t, ht, Or.inr ?_⟩
      have h1 : v = t.1 := congrArg Prod.fst hteq.symm
      have h2 : u = t.2.1 := congrArg Prod.snd hteq.symm
      exact ⟨h2, h1⟩

theorem contains_relabel_copy (G : Graph NodeId) (h : Heap)
    (mapping : SMap NodeId) (a b : NodeId) :
    jmContains (Graph.adjOf (relabel_copy G h mapping).1 a) b = true ↔
      ∃ t ∈ Graph.edges_with_data G,
        (a = rwNode mapping t.1 ∧ b = rwNode mapping t.2.1) ∨
          (a = rwNode mapping t.2.1 ∧ b = rwNode mapping t.1) := by
  unfold relabel_copy
  rw [contains_pipeline _ _ _ _ _ _ (by rfl) (by intro x y; rfl) a b]
  constructor
  · rintro (h0 | ⟨t, ht, hor⟩)
    · exact Bool.noConfusion h0
    · obtain ⟨t₀, ht₀, hteq⟩ := List.mem_map.mp ht
      refine ⟨t₀, ht₀, ?_⟩
      rcases hor with ⟨h1, h2⟩ | ⟨h1, h2⟩
      · exact Or.inl ⟨by rw [h1, ← hteq], by rw [h2, ← hteq]⟩
      · exact Or.inr ⟨by rw [h1, ← hteq], by rw [h2, ← hteq]⟩
  · rintro ⟨t₀, ht₀, hor⟩
    right
    refine ⟨(rwNode mapping t₀.1, rwNode mapping t₀.2.1, heapAt h t₀.2.2),
      List.mem_map_of_mem _ ht₀, ?_⟩
    rcases hor with ⟨h1, h2⟩ | ⟨h1, h2⟩
    · exact Or.inl ⟨h1, h2⟩
    · exact Or.inr ⟨h1, h2⟩

theorem wf_contains_has_edge {N : Type} [DecidableEq N] (g : Graph N)
    (h : Heap) (hwf : Graph.wf g h) (u v : N)
    (hc : jmContains (Graph.adjOf g u) v = true) :
    Graph.has_edge g u v = true := by
  have hE := (edgeIn_iff_contains g hwf.2.1 u v).mpr hc
  obtain ⟨e, he, h1, h2⟩ := hE
  have hu : u ∈ jmKeys g.adj_ := h1 ▸ List.mem_map_of_mem Prod.fst he
  have hv : v ∈ jmKeys g.adj_ := neighbor_mem_keys g h hwf e he v h2
  rw [← hwf.1] at hu hv
  unfold Graph.has_edge Graph.has_node
  rw [Bool.and_eq_true, Bool.and_eq_true]
  exact ⟨⟨(jmContains_iff g.nodes_ u).mpr hu,
    (jmContains_iff g.nodes_ v).mpr hv⟩, hc⟩

/-- C5 (amended): for every well-formed simple undirected graph, the
copy-mode relabel returns a graph having the edge `(a, b)` exactly when
`G` has an edge `(u, v)` with `a` and `b` the rewritten endpoints.  The
attribute record of a copied edge is a fresh top-level record built by
`goog.object.clone`, which shares all nested structure with `G`'s record
(it is not a deep copy), and directed variants lose every edge; the
counterexample evaluates both defects. -/
theorem claim_C5_relabel_copy_edges (G : Graph NodeId) (h : Heap)
    (mapping : SMap NodeId) (hwf : Graph.wf G h) (a b : NodeId) :
    Graph.has_edge (relabel_copy G h mapping).1 a b = true ↔
      ∃ u v, Graph.has_edge G u v = true ∧
        a = rwNode mapping u ∧ b = rwNode mapping v := by
  constructor
  · intro hH
    unfold Graph.has_edge at hH
    rw [Bool.and_eq_true, Bool.and_eq_true] at hH
    obtain ⟨t₀, ht₀, hor⟩ := (contains_relabel_copy G h mapping a b).mp
      hH.2
    rcases hor with ⟨h1, h2⟩ | ⟨h1, h2⟩
    · refine ⟨t₀.1, t₀.2.1, ?_, h1, h2⟩
      exact wf_contains_has_edge G h hwf t₀.1 t₀.2.1
        ((edges_with_data_mem_iff G h hwf t₀.1 t₀.2.1).mp
          ⟨t₀, ht₀, Or.inl ⟨rfl, rfl⟩⟩)
    · refine ⟨t₀.2.1, t₀.1, ?_, h1, h2⟩
      exact wf_contains_has_edge G h hwf t₀.2.1 t₀.1
        ((edges_with_data_mem_iff G h hwf t₀.2.1 t₀.1).mp
          ⟨t₀, ht₀, Or.inr ⟨rfl, rfl⟩⟩)
  · rintro ⟨u, v, hedge, ha, hb⟩
    unfold Graph.has_edge at hedge ⊢
    rw [Bool.and_eq_true, Bool.and_eq_true] at hedge
    rw [Bool.and_eq_true, Bool.and_eq_true]
    have hGu : u ∈ Graph.nodes G :=
      (jmContains_iff G.nodes_ u).mp hedge.1.1
    have hGv : v ∈ Graph.nodes G :=
      (jmContains_iff G.nodes_ v).mp hedge.1.2
    have hcH : jmContains (Graph.adjOf (relabel_copy G h mapping).1 a) b
        = true := by
      rw [contains_relabel_copy]
      obtain ⟨t, ht, hor⟩ :=
        (edges_with_data_mem_iff G h hwf u v).mpr hedge.2
      refine ⟨t, ht, ?_⟩
      rcases hor with ⟨h1, h2⟩ | ⟨h1, h2⟩
      · exact Or.inl ⟨by rw [ha, h1], by rw [hb, h2]⟩
      · exact Or.inr ⟨by rw [ha, h1], by rw [hb, h2]⟩
    refine ⟨⟨?_, ?_⟩, hcH⟩
    · exact (jmContains_iff _ a).mpr
        ((nodes_relabel_copy_mem G h mapping hwf a).mpr
          (ha ▸ List.mem_map_of_mem (rwNode mapping) hGu))
    · exact (jmContains_iff _ b).mpr
        ((nodes_relabel_copy_mem G h mapping hwf b).mpr
          (hb ▸ List.mem_map_of_mem (rwNode mapping) hGv))

theorem claim_C5_witness :
    Graph.wf exG.1 exG.2 ∧
      (Graph.has_edge (relabel_copy exG.1 exG.2 []).1 (NodeId.num 0)
          (NodeId.num 1) = true ↔
        ∃ u v, Graph.has_edge exG.1 u v = true ∧
          NodeId.num 0 = rwNode [] u ∧ NodeId.num 1 = rwNode [] v) :=
  ⟨by decide, claim_C5_relabel_copy_edges exG.1 exG.2 [] (by decide)
    (NodeId.num 0) (NodeId.num 1)⟩

/-- The original C5 is false in two ways.  Undirected: `c5G` has one edge
whose record (address 4) holds the nested reference `a ↦ ref 0`; the
relabel-copied graph stores a fresh record (address 7) whose `a` field is
the *same* reference `ref 0` — the nested structure is shared, not deep
copied.  Directed: the relabel copy of a one-edge digraph has both nodes
but no edge at all, because the digraph `edges_iter` yields nothing. -/
theorem claim_C5_counterexample :
    Graph.has_edge c5G.1 (NodeId.num 0) (NodeId.num 1) = true ∧
      jmGet (Graph.adjOf c5G.1 (NodeId.num 0)) (NodeId.num 1) = some 4 ∧
      jmGet (Graph.adjOf c5H.1 (NodeId.num 0)) (NodeId.num 1) = some 7 ∧
      objGet (heapAt c5G.2 4) "a" = some (JVal.ref 0) ∧
      objGet (heapAt c5H.2 7) "a" = some (JVal.ref 0) ∧
      DiGraph.has_edge c5DigraphCopy.1 (NodeId.num 0) (NodeId.num 1)
          = false ∧
      jmContains c5DigraphCopy.1.nodes_ (NodeId.num 0) = true ∧
      jmContains c5DigraphCopy.1.nodes_ (NodeId.num 1) = true := by
  decide

theorem remove_node_loop_ok {N : Type} [DecidableEq N] (n : N)
    (m₀ : JMap N Nat) (hsl : ∀ e ∈ m₀.entries, e.1 ≠ n) :
    ∀ (fuel : Nat), ∀ (i : Nat), ∀ (g : Graph N),
      Graph.adjOf g n = m₀ →
      m₀.entries.length + 1 ≤ fuel + i →
      i ≤ m₀.entries.length →
      ∃ g', Graph.remove_node_loop g n m₀.version i fuel =
          (Except.ok g', g') ∧
        g'.nodes_ = g.nodes_ ∧
        (∀ y b, b ≠ n →
          jmContains (Graph.adjOf g' y) b =
            jmContains (Graph.adjOf g y) b) := by
  intro fuel
  induction fuel with
  | zero =>
      intro i g _ h1 h2
      exfalso
      omega
  | succ fuel ih =>
      intro i g hg h1 h2
      show ∃ g', (let m := g.adjOf n;
        if m₀.version ≠ m.version then
          (Except.error (JErr.jsError
            "The map has changed since the iterator was created"), g)
        else
          match m.entries.get? i with
          | none => (Except.ok g, g)
          | some e =>
              Graph.remove_node_loop
                (Graph.adjUpdate g e.1 (fun m₁ => jmRemove m₁ n)) n
                m₀.version (i + 1) fuel) = (Except.ok g', g') ∧ _
      rw [hg]
      rw [if_neg (fun hh => hh rfl)]
      cases hget : m₀.entries.get? i with
      | none =>
          exact ⟨g, rfl, rfl, fun y b _ => rfl⟩
      | some e =>
          have he : e ∈ m₀.entries := List.get?_mem hget
          have hne : e.1 ≠ n := hsl e he
          obtain ⟨hlt, _⟩ := List.get?_eq_some.mp hget
          have hg₁ : Graph.adjOf
              (Graph.adjUpdate g e.1 (fun m₁ => jmRemove m₁ n)) n = m₀ := by
            rw [adjOf_adjUpdate_ne _ _ _ _ (fun hh => hne hh.symm)]
            exact hg
          obtain ⟨g', heq, hnodes, hcont⟩ := ih (i + 1)
            (Graph.adjUpdate g e.1 (fun m₁ => jmRemove m₁ n)) hg₁
            (by omega) (by omega)
          refine ⟨g', heq, hnodes, ?_⟩
          intro y b hb
          rw [hcont y b hb]
          by_cases hy : y = e.1
          · subst hy
            rw [adjOf_adjUpdate_self]
            exact jmContains_remove_ne _ _ _ hb
          · rw [adjOf_adjUpdate_ne _ _ _ _ hy]

theorem remove_node_ok {N : Type} [DecidableEq N] (g : Graph N) (h : Heap)
    (n : N) (hn : Graph.has_node g n = true)
    (hsl : jmContains (Graph.adjOf g n) n = false) :
    ∃ g', Graph.remove_node g h n = (Except.ok (), g', h) ∧
      g'.nodes_ = jmRemove g.nodes_ n ∧
      (∀ y b, y ≠ n → b ≠ n →
        jmContains (Graph.adjOf g' y) b =
          jmContains (Graph.adjOf g y) b) := by
  have hslm : ∀ e ∈ (Graph.adjOf g n).entries, e.1 ≠ n := by
    intro e he hh
    have : jmContains (Graph.adjOf g n) n = true := by
      unfold jmContains
      rw [List.any_eq_true]
      exact ⟨e, he, by simpa using hh⟩
    rw [this] at hsl
    cases hsl
  have hadj₁ : Graph.adjOf { g with nodes_ := jmRemove g.nodes_ n } n =
      Graph.adjOf g n := rfl
  obtain ⟨g₂, heq, hnodes, hcont⟩ := remove_node_loop_ok n (Graph.adjOf g n)
    hslm ((Graph.adjOf g n).entries.length + 2) 0
    { g with nodes_ := jmRemove g.nodes_ n } hadj₁ (by omega) (by omega)
  refine ⟨{ g₂ with adj_ := jmRemove g₂.adj_ n }, ?_, ?_, ?_⟩
  · unfold Graph.remove_node
    rw [if_pos hn]
    unfold Graph.remove_node_impl
    show (match Graph.remove_node_loop
        { g with nodes_ := jmRemove g.nodes_ n } n
        (Graph.adjOf g n).version 0
        ((Graph.adjOf g n).entries.length + 2) with
      | (Except.ok g₂, _) =>
          (Except.ok (), { g₂ with adj_ := jmRemove g₂.adj_ n }, h)
      | (Except.error e, g₂) => (Except.error e, g₂, h)) = _
    rw [heq]
  · rw [hnodes]
  · intro y b hy hb
    have hyadj : Graph.adjOf { g₂ with adj_ := jmRemove g₂.adj_ n } y =
        Graph.adjOf g₂ y := by
      show jmGetD (jmRemove g₂.adj_ n) y jmEmpty = jmGetD g₂.adj_ y jmEmpty
      unfold jmGetD
      rw [jmGet_remove_ne _ _ _ hy]
    rw [hyadj, hcont y b hb]
    rfl

theorem contains_adjOf_add_node_impl_mono {N : Type} [DecidableEq N]
    (g : Graph N) (h : Heap) (n : N) (a : Nat) (x y : N)
    (hc : jmContains
      (Graph.adjOf (Graph.add_node_impl g h n a).1 x) y = true) :
    jmContains (Graph.adjOf g x) y = true := by
  unfold Graph.add_node_impl at hc
  by_cases hn : g.has_node n
  · rw [if_pos hn] at hc
    cases hg : jmGet g.nodes_ n with
    | some a₀ => rw [hg] at hc; exact hc
    | none => rw [hg] at hc; exact hc
  · rw [if_neg hn] at hc
    have hred : jmContains (jmGetD (jmSet g.adj_ n jmEmpty) x jmEmpty) y
        = true := hc
    by_cases hx : x = n
    · subst hx
      unfold jmGetD at hred
      rw [jmGet_set_self] at hred
      exact Bool.noConfusion hred
    · unfold jmGetD at hred
      rw [jmGet_set_ne _ _ _ _ hx] at hred
      exact hred

theorem contains_adjOf_add_node_mono {N : Type} [DecidableEq N]
    (g : Graph N) (h : Heap) (n : N) (attrs : Obj) (x y : N)
    (hc : jmContains
      (Graph.adjOf (Graph.add_node g h n attrs).1 x) y = true) :
    jmContains (Graph.adjOf g x) y = true :=
  contains_adjOf_add_node_impl_mono g (halloc h attrs).1 n
    (halloc h attrs).2 x y hc

theorem contains_adjOf_add_edge_mono {N : Type} [DecidableEq N]
    (g : Graph N) (h : Heap) (u v : N) (d : Obj) (a b : N)
    (hc : jmContains
      (Graph.adjOf (Graph.add_edge g h u v d).1 a) b = true) :
    jmContains (Graph.adjOf g a) b = true ∨
      (a = u ∧ b = v) ∨ (a = v ∧ b = u) := by
  unfold Graph.add_edge Graph.add_edge_impl at hc
  dsimp only at hc
  rw [apply_ite Prod.fst] at hc
  rcases hci : jmContains ((Graph.add_node (Graph.add_node g h u []).1
      (Graph.add_node g h u []).2 v []).1.adjOf u) v with _ | _
  · rw [if_neg (by rw [hci]; exact fun hh => Bool.noConfusion hh)] at hc
    rcases (contains_adjOf_two_updates _ u v _ a b).mp hc with hg | hor
    · exact Or.inl (contains_adjOf_add_node_mono _ _ _ _ _ _
        (contains_adjOf_add_node_mono _ _ _ _ _ _ hg))
    · exact Or.inr hor
  · rw [if_pos hci] at hc
    exact Or.inl (contains_adjOf_add_node_mono _ _ _ _ _ _
      (contains_adjOf_add_node_mono _ _ _ _ _ _ hc))

theorem contains_adjOf_add_edges_from_mono {N : Type} [DecidableEq N]
    (base : Obj) :
    ∀ (eb : List (N × N × Obj)) (g : Graph N) (h : Heap) (a b : N),
      jmContains
        (Graph.adjOf (Graph.add_edges_from g h eb base).1 a) b = true →
      jmContains (Graph.adjOf g a) b = true ∨
        ∃ t ∈ eb, (a = t.1 ∧ b = t.2.1) ∨ (a = t.2.1 ∧ b = t.1) := by
  intro eb
  induction eb with
  | nil =>
      intro g h a b hc
      exact Or.inl hc
  | cons t rest ih =>
      intro g h a b hc
      have hstep : Graph.add_edges_from g h (t :: rest) base =
          Graph.add_edges_from
            (Graph.add_edge g h t.1 t.2.1 (objExtend base t.2.2)).1
            (Graph.add_edge g h t.1 t.2.1 (objExtend base t.2.2)).2
            rest base := by
        unfold Graph.add_edges_from
        rw [List.foldl_cons]
      rw [hstep] at hc
      rcases ih _ _ a b hc with hg | ⟨t', ht', hor⟩
      · rcases contains_adjOf_add_edge_mono _ _ _ _ _ a b hg with
          hg₀ | hor
        · exact Or.inl hg₀
        · exact Or.inr ⟨t, by simp, hor⟩
      · exact Or.inr ⟨t', by simp [ht'], hor⟩

theorem has_node_iff_mem {N : Type} [DecidableEq N] (g : Graph N) (k : N) :
    Graph.has_node g k = true ↔ k ∈ Graph.nodes g :=
  jmContains_iff g.nodes_ k

theorem relabel_go_ok (mapping : SMap String) :
    ∀ (olds : List String) (g : Graph String) (h : Heap),
      olds.Nodup →
      olds.Pairwise (fun o₁ o₂ => jsoGetD mapping o₁ o₁ ≠ o₂) →
      (∀ k ∈ olds, jsoContains mapping k = true →
        Graph.has_node g k = true) →
      (∀ k ∈ olds, jsoContains mapping k = true →
        jmContains (Graph.adjOf g k) k = false) →
      ∃ s', relabel_inplace_go mapping olds (g, h) = Except.ok s' := by
  intro olds
  induction olds with
  | nil =>
      intro g h _ _ _ _
      exact ⟨(g, h), rfl⟩
  | cons old rest ih =>
      intro g h hnd hpw hhas hsl
      simp only [List.nodup_cons] at hnd
      rw [List.pairwise_cons] at hpw
      by_cases hco : jsoContains mapping old = true
      · have hhold := hhas old (by simp) hco
        have hslold := hsl old (by simp) hco
        have hs₁has : Graph.has_node
            (Graph.add_node_impl g h (jsoGetD mapping old old)
              (jmGetD g.nodes_ old 0)).1 old = true := by
          rw [has_node_iff_mem]
          rw [nodes_add_node_impl_mem]
          exact Or.inl ((has_node_iff_mem g old).mp hhold)
        have hs₁sl : jmContains (Graph.adjOf
            (Graph.add_node_impl g h (jsoGetD mapping old old)
              (jmGetD g.nodes_ old 0)).1 old) old = false := by
          rcases hb : jmContains (Graph.adjOf
              (Graph.add_node_impl g h (jsoGetD mapping old old)
                (jmGetD g.nodes_ old 0)).1 old) old with _ | _
          · rfl
          · exfalso
            have := contains_adjOf_add_node_impl_mono g h
              (jsoGetD mapping old old) (jmGetD g.nodes_ old 0) old old hb
            rw [this] at hslold
            cases hslold
        obtain ⟨g₂, hrem, hrnodes, hrcont⟩ := remove_node_ok
          (Graph.add_node_impl g h (jsoGetD mapping old old)
            (jmGetD g.nodes_ old 0)).1
          (Graph.add_node_impl g h (jsoGetD mapping old old)
            (jmGetD g.nodes_ old 0)).2
          old hs₁has hs₁sl
        have hstep : relabel_inplace_step mapping (g, h) old =
            Except.ok (Graph.add_edges_from g₂
              (Graph.add_node_impl g h (jsoGetD mapping old old)
                (jmGetD g.nodes_ old 0)).2
              ((Graph.edges_of_node
                (Graph.add_node_impl g h (jsoGetD mapping old old)
                  (jmGetD g.nodes_ old 0)).1 old).map
                (fun t => (jsoGetD mapping old old, t.2.1,
                  heapAt (Graph.add_node_impl g h
                    (jsoGetD mapping old old)
                    (jmGetD g.nodes_ old 0)).2 t.2.2))) []) := by
          unfold relabel_inplace_step
          rw [if_neg (fun hh => hh hco)]
          dsimp only
          rw [if_neg (fun hh => hh hhold)]
          rw [hrem]
        have hkne : ∀ k ∈ rest, k ≠ old := by
          intro k hk he
          exact hnd.1 (he ▸ hk)
        have hfact1 : ∀ k ∈ rest, jsoContains mapping k = true →
            Graph.has_node (Graph.add_edges_from g₂
              (Graph.add_node_impl g h (jsoGetD mapping old old)
                (jmGetD g.nodes_ old 0)).2
              ((Graph.edges_of_node
                (Graph.add_node_impl g h (jsoGetD mapping old old)
                  (jmGetD g.nodes_ old 0)).1 old).map
                (fun t => (jsoGetD mapping old old, t.2.1,
                  heapAt (Graph.add_node_impl g h
                    (jsoGetD mapping old old)
                    (jmGetD g.nodes_ old 0)).2 t.2.2))) []).1 k = true := by
          intro k hk hkc
          rw [has_node_iff_mem, nodes_add_edges_from_mem]
          refine Or.inl ?_
          show k ∈ jmKeys g₂.nodes_
          rw [hrnodes]
          have hkn : jmContains (jmRemove (Graph.add_node_impl g h
              (jsoGetD mapping old old)
              (jmGetD g.nodes_ old 0)).1.nodes_ old) k = true := by
            rw [jmContains_remove_ne _ _ _ (hkne k hk)]
            exact (has_node_iff_mem _ k).mpr
              ((nodes_add_node_impl_mem _ _ _ _ k).mpr
                (Or.inl ((has_node_iff_mem g k).mp
                  (hhas k (by simp [hk]) hkc))))
          exact (jmContains_iff _ k).mp hkn
        have hfact2 : ∀ k ∈ rest, jsoContains mapping k = true →
            jmContains (Graph.adjOf (Graph.add_edges_from g₂
              (Graph.add_node_impl g h (jsoGetD mapping old old)
                (jmGetD g.nodes_ old 0)).2
              ((Graph.edges_of_node
                (Graph.add_node_impl g h (jsoGetD mapping old old)
                  (jmGetD g.nodes_ old 0)).1 old).map
                (fun t => (jsoGetD mapping old old, t.2.1,
                  heapAt (Graph.add_node_impl g h
                    (jsoGetD mapping old old)
                    (jmGetD g.nodes_ old 0)).2 t.2.2))) []).1 k) k
              = false := by
          intro k hk hkc
          rw [Bool.eq_false_iff]
          intro hb
          rcases contains_adjOf_add_edges_from_mono [] _ _ _ k k hb with
            hg₂ | ⟨t, ht, hor⟩
          · rw [hrcont k k (hkne k hk) (hkne k hk)] at hg₂
            have hgk := contains_adjOf_add_node_impl_mono g h
              (jsoGetD mapping old old) (jmGetD g.nodes_ old 0) k k hg₂
            have hf := hsl k (by simp [hk]) hkc
            rw [hgk] at hf
            cases hf
          · obtain ⟨t₀, _, ht₀eq⟩ := List.mem_map.mp ht
            have ht1 : t.1 = jsoGetD mapping old old := by
              rw [← ht₀eq]
            rcases hor with ⟨hk1, _⟩ | ⟨_, hk1⟩ <;>
              exact hpw.1 k hk (by rw [← ht1, ← hk1])
        show ∃ s', (match relabel_inplace_step mapping (g, h) old with
          | Except.ok s₁ => relabel_inplace_go mapping rest s₁
          | Except.error e => Except.error e) = Except.ok s'
        rw [hstep]
        exact ih _ _ hnd.2 hpw.2 hfact1 hfact2
      · have hstep : relabel_inplace_step mapping (g, h) old =
            Except.ok (g, h) := by
          unfold relabel_inplace_step
          rw [if_pos hco]
        show ∃ s', (match relabel_inplace_step mapping (g, h) old with
          | Except.ok s₁ => relabel_inplace_go mapping rest s₁
          | Except.error e => Except.error e) = Except.ok s'
        rw [hstep]
        exact ih g h hnd.2 hpw.2
          (fun k hk hkc => hhas k (by simp [hk]) hkc)
          (fun k hk hkc => hsl k (by simp [hk]) hkc)

theorem kahnGo_spec (edges : List (String × String)) :
    ∀ (fuel : Nat) (remaining L : List String),
      kahnGo edges fuel remaining = some L →
      remaining.Nodup →
      (∀ x ∈ L, x ∈ remaining) ∧ (∀ x ∈ remaining, x ∈ L) ∧
        L.Nodup ∧
        L.Pairwise (fun a b => ∀ v, (b, v) ∈ edges → v ≠ a) := by
  intro fuel
  induction fuel with
  | zero =>
      intro remaining L hgo hnd
      unfold kahnGo at hgo
      by_cases he : remaining.isEmpty
      · rw [if_pos he] at hgo
        cases hgo
        rw [List.isEmpty_iff] at he
        subst he
        exact ⟨fun x hx => absurd hx (List.not_mem_nil x),
          fun x hx => absurd hx (List.not_mem_nil x),
          List.nodup_nil, List.Pairwise.nil⟩
      · rw [if_neg he] at hgo
        cases hgo
  | succ fuel ih =>
      intro remaining L hgo hnd
      unfold kahnGo at hgo
      by_cases he : remaining.isEmpty
      · rw [if_pos he] at hgo
        cases hgo
        rw [List.isEmpty_iff] at he
        subst he
        exact ⟨fun x hx => absurd hx (List.not_mem_nil x),
          fun x hx => absurd hx (List.not_mem_nil x),
          List.nodup_nil, List.Pairwise.nil⟩
      · rw [if_neg he] at hgo
        cases hpick : kahnStep remaining edges with
        | none =>
            rw [hpick] at hgo
            cases hgo
        | some n =>
            rw [hpick] at hgo
            obtain ⟨L', hgo', hL⟩ := Option.map_eq_some'.mp hgo
            subst hL
            have hnmem : n ∈ remaining :=
              List.mem_of_find?_eq_some hpick
            have hcond := List.find?_some hpick
            rw [decide_eq_true_eq] at hcond
            obtain ⟨h1, h2, h3, h4⟩ := ih (remaining.erase n) L' hgo'
              (hnd.erase n)
            refine ⟨?_, ?_, ?_, ?_⟩
            · intro x hx
              rw [List.mem_cons] at hx
              rcases hx with hx | hx
              · exact hx ▸ hnmem
              · exact List.mem_of_mem_erase (h1 x hx)
            · intro x hx
              rw [List.mem_cons]
              by_cases hxn : x = n
              · exact Or.inl hxn
              · exact Or.inr (h2 x ((List.mem_erase_of_ne hxn).mpr hx))
            · rw [List.nodup_cons]
              refine ⟨fun hmem => ?_, h3⟩
              exact hnd.not_mem_erase (h1 n hmem)
            · rw [List.pairwise_cons]
              refine ⟨?_, h4⟩
              intro b hb v hbv hvn
              rw [hvn] at hbv
              have hbrem : b ∈ remaining :=
                List.mem_of_mem_erase (h1 b hb)
              exact hcond (by
                rw [List.any_eq_true]
                exact ⟨(b, n), hbv, by simp [hbrem]⟩)

theorem dnode_add_node_impl {N : Type} [DecidableEq N] (g : DiGraph N)
    (h : Heap) (n : N) (a : Nat)
    (hka : jmKeys g.nodes_ = jmKeys g.succ_)
    (hnd : (jmKeys g.nodes_).Nodup) :
    jmKeys (DiGraph.add_node_impl g h n a).1.nodes_ =
        jmKeys (DiGraph.add_node_impl g h n a).1.succ_ ∧
      (jmKeys (DiGraph.add_node_impl g h n a).1.nodes_).Nodup ∧
      (∀ x, x ∈ jmKeys (DiGraph.add_node_impl g h n a).1.nodes_ ↔
        x ∈ jmKeys g.nodes_ ∨ x = n) ∧
      (∀ x y, jmContains (DiGraph.succOf g x) y = true →
        jmContains (DiGraph.succOf
          (DiGraph.add_node_impl g h n a).1 x) y = true) := by
  unfold DiGraph.add_node_impl
  by_cases hc : jmContains g.nodes_ n
  · rw [if_pos hc]
    have hmem : n ∈ jmKeys g.nodes_ := (jmContains_iff _ n).mp hc
    refine ⟨hka, hnd, fun x => ?_, fun x y hxy => hxy⟩
    constructor
    · exact Or.inl
    · rintro (hx | hx)
      · exact hx
      · exact hx ▸ hmem
  · rw [if_neg hc]
    have hcf : jmContains g.nodes_ n = false := by
      rcases hb : jmContains g.nodes_ n with _ | _
      · rfl
      · exact absurd hb hc
    have hsf : jmContains g.succ_ n = false := by
      rcases hb : jmContains g.succ_ n with _ | _
      · rfl
      · exfalso
        have hx : n ∈ jmKeys g.succ_ := (jmContains_iff _ n).mp hb
        rw [← hka] at hx
        have := (jmContains_iff g.nodes_ n).mpr hx
        rw [this] at hcf
        cases hcf
    refine ⟨?_, ?_, fun x => ?_, fun x y hxy => ?_⟩
    · show jmKeys (jmSet g.nodes_ n _) = jmKeys (jmSet g.succ_ n jmEmpty)
      rw [jmKeys_set_of_not_contains _ _ _ hcf,
        jmKeys_set_of_not_contains _ _ _ hsf, hka]
    · show (jmKeys (jmSet g.nodes_ n _)).Nodup
      exact jmKeys_nodup_set _ _ _ hnd
    · show x ∈ jmKeys (jmSet g.nodes_ n _) ↔ _
      rw [jmKeys_set_of_not_contains _ _ _ hcf, List.mem_append]
      simp
    · show jmContains (jmGetD (jmSet g.succ_ n jmEmpty) x jmEmpty) y = true
      by_cases hx : x = n
      · exfalso
        subst hx
        have hempty : DiGraph.succOf g x = jmEmpty := by
          unfold DiGraph.succOf jmGetD
          rw [jmGet_eq_none_of_not_contains _ _ hsf]
          rfl
        rw [hempty] at hxy
        exact Bool.noConfusion hxy
      · unfold jmGetD
        rw [jmGet_set_ne _ _ _ _ hx]
        exact hxy

theorem dnode_add_node {N : Type} [DecidableEq N] (g : DiGraph N)
    (h : Heap) (n : N) (attrs : Obj)
    (hka : jmKeys g.nodes_ = jmKeys g.succ_)
    (hnd : (jmKeys g.nodes_).Nodup) :
    jmKeys (DiGraph.add_node g h n attrs).1.nodes_ =
        jmKeys (DiGraph.add_node g h n attrs).1.succ_ ∧
      (jmKeys (DiGraph.add_node g h n attrs).1.nodes_).Nodup ∧
      (∀ x, x ∈ jmKeys (DiGraph.add_node g h n attrs).1.nodes_ ↔
        x ∈ jmKeys g.nodes_ ∨ x = n) ∧
      (∀ x y, jmContains (DiGraph.succOf g x) y = true →
        jmContains (DiGraph.succOf
          (DiGraph.add_node g h n attrs).1 x) y = true) :=
  dnode_add_node_impl g (halloc h attrs).1 n (halloc h attrs).2 hka hnd

theorem dnode_add_edge_impl {N : Type} [DecidableEq N] (g : DiGraph N)
    (h : Heap) (u v : N) (d : Obj)
    (hka : jmKeys g.nodes_ = jmKeys g.succ_)
    (hnd : (jmKeys g.nodes_).Nodup) :
    jmKeys (DiGraph.add_edge_impl g h u v d).1.nodes_ =
        jmKeys (DiGraph.add_edge_impl g h u v d).1.succ_ ∧
      (jmKeys (DiGraph.add_edge_impl g h u v d).1.nodes_).Nodup ∧
      (∀ x, x ∈ jmKeys (DiGraph.add_edge_impl g h u v d).1.nodes_ ↔
        x ∈ jmKeys g.nodes_ ∨ x = u ∨ x = v) ∧
      (∀ x y, jmContains (DiGraph.succOf g x) y = true →
        jmContains (DiGraph.succOf
          (DiGraph.add_edge_impl g h u v d).1 x) y = true) ∧
      jmContains (DiGraph.succOf
        (DiGraph.add_edge_impl g h u v d).1 u) v = true := by
  obtain ⟨hka₁, hnd₁, hmem₁, hpres₁⟩ := dnode_add_node g h u [] hka hnd
  obtain ⟨hka₂, hnd₂, hmem₂, hpres₂⟩ := dnode_add_node
    (DiGraph.add_node g h u []).1 (DiGraph.add_node g h u []).2 v []
    hka₁ hnd₁
  have humem : u ∈ jmKeys (DiGraph.add_node (DiGraph.add_node g h u []).1
      (DiGraph.add_node g h u []).2 v []).1.nodes_ :=
    (hmem₂ u).mpr (Or.inl ((hmem₁ u).mpr (Or.inr rfl)))
  have husucc : jmContains (DiGraph.add_node
      (DiGraph.add_node g h u []).1
      (DiGraph.add_node g h u []).2 v []).1.succ_ u = true := by
    rw [hka₂] at humem
    exact (jmContains_iff _ u).mpr humem
  unfold DiGraph.add_edge_impl
  dsimp only
  rw [apply_ite Prod.fst]
  split
  · next hc =>
    exact ⟨hka₂, hnd₂, fun x => by rw [hmem₂ x, hmem₁ x]; tauto,
      fun x y hxy => hpres₂ x y (hpres₁ x y hxy), hc⟩
  · next hc =>
    refine ⟨?_, hnd₂, fun x => by rw [hmem₂ x, hmem₁ x]; tauto, ?_, ?_⟩
    · show jmKeys (DiGraph.add_node (DiGraph.add_node g h u []).1
          (DiGraph.add_node g h u []).2 v []).1.nodes_ =
        jmKeys (jmSet (DiGraph.add_node (DiGraph.add_node g h u []).1
          (DiGraph.add_node g h u []).2 v []).1.succ_ u _)
      rw [jmKeys_set_of_contains _ _ _ husucc]
      exact hka₂
    · intro x y hxy
      have hxy₂ := hpres₂ x y (hpres₁ x y hxy)
      show jmContains (jmGetD (jmSet (DiGraph.add_node
          (DiGraph.add_node g h u []).1
          (DiGraph.add_node g h u []).2 v []).1.succ_ u _) x jmEmpty) y
        = true
      by_cases hx : x = u
      · subst hx
        unfold jmGetD
        rw [jmGet_set_self]
        show jmContains (jmSet (DiGraph.succOf (DiGraph.add_node
          (DiGraph.add_node g h x []).1
          (DiGraph.add_node g h x []).2 v []).1 x) v _) y = true
        by_cases hy : y = v
        · subst hy
          exact jmContains_set_self _ _ _
        · rw [jmContains_set_ne _ _ _ _ hy]
          exact hxy₂
      · unfold jmGetD
        rw [jmGet_set_ne _ _ _ _ hx]
        exact hxy₂
    · show jmContains (jmGetD (jmSet (DiGraph.add_node
          (DiGraph.add_node g h u []).1
          (DiGraph.add_node g h u []).2 v []).1.succ_ u _) u jmEmpty) v
        = true
      unfold jmGetD
      rw [jmGet_set_self]
      exact jmContains_set_self _ _ _

theorem dfold_spec {N : Type} [DecidableEq N] :
    ∀ (es : List (N × N)) (g : DiGraph N) (h : Heap),
      jmKeys g.nodes_ = jmKeys g.succ_ →
      (jmKeys g.nodes_).Nodup →
      (jmKeys (es.foldl
          (fun s e => DiGraph.add_edge_impl s.1 s.2 e.1 e.2 [])
          (g, h)).1.nodes_ =
        jmKeys (es.foldl
          (fun s e => DiGraph.add_edge_impl s.1 s.2 e.1 e.2 [])
          (g, h)).1.succ_) ∧
      (jmKeys (es.foldl
          (fun s e => DiGraph.add_edge_impl s.1 s.2 e.1 e.2 [])
          (g, h)).1.nodes_).Nodup ∧
      (∀ x, x ∈ jmKeys (es.foldl
          (fun s e => DiGraph.add_edge_impl s.1 s.2 e.1 e.2 [])
          (g, h)).1.nodes_ ↔
        x ∈ jmKeys g.nodes_ ∨ ∃ p ∈ es, x = p.1 ∨ x = p.2) ∧
      (∀ x y, jmContains (DiGraph.succOf g x) y = true →
        jmContains (DiGraph.succOf (es.foldl
          (fun s e => DiGraph.add_edge_impl s.1 s.2 e.1 e.2 [])
          (g, h)).1 x) y = true) ∧
      (∀ p ∈ es, jmContains (DiGraph.succOf (es.foldl
          (fun s e => DiGraph.add_edge_impl s.1 s.2 e.1 e.2 [])
          (g, h)).1 p.1) p.2 = true) := by
  intro es
  induction es with
  | nil =>
      intro g h hka hnd
      exact ⟨hka, hnd, fun x => by simp, fun x y hxy => hxy,
        fun p hp => absurd hp (List.not_mem_nil p)⟩
  | cons e rest ih =>
      intro g h hka hnd
      obtain ⟨hka₁, hnd₁, hmem₁, hpres₁, hins₁⟩ :=
        dnode_add_edge_impl g h e.1 e.2 [] hka hnd
      rw [List.foldl_cons]
      obtain ⟨hka', hnd', hmem', hgen', hest'⟩ := ih
        (DiGraph.add_edge_impl g h e.1 e.2 []).1
        (DiGraph.add_edge_impl g h e.1 e.2 []).2 hka₁ hnd₁
      refine ⟨hka', hnd', fun x => ?_,
        fun x y hxy => hgen' x y (hpres₁ x y hxy), fun p hp => ?_⟩
      · rw [hmem' x, hmem₁ x]
        simp only [List.mem_cons]
        constructor
        · rintro ((hx | hx | hx) | ⟨p, hps, hor⟩)
          · exact Or.inl hx
          · exact Or.inr ⟨e, Or.inl rfl, Or.inl hx⟩
          · exact Or.inr ⟨e, Or.inl rfl, Or.inr hx⟩
          · exact Or.inr ⟨p, Or.inr hps, hor⟩
        · rintro (hx | ⟨p, hpe | hps, hor⟩)
          · exact Or.inl (Or.inl hx)
          · subst hpe
            rcases hor with hor | hor
            · exact Or.inl (Or.inr (Or.inl hor))
            · exact Or.inl (Or.inr (Or.inr hor))
          · exact Or.inr ⟨p, hps, hor⟩
      · rw [List.mem_cons] at hp
        rcases hp with hp | hp
        · subst hp
          exact hgen' p.1 p.2 hins₁
        · exact hest' p hp

theorem remove_selfloops_error {N : Type} [DecidableEq N] (g : DiGraph N)
    (hka : jmKeys g.nodes_ = jmKeys g.succ_)
    (hnd : (jmKeys g.nodes_).Nodup)
    (hne : DiGraph.selfloop_edges g ≠ []) :
    DiGraph.remove_edges_from g (DiGraph.selfloop_edges g) =
      Except.error (JErr.typeError "this.has_node_ is not a function") := by
  cases hsl : DiGraph.selfloop_edges g with
  | nil => exact absurd hsl hne
  | cons p rest =>
      have hp : p ∈ DiGraph.selfloop_edges g := by
        rw [hsl]
        exact List.mem_cons_self p rest
      unfold DiGraph.selfloop_edges at hp
      obtain ⟨e, he', hpe⟩ := List.mem_map.mp hp
      rw [List.mem_filter] at he'
      obtain ⟨he, heself⟩ := he'
      have hndsucc : (jmKeys g.succ_).Nodup := hka ▸ hnd
      have hsucc : DiGraph.succOf g e.1 = e.2 := by
        unfold DiGraph.succOf jmGetD
        rw [jmGet_of_mem_nodup g.succ_ hndsucc e he]
        rfl
      have hnodemem : e.1 ∈ jmKeys g.nodes_ := by
        rw [hka]
        exact List.mem_map_of_mem Prod.fst he
      have hedge : DiGraph.has_edge g p.1 p.2 = true := by
        rw [← hpe]
        unfold DiGraph.has_edge DiGraph.has_node
        rw [Bool.and_eq_true, Bool.and_eq_true, hsucc]
        exact ⟨⟨(jmContains_iff _ _).mpr hnodemem,
          (jmContains_iff _ _).mpr hnodemem⟩, heself⟩
      show DiGraph.remove_edges_from g (p :: rest) = _
      unfold DiGraph.remove_edges_from
      rw [if_pos hedge]
      rfl

theorem edge_pairs_of_contains {N : Type} [DecidableEq N] (g : DiGraph N)
    (u v : N) (hc : jmContains (DiGraph.succOf g u) v = true) :
    (u, v) ∈ DiGraph.edge_pairs g := by
  by_cases hk : jmContains g.succ_ u = true
  · have hs : (jmGet g.succ_ u).isSome := by
      rw [← jmContains_eq_isSome_get]
      exact hk
    obtain ⟨m, hm⟩ := Option.isSome_iff_exists.mp hs
    obtain ⟨e, he, h1e, h2e⟩ := jmGet_some_mem g.succ_ u m hm
    have hsucc : DiGraph.succOf g u = m := by
      unfold DiGraph.succOf jmGetD
      rw [hm]
      rfl
    rw [hsucc] at hc
    unfold DiGraph.edge_pairs
    rw [List.mem_flatMap]
    refine ⟨e, he, ?_⟩
    rw [List.mem_map]
    refine ⟨v, ?_, by rw [h1e]⟩
    rw [h2e]
    exact (jmContains_iff m v).mp hc
  · exfalso
    have hkf : jmContains g.succ_ u = false := by
      rcases hb : jmContains g.succ_ u with _ | _
      · rfl
      · exact absurd hb hk
    have hempty : DiGraph.succOf g u = jmEmpty := by
      unfold DiGraph.succOf jmGetD
      rw [jmGet_eq_none_of_not_contains _ _ hkf]
      rfl
    rw [hempty] at hc
    exact Bool.noConfusion hc

theorem selfloop_edges_shape {N : Type} [DecidableEq N] (g : DiGraph N) :
    ∀ p ∈ DiGraph.selfloop_edges g, p.1 = p.2 := by
  intro p hp
  unfold DiGraph.selfloop_edges at hp
  obtain ⟨e, _, hpe⟩ := List.mem_map.mp hp
  rw [← hpe]

theorem jsoContains_iff {V : Type} (m : SMap V) (k : String) :
    jsoContains m k = true ↔ k ∈ jsoKeys m := by
  simp [jsoContains, jsoKeys, List.any_eq_true, List.mem_map]

theorem jsoGetD_mem {V : Type} (m : SMap V) (k : String) (d : V)
    (hc : jsoContains m k = true) : (k, jsoGetD m k d) ∈ m := by
  unfold jsoGetD
  cases hf : m.find? (fun kv => kv.1 = k) with
  | none =>
      exfalso
      unfold jsoContains at hc
      rw [List.any_eq_true] at hc
      obtain ⟨kv, hkv, hkk⟩ := hc
      have := List.find?_eq_none.mp hf kv hkv
      exact this hkk
  | some kv =>
      have hkv1 := List.find?_some hf
      rw [decide_eq_true_eq] at hkv1
      have hmem := List.mem_of_find?_eq_some hf
      rw [← hkv1]
      exact hmem

theorem topo_ok_inv (D : DiGraph String) (L : List String)
    (h : topological_sort D = Except.ok L) :
    kahnGo (DiGraph.edge_pairs D) (jmKeys D.nodes_).length
      (jmKeys D.nodes_) = some L := by
  unfold topological_sort at h
  dsimp only at h
  cases hk : kahnGo (DiGraph.edge_pairs D) (jmKeys D.nodes_).length
      (jmKeys D.nodes_) with
  | some L' =>
      rw [hk] at h
      cases h
      rfl
  | none =>
      rw [hk] at h
      cases h

theorem mapping_edge_in_D (h : Heap) (mapping : SMap String) (b : String)
    (hcb : jsoContains mapping b = true) :
    (b, jsoGetD mapping b b) ∈ DiGraph.edge_pairs
      (DiGraph.from_edge_pairs h (jsoItems mapping)).1 := by
  have hmem : (b, jsoGetD mapping b b) ∈ jsoItems mapping :=
    jsoGetD_mem mapping b b hcb
  have hds : jmContains (DiGraph.succOf
      (DiGraph.from_edge_pairs h (jsoItems mapping)).1 b)
      (jsoGetD mapping b b) = true :=
    (dfold_spec (jsoItems mapping) DiGraph.empty h rfl
      List.nodup_nil).2.2.2.2 (b, jsoGetD mapping b b) hmem
  exact edge_pairs_of_contains _ b _ hds

/-- C6 (amended): for overlapping label sets the in-place relabel builds
the mapping digraph and calls `remove_edges_from(selfloop_edges())`, but
`DiGraph.remove_edge_impl` dereferences the undefined method `has_node_`
(digraph.js line 218): when the mapping contains an identity pair the
digraph has a self loop and the relabel crashes with that `TypeError`
before any sort is attempted.  With no self loop the removal is a no-op;
a topological-sort failure is then rethrown as the `JSNetworkXUnfeasible`
error — an error kind distinct from the lookup and structural
`JSNetworkXError`s — whose message instructs the caller to use copy mode,
and on sort success the nodes are processed in reverse topological order,
completing provided every mapping key is a node of the graph and carries
no self loop (a self loop at a mapped node crashes the defective
`remove_node` instead, see the counterexample). -/
theorem claim_C6_relabel_inplace_overlap (G : Graph String) (h : Heap)
    (mapping : SMap String)
    (hov : (jsoKeys mapping).filter
      (fun k => k ∈ jsoValues mapping) ≠ []) :
    (DiGraph.selfloop_edges
        (DiGraph.from_edge_pairs h (jsoItems mapping)).1 ≠ [] →
      relabel_inplace G h mapping = Except.error
        (JErr.typeError "this.has_node_ is not a function")) ∧
    (DiGraph.selfloop_edges
        (DiGraph.from_edge_pairs h (jsoItems mapping)).1 = [] →
      (∀ e, topological_sort
          (DiGraph.from_edge_pairs h (jsoItems mapping)).1 =
            Except.error e →
        relabel_inplace G h mapping = Except.error (JErr.unfeasible
          "The node label sets are overlapping and no ordering can resolve the mapping. Use copy=True.")) ∧
      (∀ L, topological_sort
          (DiGraph.from_edge_pairs h (jsoItems mapping)).1 =
            Except.ok L →
        (∀ k ∈ jsoKeys mapping, Graph.has_node G k = true) →
        (∀ k ∈ jsoKeys mapping, jmContains (Graph.adjOf G k) k = false) →
        ∃ s, relabel_inplace G h mapping = Except.ok s)) := by
  have hka : jmKeys (DiGraph.from_edge_pairs h (jsoItems mapping)).1.nodes_
      = jmKeys (DiGraph.from_edge_pairs h (jsoItems mapping)).1.succ_ :=
    (dfold_spec (jsoItems mapping) DiGraph.empty h rfl List.nodup_nil).1
  have hnd : (jmKeys
      (DiGraph.from_edge_pairs h (jsoItems mapping)).1.nodes_).Nodup :=
    (dfold_spec (jsoItems mapping) DiGraph.empty h rfl List.nodup_nil).2.1
  have hun : relabel_inplace G h mapping =
      (match DiGraph.remove_edges_from
          (DiGraph.from_edge_pairs h (jsoItems mapping)).1
          (DiGraph.selfloop_edges
            (DiGraph.from_edge_pairs h (jsoItems mapping)).1) with
      | Except.error err => Except.error err
      | Except.ok D =>
          match topological_sort D with
          | Except.error _ => Except.error (JErr.unfeasible
              "The node label sets are overlapping and no ordering can resolve the mapping. Use copy=True.")
          | Except.ok L => relabel_inplace_go mapping L.reverse
              (G, (DiGraph.from_edge_pairs h (jsoItems mapping)).2)) := by
    unfold relabel_inplace
    rw [if_pos hov]
  refine ⟨?_, ?_⟩
  · intro hne
    rw [hun, remove_selfloops_error _ hka hnd hne]
  · intro hz
    have hrw : DiGraph.remove_edges_from
        (DiGraph.from_edge_pairs h (jsoItems mapping)).1
        (DiGraph.selfloop_edges
          (DiGraph.from_edge_pairs h (jsoItems mapping)).1) =
        Except.ok (DiGraph.from_edge_pairs h (jsoItems mapping)).1 := by
      rw [hz]
      rfl
    have hun2 : relabel_inplace G h mapping =
        (match topological_sort
            (DiGraph.from_edge_pairs h (jsoItems mapping)).1 with
        | Except.error _ => Except.error (JErr.unfeasible
            "The node label sets are overlapping and no ordering can resolve the mapping. Use copy=True.")
        | Except.ok L => relabel_inplace_go mapping L.reverse
            (G, (DiGraph.from_edge_pairs h (jsoItems mapping)).2)) := by
      rw [hun, hrw]
    constructor
    · intro e he
      rw [hun2, he]
    · intro L hok hhas hsl
      rw [hun2, hok]
      have hkahn := topo_ok_inv _ _ hok
      obtain ⟨hsub, hsup, hndL, hpwL⟩ := kahnGo_spec _ _ _ L hkahn hnd
      have hndrev : L.reverse.Nodup := by
        rw [List.nodup_reverse]
        exact hndL
      have hpwrev : L.reverse.Pairwise
          (fun o₁ o₂ => jsoGetD mapping o₁ o₁ ≠ o₂) := by
        rw [List.pairwise_reverse]
        refine (hpwL.and hndL).imp ?_
        intro a b hab
        obtain ⟨hR, hne⟩ := hab
        by_cases hcb : jsoContains mapping b = true
        · exact hR (jsoGetD mapping b b) (mapping_edge_in_D h mapping b hcb)
        · have hdef : jsoGetD mapping b b = b := by
            unfold jsoGetD
            cases hf : mapping.find? (fun kv => kv.1 = b) with
            | none => rfl
            | some kv =>
                exfalso
                have hkv1 := List.find?_some hf
                rw [decide_eq_true_eq] at hkv1
                have hmem := List.mem_of_find?_eq_some hf
                exact hcb ((jsoContains_iff mapping b).mpr
                  (hkv1 ▸ List.mem_map_of_mem Prod.fst hmem))
          rw [hdef]
          exact fun hh => hne hh.symm
      exact relabel_go_ok mapping L.reverse G
        (DiGraph.from_edge_pairs h (jsoItems mapping)).2 hndrev hpwrev
        (fun k _ hkc => hhas k ((jsoContains_iff mapping k).mp hkc))
        (fun k _ hkc => hsl k ((jsoContains_iff mapping k).mp hkc))

theorem claim_C6_witness :
    ((jsoKeys c6MappingId).filter
        (fun k => k ∈ jsoValues c6MappingId) ≠ []) ∧
      relabel_inplace c6G.1 c6G.2 c6MappingId = Except.error
        (JErr.typeError "this.has_node_ is not a function") ∧
      ((jsoKeys c6MappingCyc).filter
        (fun k => k ∈ jsoValues c6MappingCyc) ≠ []) ∧
      relabel_inplace c6G.1 c6G.2 c6MappingCyc = Except.error
        (JErr.unfeasible
          "The node label sets are overlapping and no ordering can resolve the mapping. Use copy=True.") ∧
      ((jsoKeys c6Mapping).filter
        (fun k => k ∈ jsoValues c6Mapping) ≠ []) ∧
      ∃ s, relabel_inplace c6OkG.1 c6OkG.2 c6Mapping = Except.ok s :=
  ⟨by decide,
    (claim_C6_relabel_inplace_overlap c6G.1 c6G.2 c6MappingId
      (by decide)).1 (by decide),
    by decide,
    ((claim_C6_relabel_inplace_overlap c6G.1 c6G.2 c6MappingCyc
      (by decide)).2 (by decide)).1
      (JErr.unfeasible "Graph contains a cycle.") (by decide),
    by decide,
    ((claim_C6_relabel_inplace_overlap c6OkG.1 c6OkG.2 c6Mapping
      (by decide)).2 (by decide)).2 ["a", "b", "c"] (by decide)
      (by decide) (by decide)⟩

/-- The original C6 is false in two ways.  With the overlapping identity
mapping `{a: a}` the self-loop-removal step itself crashes: the mapping
digraph has a self loop, so `remove_edges_from` reaches the broken
`remove_edge_impl` and the `TypeError` of the undefined `has_node_`
escapes — no infeasibility error, no completion.  And `c6G` carries a
self loop at `a`: with the overlapping acyclic mapping `{a: b, b: c}` the
topological sort succeeds, yet the in-place relabel crashes with the
keyed map's concurrent-modification `Error` raised while
`remove_node('a')` iterates the self loop's neighbor map. -/
theorem claim_C6_counterexample :
    ((jsoKeys c6MappingId).filter
        (fun k => k ∈ jsoValues c6MappingId) ≠ []) ∧
      relabel_inplace c6G.1 c6G.2 c6MappingId = Except.error
        (JErr.typeError "this.has_node_ is not a function") ∧
      ((jsoKeys c6Mapping).filter
        (fun k => k ∈ jsoValues c6Mapping) ≠ []) ∧
      topological_sort (DiGraph.from_edge_pairs c6G.2
        (jsoItems c6Mapping)).1 = Except.ok ["a", "b", "c"] ∧
      relabel_inplace c6G.1 c6G.2 c6Mapping = Except.error
        (JErr.jsError "The map has changed since the iterator was created")
    := by
  refine ⟨by decide, by decide, by decide, by decide, by decide⟩
